import Mathlib

/-!
# ADS_set: a coalesced-hashing set (`ADS_set.h`)

Shallow embedding of the class template `ADS_set<Key, N>`.

Modelling conventions
* The heap array `table` (of `tableWithKeller_size + 1` elements) is a `List`.
  A read or write outside the array is undefined behaviour in the source and
  makes the modelled operation return `none`.
* `int next` with the sentinel value `-1` is `Option Nat` (`none` is `-1`).
* `size_t` values are `Nat`; the source's arithmetic on them stays far below
  `2^64` for every table that fits in memory, except for the decrement of
  `last_free` in the free-slot scan of `insert_`, whose wrap-around below `0`
  is modelled explicitly (the next read is out of bounds).
* `std::hash<Key>` is the parameter `hasher`; `std::equal_to<Key>` is
  decidable equality on `Key`.
* `float max_lf = 0.6` is the binary32 number `10066330 / 2^24`.  The two
  expressions `n > table_size * max_lf` and `size_type(curr_size / max_lf)`
  are computed as the source computes them, in binary32 with rounding to
  nearest, ties to even (`round24`, `overLoad`, `minTableFor`): the integers
  are converted to binary32, the product or quotient is rounded to binary32,
  and the conversion to `size_type` truncates.
* `size_type(new_table_size * 0.1628)` is a `double` computation; it is
  evaluated as `new_table_size * 1628 / 10000` over the integers (`kellerOf`),
  which is the value of the `double` computation for the capacities
  `2^k - 1` that the set takes.
* Loops that follow `next` links carry a fuel equal to the number of slots
  of the array: a walk that visits more slots than the array has is inside a
  cycle and never returns in the source; it is `none` here.  The same `none`
  stands for the exception thrown by `find_`.
-/

set_option autoImplicit false

namespace ADS

/-- Slot state `enum class Mode { free, used, end }`. -/
inductive Mode where
  | free
  | used
  | end_
  deriving DecidableEq

/-- Storage cell `struct element { key_type key; Mode mode; int next; }`. -/
structure element (Key : Type) where
  key : Key
  mode : Mode
  next : Option Nat
  deriving DecidableEq

/-- Data members of `ADS_set` (`max_lf` is a constant, the binary32 number nearest
to `0.6`). -/
structure ADS_set (Key : Type) where
  table : List (element Key)
  last_free : Nat
  table_size : Nat
  curr_size : Nat
  tableWithKeller_size : Nat
  deriving DecidableEq

/-- Template parameter `size_t N = 7`, at its default. -/
def N : Nat := 7

/-- Position of the leading binary digit of `x` (`0` for `x < 2`); the first
argument bounds the number of halvings. -/
def log2_fuel : Nat → Nat → Nat
  | 0, _ => 0
  | fuel + 1, x => if x < 2 then 0 else log2_fuel fuel (x / 2) + 1

/-- Rounding to the 24 significant bits of binary32, to nearest, ties to even.
The number rounded is `x` when `sticky` is `false`, and lies strictly between
`x` and `x + 1` when `sticky` is `true`; the result is an integer because
`x >= 2^24` whenever a bit is dropped. -/
def round24 (x : Nat) (sticky : Bool) : Nat :=
  if x < 16777216 then x
  else
    let k := log2_fuel x x - 23
    let q := x / 2 ^ k
    let r := x % 2 ^ k
    let half := 2 ^ (k - 1)
    if half < r ∨ (r = half ∧ (sticky = true ∨ q % 2 = 1)) then (q + 1) * 2 ^ k else q * 2 ^ k

/-- The test `n > table_size * max_lf` with `float max_lf = 0.6`: both integers
are converted to binary32, the product with `max_lf = 10066330 / 2^24` is
rounded to binary32, and the two binary32 numbers are compared (both sides are
scaled by `2^24` here). -/
def overLoad (n table_size : Nat) : Bool :=
  decide (round24 (round24 table_size false * 10066330) false < round24 n false * 16777216)

/-- The value `size_type(curr_size / max_lf)` with `float max_lf = 0.6`:
`curr_size` is converted to binary32, the quotient by `10066330 / 2^24` is
rounded to binary32 (computed here scaled by `2^32`, so that its integer part
has at least 24 bits) and truncated. -/
def minTableFor (curr_size : Nat) : Nat :=
  let a := round24 curr_size false * 72057594037927936
  round24 (a / 10066330) (decide (a % 10066330 ≠ 0)) / 4294967296

/-- The value `size_type(new_table_size * 0.1628)`. -/
def kellerOf (new_table_size : Nat) : Nat := new_table_size * 1628 / 10000

section ops

variable {Key : Type} [DecidableEq Key] [Inhabited Key]

/-- A default-initialised `element`: `mode = Mode::free`, `next = -1`. -/
def element.fresh : element Key := { key := default, mode := Mode.free, next := none }

/-- Member `h`: `hasher{}(key) % table_size`. -/
def h (hasher : Key → Nat) (s : ADS_set Key) (key : Key) : Nat := hasher key % s.table_size

/-- The `do ... while (true)` loop of `find_`, started at slot `idx`.
Result `some (some i)`: pointer to slot `i`; `some none`: `nullptr`;
`none`: the exception, an out-of-bounds access or no return. -/
def find_loop (key : Key) (tbl : List (element Key)) : Nat → Nat → Option (Option Nat)
  | 0, _ => none
  | fuel + 1, idx =>
    match tbl[idx]? with
    | none => none
    | some e =>
      match e.mode with
      | Mode.free => some none
      | Mode.used =>
        if e.key = key then some (some idx)
        else
          match e.next with
          | none => some none
          | some j => find_loop key tbl fuel j
      | Mode.end_ => none

/-- Member `find_`. -/
def find_ (hasher : Key → Nat) (s : ADS_set Key) (key : Key) : Option (Option Nat) :=
  find_loop key s.table s.table.length (h hasher s key)

/-- Member `count`: `!!find_(key)`. -/
def count (hasher : Key → Nat) (s : ADS_set Key) (key : Key) : Option Nat :=
  (find_ hasher s key).map (fun p => if p.isSome then 1 else 0)

/-- Member `find`: the iterator position, `end()` being `tableWithKeller_size`. -/
def find (hasher : Key → Nat) (s : ADS_set Key) (key : Key) : Option Nat :=
  (find_ hasher s key).map (fun p => p.getD s.tableWithKeller_size)

/-- Member `size`. -/
def size (s : ADS_set Key) : Nat := s.curr_size

/-- Member `empty`. -/
def empty (s : ADS_set Key) : Bool := decide (s.curr_size = 0)

/-- The scan `while (last_free >= 0 && table[last_free].mode == Mode::used) last_free--;`
of `insert_`.  `last_free` is unsigned, so the first conjunct always holds:
decrementing at `0` wraps around and the next read is outside the array. -/
def scan_free (tbl : List (element Key)) : Nat → Option Nat
  | 0 =>
    match tbl[0]? with
    | none => none
    | some e => if e.mode = Mode.used then none else some 0
  | c + 1 =>
    match tbl[c + 1]? with
    | none => none
    | some e => if e.mode = Mode.used then scan_free tbl c else some (c + 1)

/-- The `do ... while (!found_last_next)` loop of `insert_`: from `last_next`
(whose `next` is not `-1`) to the slot of its chain whose `next` is `-1`. -/
def last_next_loop (tbl : List (element Key)) : Nat → Nat → Option Nat
  | 0, _ => none
  | fuel + 1, last_next =>
    match tbl[last_next]? with
    | none => none
    | some e =>
      match e.next with
      | none => none
      | some j =>
        match tbl[j]? with
        | none => none
        | some e' => if e'.next = none then some j else last_next_loop tbl fuel j

/-- The three writes `table[i].key = key; table[i].mode = Mode::used; table[i].next = -1`. -/
def write_used (tbl : List (element Key)) (i : Nat) (key : Key) : List (element Key) :=
  tbl.set i { key := key, mode := Mode.used, next := none }

/-- The write `table[i].next = nx`; `none` when `i` is outside the array. -/
def set_next (tbl : List (element Key)) (i : Nat) (nx : Option Nat) :
    Option (List (element Key)) :=
  match tbl[i]? with
  | none => none
  | some e => some (tbl.set i { e with next := nx })

/-- The write `table[i].mode = Mode::free`; `none` when `i` is outside the array. -/
def set_free (tbl : List (element Key)) (i : Nat) : Option (List (element Key)) :=
  match tbl[i]? with
  | none => none
  | some e => some (tbl.set i { e with mode := Mode.free })

/-- Member `insert_`; the second component is the slot pointed to by the result. -/
def insert_ (hasher : Key → Nat) (s : ADS_set Key) (key : Key) : Option (ADS_set Key × Nat) :=
  let idx := h hasher s key
  match s.table[idx]? with
  | none => none
  | some e =>
    if e.mode = Mode.free then
      some ({ s with table := write_used s.table idx key, curr_size := s.curr_size + 1 }, idx)
    else
      match scan_free s.table s.last_free with
      | none => none
      | some last_free =>
        if e.next = none then
          match set_next (write_used s.table last_free key) idx (some last_free) with
          | none => none
          | some tbl =>
            some ({ s with table := tbl, last_free := last_free,
                           curr_size := s.curr_size + 1 }, last_free)
        else
          match last_next_loop s.table s.table.length idx with
          | none => none
          | some last_next =>
            match set_next (write_used s.table last_free key) last_next (some last_free) with
            | none => none
            | some tbl =>
              some ({ s with table := tbl, last_free := last_free,
                             curr_size := s.curr_size + 1 }, last_free)

/-- The loop `for (idx = 0; idx < old_table_size_with_keller; idx++)
if (old_table[idx].mode == Mode::used) insert_(old_table[idx].key);` of `rehash`. -/
def reinsert (hasher : Key → Nat) : List (element Key) → ADS_set Key → Option (ADS_set Key)
  | [], s => some s
  | e :: rest, s =>
    if e.mode = Mode.used then
      match insert_ hasher s e.key with
      | none => none
      | some (s', _) => reinsert hasher rest s'
    else reinsert hasher rest s

/-- The array `new element[tableWithKeller_size + 1]` with
`new_table[tableWithKeller_size].mode = Mode::end`. -/
def new_table (tableWithKeller_size : Nat) : List (element Key) :=
  List.replicate tableWithKeller_size element.fresh ++
    [{ key := default, mode := Mode.end_, next := none }]

/-- Member `rehash`. -/
def rehash (hasher : Key → Nat) (s : ADS_set Key) (n : Nat) : Option (ADS_set Key) :=
  let new_table_size := max N (max n (minTableFor s.curr_size))
  let tableWithKeller_size := new_table_size + kellerOf new_table_size
  reinsert hasher (s.table.take s.tableWithKeller_size)
    { table := new_table tableWithKeller_size
      last_free := tableWithKeller_size - 1
      table_size := new_table_size
      curr_size := 0
      tableWithKeller_size := tableWithKeller_size }

/-- The loop `do { new_table_size = new_table_size * 2 + 1; } while (n > new_table_size * max_lf);`
of `reserve`. -/
def grow_loop (n : Nat) : Nat → Nat → Option Nat
  | 0, _ => none
  | fuel + 1, new_table_size =>
    let c := new_table_size * 2 + 1
    if overLoad n c then grow_loop n fuel c else some c

/-- Member `reserve`. -/
def reserve (hasher : Key → Nat) (s : ADS_set Key) (n : Nat) : Option (ADS_set Key) :=
  if overLoad n s.table_size ∨ s.last_free = s.table_size then
    match grow_loop n (n + 2) s.table_size with
    | none => none
    | some new_table_size => rehash hasher s new_table_size
  else some s

/-- The default constructor `ADS_set() { rehash(N); }`. -/
def ctor (hasher : Key → Nat) : Option (ADS_set Key) :=
  rehash hasher
    { table := [], last_free := 0, table_size := 0, curr_size := 0,
      tableWithKeller_size := 0 } N

/-- Member `insert(const key_type&)`: the new state, the slot of the returned
iterator and the returned flag. -/
def insert (hasher : Key → Nat) (s : ADS_set Key) (key : Key) :
    Option (ADS_set Key × Nat × Bool) :=
  match find_ hasher s key with
  | none => none
  | some (some p) => some (s, p, false)
  | some none =>
    match reserve hasher s (s.curr_size + 1) with
    | none => none
    | some s1 =>
      match insert_ hasher s1 key with
      | none => none
      | some (s2, p) => some (s2, p, true)

/-- Member `insert(InputIt first, InputIt last)`, over the keys of the range. -/
def insert_range (hasher : Key → Nat) : ADS_set Key → List Key → Option (ADS_set Key)
  | s, [] => some s
  | s, k :: rest =>
    match count hasher s k with
    | none => none
    | some c =>
      if c = 0 then
        match reserve hasher s (s.curr_size + 1) with
        | none => none
        | some s1 =>
          match insert_ hasher s1 k with
          | none => none
          | some (s2, _) => insert_range hasher s2 rest
      else insert_range hasher s rest

/-- The loop `while (!key_equal{}(table[wanted_point].key, key))` of `erase`:
the pair `(previous_point, wanted_point)` at its exit. -/
def erase_loop (key : Key) (tbl : List (element Key)) : Nat → Nat → Nat → Option (Nat × Nat)
  | 0, _, _ => none
  | fuel + 1, previous_point, wanted_point =>
    match tbl[wanted_point]? with
    | none => none
    | some e =>
      if e.key = key then some (previous_point, wanted_point)
      else
        match e.next with
        | none => none
        | some j => erase_loop key tbl fuel wanted_point j

/-- Member `erase`: the new state and the returned count. -/
def erase (hasher : Key → Nat) (s : ADS_set Key) (key : Key) : Option (ADS_set Key × Nat) :=
  match find_ hasher s key with
  | none => none
  | some none => some (s, 0)
  | some (some p) =>
    let idx := h hasher s key
    match s.table[idx]? with
    | none => none
    | some e =>
      if e.next = none ∧ e.key = key then
        match set_free s.table p with
        | none => none
        | some tbl => some ({ s with table := tbl, curr_size := s.curr_size - 1 }, 1)
      else
        let last_free := s.tableWithKeller_size - 1
        if e.key = key then
          match e.next with
          | none => none
          | some tmp =>
            match s.table[tmp]? with
            | none => none
            | some t =>
              let tbl1 := s.table.set p { key := t.key, mode := t.mode, next := t.next }
              match tbl1[tmp]? with
              | none => none
              | some t1 =>
                some ({ s with table := tbl1.set tmp { t1 with mode := Mode.free, next := none },
                               last_free := last_free,
                               curr_size := s.curr_size - 1 }, 1)
        else
          match erase_loop key s.table s.table.length idx idx with
          | none => none
          | some (previous_point, wanted_point) =>
            match s.table[wanted_point]? with
            | none => none
            | some w =>
              if w.next = none then
                match set_next s.table previous_point none with
                | none => none
                | some tbl1 =>
                  match set_free tbl1 p with
                  | none => none
                  | some tbl2 =>
                    some ({ s with table := tbl2, last_free := last_free,
                                   curr_size := s.curr_size - 1 }, 1)
              else
                match s.table[p]? with
                | none => none
                | some pe =>
                  match set_next s.table previous_point pe.next with
                  | none => none
                  | some tbl1 =>
                    match set_next tbl1 p none with
                    | none => none
                    | some tbl2 =>
                      match set_free tbl2 p with
                      | none => none
                      | some tbl3 =>
                        some ({ s with table := tbl3, last_free := last_free,
                                       curr_size := s.curr_size - 1 }, 1)

/-- The loop of `Iterator::skip`: the first position from `pos` on whose slot
is `used` or `end`. -/
def skip (tbl : List (element Key)) : Nat → Nat → Option Nat
  | 0, _ => none
  | fuel + 1, pos =>
    match tbl[pos]? with
    | none => none
    | some e =>
      if e.mode ≠ Mode.used ∧ e.mode ≠ Mode.end_ then skip tbl fuel (pos + 1) else some pos

/-- Member `begin`. -/
def begin_ (s : ADS_set Key) : Option Nat := skip s.table (s.table.length + 1) 0

/-- Member `end`. -/
def end_ (s : ADS_set Key) : Nat := s.tableWithKeller_size

/-- The keys yielded by `for (it = pos; it != end(); ++it)`. -/
def iterate (s : ADS_set Key) : Nat → Nat → Option (List Key)
  | 0, _ => none
  | fuel + 1, pos =>
    if pos = end_ s then some []
    else
      match s.table[pos]? with
      | none => none
      | some e =>
        match skip s.table (s.table.length + 1) (pos + 1) with
        | none => none
        | some pos' => (iterate s fuel pos').map (fun ks => e.key :: ks)

/-- The keys yielded by a range-for over the set, `begin()` to `end()`. -/
def keys (s : ADS_set Key) : Option (List Key) :=
  match begin_ s with
  | none => none
  | some pos => iterate s (s.table.length + 1) pos

/-- The loop `for (const auto& k : rhs) if (!lhs.count(k)) return false;` of `operator==`. -/
def all_counted (hasher : Key → Nat) (lhs : ADS_set Key) : List Key → Option Bool
  | [] => some true
  | k :: rest =>
    match count hasher lhs k with
    | none => none
    | some c => if c = 0 then some false else all_counted hasher lhs rest

/-- Friend `operator==`. -/
def eq (hasher : Key → Nat) (lhs rhs : ADS_set Key) : Option Bool :=
  if lhs.curr_size ≠ rhs.curr_size then some false
  else
    match keys rhs with
    | none => none
    | some ks => all_counted hasher lhs ks

/-- A call of the public interface. -/
inductive Op (Key : Type) where
  | ins (key : Key)
  | del (key : Key)

/-- One call of `insert` or `erase`. -/
def step (hasher : Key → Nat) (s : ADS_set Key) : Op Key → Option (ADS_set Key)
  | Op.ins k => (insert hasher s k).map (fun r => r.1)
  | Op.del k => (erase hasher s k).map (fun r => r.1)

/-- A sequence of calls, in order. -/
def run (hasher : Key → Nat) : ADS_set Key → List (Op Key) → Option (ADS_set Key)
  | s, [] => some s
  | s, op :: rest =>
    match step hasher s op with
    | none => none
    | some s' => run hasher s' rest

/-- The set obtained from a default-constructed set by a sequence of calls. -/
def run_fresh (hasher : Key → Nat) (ops : List (Op Key)) : Option (ADS_set Key) :=
  match ctor hasher with
  | none => none
  | some s => run hasher s ops

end ops

/-- The key a call is about. -/
def Op.key {Key : Type} : Op Key → Key
  | Op.ins k => k
  | Op.del k => k

/-- Reference model, from the wording of the specification: the most recent call of
`ops` about `k` exists and is an insert. -/
def inserted_last {Key : Type} [DecidableEq Key] (k : Key) (ops : List (Op Key)) : Bool :=
  match ops.reverse.find? (fun op => decide (Op.key op = k)) with
  | some (Op.ins _) => true
  | _ => false

/-- Reference model, from the wording of the specification: the number of distinct
keys whose most recent call in `ops` is an insert. -/
def live_count {Key : Type} [DecidableEq Key] (ops : List (Op Key)) : Nat :=
  (((ops.map Op.key).dedup).filter (fun k => inserted_last k ops)).length

/-- Calls after which key `14` sits in a chain that its home slot no longer heads
(`std::hash` on integers is the identity). -/
def lost_ops : List (Op Nat) :=
  [Op.ins 0, Op.ins 15, Op.ins 30, Op.del 15, Op.ins 45, Op.ins 60, Op.ins 14, Op.del 60]

/-- Calls after which key `14` is stored twice. -/
def twice_ops : List (Op Nat) := lost_ops ++ [Op.ins 14]

/-- Calls after which both copies of key `14` hang on the chain of slot `14`. -/
def merged_ops : List (Op Nat) := twice_ops ++ [Op.del 30, Op.ins 75, Op.ins 1]

/-- Successor of slot `i` along its chain. -/
def nxt {Key : Type} (tbl : List (element Key)) (i : Nat) : Option Nat :=
  match tbl[i]? with
  | none => none
  | some e => e.next

/-- Slot `i` exists and is `used`. -/
def usedAt {Key : Type} (tbl : List (element Key)) (i : Nat) : Prop :=
  ∃ e, tbl[i]? = some e ∧ e.mode = Mode.used

/-- Slot `k` is reached from slot `i` by following successors. -/
inductive Path (σ : Nat → Option Nat) : Nat → Nat → Prop where
  | refl (i : Nat) : Path σ i i
  | head {i j k : Nat} : σ i = some j → Path σ j k → Path σ i k

/-- The chain of slot `i` ends after `d` links. -/
inductive Ends (σ : Nat → Option Nat) : Nat → Nat → Prop where
  | last {i : Nat} : σ i = none → Ends σ i 0
  | step {i j d : Nat} : σ i = some j → Ends σ j d → Ends σ i (d + 1)

/-- Structural invariant of every set built by the public interface. -/
structure Inv {Key : Type} (hasher : Key → Nat) (s : ADS_set Key) : Prop where
  len : s.table.length = s.tableWithKeller_size + 1
  ts_pos : 0 < s.table_size
  ts_le : s.table_size ≤ s.tableWithKeller_size
  lf_lt : s.last_free < s.tableWithKeller_size
  sentinel : ∀ (i : Nat) (e : element Key), s.table[i]? = some e → (e.mode = Mode.end_ ↔ i = s.tableWithKeller_size)
  link : ∀ (i j : Nat) (e : element Key), s.table[i]? = some e → e.next = some j → e.mode = Mode.used ∧ usedAt s.table j
  pred : ∀ (i i' j : Nat) (e e' : element Key), s.table[i]? = some e → s.table[i']? = some e' →
    e.next = some j → e'.next = some j → i = i'
  nothome : ∀ (i j : Nat) (e e' : element Key), s.table[i]? = some e → e.next = some j → s.table[j]? = some e' →
    hasher e'.key % s.table_size ≠ j
  cnt : s.curr_size = s.table.countP (fun e => decide (e.mode = Mode.used))

/-- Key `k` sits in a `used` slot. -/
def stored {Key : Type} (s : ADS_set Key) (k : Key) : Prop :=
  ∃ (j : Nat) (e : element Key), s.table[j]? = some e ∧ e.mode = Mode.used ∧ e.key = k

/-- No key sits in two `used` slots. -/
def DistinctKeys {Key : Type} (s : ADS_set Key) : Prop :=
  ∀ (i j : Nat) (ei ej : element Key), s.table[i]? = some ei → s.table[j]? = some ej →
    ei.mode = Mode.used → ej.mode = Mode.used → ei.key = ej.key → i = j

/-- The keys of the `used` slots of a list of slots, in order. -/
def usedKeys {Key : Type} (l : List (element Key)) : List Key :=
  (l.filter (fun e => decide (e.mode = Mode.used))).map (fun e => e.key)

/-- Invariant of the sets built by insertions only: every chain is finite, the
slots above the free-slot cursor are `used`, and every `used` slot is on the
chain of the home slot of its key. -/
structure Findable {Key : Type} (hasher : Key → Nat) (s : ADS_set Key) : Prop where
  term : ∀ i, ∃ d, Ends (nxt s.table) i d
  above : ∀ i, s.last_free < i → i < s.tableWithKeller_size → usedAt s.table i
  home : ∀ (j : Nat) (e : element Key), s.table[j]? = some e → e.mode = Mode.used →
    Path (nxt s.table) (hasher e.key % s.table_size) j

/-- Calls that build a small set without collisions. -/
def demo_ops : List (Op Nat) := [Op.ins 3, Op.ins 10, Op.del 3]

/-- The set built by `demo_ops`. -/
def demo_set : ADS_set Nat :=
  (run_fresh id demo_ops).getD
    { table := [], last_free := 0, table_size := 0, curr_size := 0, tableWithKeller_size := 0 }

/-- The set `demo_set` after `insert(7)`. -/
def demo_set7 : ADS_set Nat :=
  ((insert id demo_set 7).map (fun r => r.1)).getD demo_set

/-- The set built by `lost_ops`. -/
def lost_set : ADS_set Nat :=
  (run_fresh id lost_ops).getD
    { table := [], last_free := 0, table_size := 0, curr_size := 0, tableWithKeller_size := 0 }

/-- The set built by `twice_ops`. -/
def twice_set : ADS_set Nat :=
  (run_fresh id twice_ops).getD
    { table := [], last_free := 0, table_size := 0, curr_size := 0, tableWithKeller_size := 0 }

/-- The set built by `merged_ops`. -/
def merged_set : ADS_set Nat :=
  (run_fresh id merged_ops).getD
    { table := [], last_free := 0, table_size := 0, curr_size := 0, tableWithKeller_size := 0 }

/-- The set `merged_set` after `erase(14)`. -/
def merged_set_erased : ADS_set Nat :=
  ((erase id merged_set 14).map (fun r => r.1)).getD merged_set

section more_ops

variable {Key : Type} [DecidableEq Key] [Inhabited Key]

/-- Member `swap`: the two sets exchange every data member; the pair is
`(*this, other)` after the call. -/
def swap (this other : ADS_set Key) : ADS_set Key × ADS_set Key := (other, this)

/-- Member `clear`: `ADS_set tmp; swap(tmp);`. -/
def clear (hasher : Key → Nat) (s : ADS_set Key) : Option (ADS_set Key) :=
  match ctor hasher with
  | none => none
  | some tmp => some (swap s tmp).1

/-- A call of the public interface, `clear` included. -/
inductive Call (Key : Type) where
  | op (o : Op Key)
  | clr

/-- One call of `insert`, `erase` or `clear`. -/
def step_call (hasher : Key → Nat) (s : ADS_set Key) : Call Key → Option (ADS_set Key)
  | Call.op o => step hasher s o
  | Call.clr => clear hasher s

/-- A sequence of calls, in order. -/
def run_calls (hasher : Key → Nat) : ADS_set Key → List (Call Key) → Option (ADS_set Key)
  | s, [] => some s
  | s, c :: rest =>
    match step_call hasher s c with
    | none => none
    | some s' => run_calls hasher s' rest

/-- The set obtained from a default-constructed set by a sequence of calls. -/
def run_calls_fresh (hasher : Key → Nat) (cs : List (Call Key)) : Option (ADS_set Key) :=
  match ctor hasher with
  | none => none
  | some s => run_calls hasher s cs

end more_ops

/-- Calls mixing `insert`, `erase` and `clear`. -/
def demo_calls : List (Call Nat) :=
  [Call.op (Op.ins 3), Call.op (Op.ins 18), Call.clr, Call.op (Op.ins 5), Call.op (Op.del 5),
   Call.op (Op.ins 6)]

/-- The set built by `demo_calls`. -/
def demo_calls_set : ADS_set Nat :=
  (run_calls_fresh id demo_calls).getD
    { table := [], last_free := 0, table_size := 0, curr_size := 0, tableWithKeller_size := 0 }

/-- Calls after which both cellar slots are `used` and the cursor is at the top. -/
def full_cellar_ops : List (Op Nat) := [Op.ins 0, Op.ins 15, Op.ins 30, Op.del 15, Op.ins 45]

/-- The set built by `full_cellar_ops`. -/
def full_cellar_set : ADS_set Nat :=
  (run_fresh id full_cellar_ops).getD
    { table := [], last_free := 0, table_size := 0, curr_size := 0, tableWithKeller_size := 0 }

/-- The calls `full_cellar_ops` followed by `insert(60)`. -/
def overflow_ops : List (Op Nat) := full_cellar_ops ++ [Op.ins 60]

/-- The set built by `overflow_ops`. -/
def overflow_set : ADS_set Nat :=
  (run_fresh id overflow_ops).getD
    { table := [], last_free := 0, table_size := 0, curr_size := 0, tableWithKeller_size := 0 }

/-- Ten inserts of keys that are distinct modulo `15` and equal modulo `31`. -/
def spread_ops : List (Op Nat) :=
  [Op.ins 0, Op.ins 31, Op.ins 62, Op.ins 93, Op.ins 124, Op.ins 155, Op.ins 186, Op.ins 217,
   Op.ins 248, Op.ins 279]

/-- The set built by `spread_ops`. -/
def spread_set : ADS_set Nat :=
  (run_fresh id spread_ops).getD
    { table := [], last_free := 0, table_size := 0, curr_size := 0, tableWithKeller_size := 0 }

/-- Calls after which the cursor is at the first cellar slot. -/
def cursor_ops : List (Op Nat) := [Op.ins 0, Op.ins 15, Op.ins 30]

/-- The set built by `cursor_ops`. -/
def cursor_set : ADS_set Nat :=
  (run_fresh id cursor_ops).getD
    { table := [], last_free := 0, table_size := 0, curr_size := 0, tableWithKeller_size := 0 }

/-- The set `cursor_set` after `erase(15)`. -/
def cursor_set_erased : ADS_set Nat :=
  ((erase id cursor_set 15).map (fun r => r.1)).getD cursor_set

/-- Calls after which the cursor is at slot `4` and the slots `0 .. 4` are `used`. -/
def wrap_ops : List (Op Nat) :=
  [Op.ins 0, Op.ins 15, Op.ins 30, Op.del 15, Op.ins 45,
   Op.ins 14, Op.ins 13, Op.ins 12, Op.ins 11, Op.ins 10, Op.ins 60,
   Op.del 14, Op.del 13, Op.del 12, Op.del 11, Op.del 10,
   Op.ins 8, Op.ins 7, Op.ins 6, Op.ins 5, Op.ins 75,
   Op.del 8, Op.del 7, Op.del 6, Op.del 5,
   Op.ins 3, Op.ins 2, Op.ins 1]

/-- The set built by `wrap_ops`. -/
def wrap_set : ADS_set Nat :=
  (run_fresh id wrap_ops).getD
    { table := [], last_free := 0, table_size := 0, curr_size := 0, tableWithKeller_size := 0 }

/-- Four inserts of the keys that iterating `lost_set` yields. -/
def plain_ops : List (Op Nat) := [Op.ins 0, Op.ins 14, Op.ins 30, Op.ins 45]

/-- The set built by `plain_ops`. -/
def plain_set : ADS_set Nat :=
  (run_fresh id plain_ops).getD
    { table := [], last_free := 0, table_size := 0, curr_size := 0, tableWithKeller_size := 0 }

/-- Every chain of `next` links is finite: it reaches a slot whose `next` is `-1`. -/
def ChainsEnd {Key : Type} (s : ADS_set Key) : Prop :=
  ∀ i, ∃ d, Ends (nxt s.table) i d

/-- The capacities that the loop of `reserve` tries from `T`, in the words of the
specification: `c_1 = 2*T + 1`, `c_(i+1) = 2*c_i + 1`; `growth_seq T i` is `c_(i+1)`. -/
def growth_seq (T : Nat) : Nat → Nat
  | 0 => 2 * T + 1
  | i + 1 => 2 * growth_seq T i + 1

/-- Every link leads to a cellar slot, and the keys of the two slots it joins have
the same home slot. -/
def Sorted {Key : Type} (hasher : Key → Nat) (s : ADS_set Key) : Prop :=
  ∀ (i j : Nat) (e e' : element Key), s.table[i]? = some e → e.next = some j →
    s.table[j]? = some e' →
    s.table_size ≤ j ∧ hasher e'.key % s.table_size = hasher e.key % s.table_size

/-- Every `used` slot of the primary zone is the home slot of its key. -/
def HomeKeyed {Key : Type} (hasher : Key → Nat) (s : ADS_set Key) : Prop :=
  ∀ (i : Nat) (e : element Key), s.table[i]? = some e → e.mode = Mode.used →
    i < s.table_size → hasher e.key % s.table_size = i

/-- Every `used` slot is on the chain of the home slot of its key. -/
def Rooted {Key : Type} (hasher : Key → Nat) (s : ADS_set Key) : Prop :=
  ∀ (j : Nat) (e : element Key), s.table[j]? = some e → e.mode = Mode.used →
    Path (nxt s.table) (hasher e.key % s.table_size) j

/-- State of the free-slot cursor while it has not left the cellar: the cellar has
`size_type(table_size * 0.1628)` slots, the cursor is in the cellar, the cellar
slots below it are not `used`, and it went down at most once per key. -/
structure Cursor {Key : Type} (s : ADS_set Key) : Prop where
  shape : s.tableWithKeller_size = s.table_size + kellerOf s.table_size
  lf_ge : s.table_size ≤ s.last_free
  cellar_free : ∀ i, s.table_size ≤ i → i < s.last_free → ¬ usedAt s.table i
  fill : s.tableWithKeller_size ≤ s.last_free + max 1 s.curr_size

/-- Invariant under which `erase` is correct: the structural invariant, finite
chains, and every chain holds the keys of one home slot, each once, starting in
that home slot. -/
structure PureChains {Key : Type} (hasher : Key → Nat) (s : ADS_set Key) : Prop where
  inv : Inv hasher s
  ends : ChainsEnd s
  sorted : Sorted hasher s
  homeKeyed : HomeKeyed hasher s
  rooted : Rooted hasher s
  distinct : DistinctKeys s

/-- Invariant of a set built by insertions whose overflow keys all went to the
cellar. -/
structure CellarOnly {Key : Type} (hasher : Key → Nat) (s : ADS_set Key) : Prop where
  inv : Inv hasher s
  findable : Findable hasher s
  distinct : DistinctKeys s
  sorted : Sorted hasher s
  homeKeyed : HomeKeyed hasher s
  cursor : Cursor s

/-- Keys `0, 1, …, n-1` inserted in this order. -/
def count_ops (n : Nat) : List (Op Nat) := (List.range n).map Op.ins

/-- Every `used` slot holds the key equal to its index. -/
def SlotIsKey (s : ADS_set Nat) : Prop :=
  ∀ (i : Nat) (e : element Nat), s.table[i]? = some e → e.mode = Mode.used → e.key = i

/-- State of the set after `count_ops n` under the identity hash, for `n` up to
`2516582`: the keys are `0, …, n-1`, each in the slot of its own index, the
cellar is unused, and `table_size` is one of the first nineteen capacities of
the doubling sequence from `7` and passes the load test for `n` keys. -/
structure Counted (n : Nat) (s : ADS_set Nat) : Prop where
  inv : Inv id s
  findable : Findable id s
  distinct : DistinctKeys s
  slotKey : SlotIsKey s
  cursor : s.last_free = s.tableWithKeller_size - 1
  shape : s.tableWithKeller_size = s.table_size + kellerOf s.table_size
  size : s.curr_size = n
  keys : ∀ x, stored s x ↔ x < n
  cap : (n = 0 ∧ s.table_size = 7) ∨
    (1 ≤ n ∧ ∃ j, j ≤ 18 ∧ s.table_size = growth_seq 7 j ∧ overLoad n s.table_size = false)

/-! ## Chains as graphs -/

theorem Ends.ends_unique {σ : Nat → Option Nat} {i d : Nat} (h : Ends σ i d) :
    ∀ {d' : Nat}, Ends σ i d' → d = d' := by
  induction h with
  | last h0 =>
    intro d' h'
    cases h' with
    | last _ => rfl
    | step h1 _ => rw [h0] at h1; cases h1
  | step h0 _ ih =>
    intro d' h'
    cases h' with
    | last h1 => rw [h0] at h1; cases h1
    | step h1 h2 =>
      rw [h0] at h1; cases h1
      rw [ih h2]

theorem Ends.ends_nodes {σ : Nat → Option Nat} {L : Nat} (hb : ∀ i j, σ i = some j → j < L)
    {i d : Nat} (h : Ends σ i d) :
    i < L → ∃ V : Finset Nat, V.card = d + 1 ∧ ∀ v ∈ V, v < L ∧ ∃ e, e ≤ d ∧ Ends σ v e := by
  induction h with
  | @last i h0 =>
    intro hi
    refine ⟨{i}, by simp, ?_⟩
    intro v hv
    rw [Finset.mem_singleton] at hv
    subst hv
    exact ⟨hi, 0, le_refl _, Ends.last h0⟩
  | @step i j d h0 h1 ih =>
    intro hi
    obtain ⟨V, hc, hV⟩ := ih (hb i j h0)
    have hni : i ∉ V := by
      intro hm
      obtain ⟨_, e, he, hE⟩ := hV i hm
      have := hE.ends_unique (Ends.step h0 h1)
      omega
    refine ⟨Insert.insert i V, by rw [Finset.card_insert_of_not_mem hni, hc], ?_⟩
    intro v hv
    rw [Finset.mem_insert] at hv
    rcases hv with hv | hv
    · subst hv
      exact ⟨hi, d + 1, le_refl _, Ends.step h0 h1⟩
    · obtain ⟨h2, e, he, hE⟩ := hV v hv
      exact ⟨h2, e, by omega, hE⟩

theorem Ends.ends_lt_of_bounded {σ : Nat → Option Nat} {L : Nat} (hb : ∀ i j, σ i = some j → j < L)
    {i d : Nat} (h : Ends σ i d) (hi : i < L) : d < L := by
  obtain ⟨V, hc, hV⟩ := h.ends_nodes hb hi
  have hsub : V ⊆ Finset.range L := by
    intro v hv
    exact Finset.mem_range.2 (hV v hv).1
  have := Finset.card_le_card hsub
  rw [Finset.card_range, hc] at this
  omega

theorem Path.path_trans {σ : Nat → Option Nat} {i j k : Nat} (h : Path σ i j) (h' : Path σ j k) :
    Path σ i k := by
  induction h with
  | refl _ => exact h'
  | head h0 _ ih => exact Path.head h0 (ih h')

theorem Path.path_ends {σ : Nat → Option Nat} {i j : Nat} (h : Path σ i j) :
    ∀ {d : Nat}, Ends σ j d → ∃ d', Ends σ i d' := by
  induction h with
  | refl _ => intro d hd; exact ⟨d, hd⟩
  | head h0 _ ih =>
    intro d hd
    obtain ⟨d', hd'⟩ := ih hd
    exact ⟨d' + 1, Ends.step h0 hd'⟩

theorem Path.path_snoc {σ : Nat → Option Nat} {i j k : Nat} (h : Path σ i j) (h' : σ j = some k) :
    Path σ i k :=
  h.path_trans (Path.head h' (Path.refl k))

/-- A path survives an update of the successor map at a slot that had no successor. -/
theorem Path.path_update_none {σ : Nat → Option Nat} {t : Nat} {v : Option Nat} (ht : σ t = none)
    {i j : Nat} (h : Path σ i j) : Path (Function.update σ t v) i j := by
  induction h with
  | refl _ => exact Path.refl _
  | @head a b c h0 _ ih =>
    refine Path.head ?_ ih
    have hat : a ≠ t := by
      intro hEq
      rw [hEq, ht] at h0
      cases h0
    rw [Function.update_noteq hat]
    exact h0

/-- Hanging a fresh end slot `c` below the end `t` of a chain keeps every chain finite. -/
theorem Ends.ends_update_none {σ : Nat → Option Nat} {t c : Nat} (ht : σ t = none) (hc : σ c = none)
    (htc : c ≠ t) {i d : Nat} (h : Ends σ i d) :
    ∃ d', Ends (Function.update σ t (some c)) i d' := by
  have hc' : Ends (Function.update σ t (some c)) c 0 := by
    refine Ends.last ?_
    rw [Function.update_noteq htc]
    exact hc
  induction h with
  | @last a h0 =>
    by_cases hat : a = t
    · subst hat
      exact ⟨1, Ends.step (by simp) hc'⟩
    · exact ⟨0, Ends.last (by rw [Function.update_noteq hat]; exact h0)⟩
  | @step a b d h0 _ ih =>
    obtain ⟨d', hd'⟩ := ih
    have hat : a ≠ t := by
      intro hEq
      rw [hEq, ht] at h0
      cases h0
    exact ⟨d' + 1, Ends.step (by rw [Function.update_noteq hat]; exact h0) hd'⟩

/-! ## The loops -/

section loops

variable {Key : Type}

theorem nxt_eq {tbl : List (element Key)} {i : Nat} {e : element Key} (h : tbl[i]? = some e) :
    nxt tbl i = e.next := by
  simp [nxt, h]

theorem nxt_some {tbl : List (element Key)} {i j : Nat} (h : nxt tbl i = some j) :
    ∃ e, tbl[i]? = some e ∧ e.next = some j := by
  unfold nxt at h
  split at h
  · cases h
  · next e he => exact ⟨e, he, h⟩

theorem lt_of_get {tbl : List (element Key)} {i : Nat} {e : element Key} (h : tbl[i]? = some e) :
    i < tbl.length := by
  obtain ⟨hlt, _⟩ := List.getElem?_eq_some.1 h
  exact hlt

theorem get_set (tbl : List (element Key)) {a : Nat} (x : element Key) (i : Nat)
    (ha : a < tbl.length) : (tbl.set a x)[i]? = if i = a then some x else tbl[i]? := by
  rw [List.getElem?_set]
  by_cases hia : i = a
  · subst hia
    simp [ha]
  · have : ¬ a = i := fun hEq => hia hEq.symm
    simp [hia, this]

theorem scan_free_spec (tbl : List (element Key)) :
    ∀ c0 c, scan_free tbl c0 = some c →
      c ≤ c0 ∧ (∃ e, tbl[c]? = some e ∧ e.mode ≠ Mode.used) ∧
        ∀ i, c < i → i ≤ c0 → usedAt tbl i := by
  intro c0
  induction c0 with
  | zero =>
    intro c hc
    unfold scan_free at hc
    split at hc
    · cases hc
    · next e he =>
      split at hc
      · cases hc
      · next hm =>
        cases hc
        exact ⟨le_refl _, ⟨e, he, hm⟩, fun i h1 h2 => absurd h1 (by omega)⟩
  | succ n ih =>
    intro c hc
    unfold scan_free at hc
    split at hc
    · cases hc
    · next e he =>
      split at hc
      · next hm =>
        obtain ⟨h1, h2, h3⟩ := ih c hc
        refine ⟨by omega, h2, ?_⟩
        intro i hi1 hi2
        by_cases hin : i = n + 1
        · subst hin
          exact ⟨e, he, hm⟩
        · exact h3 i hi1 (by omega)
      · next hm =>
        cases hc
        exact ⟨le_refl _, ⟨e, he, hm⟩, fun i h1 h2 => absurd h1 (by omega)⟩

/-- The scan fails only when every slot from the cursor down to `0` is `used`. -/
theorem scan_free_some (tbl : List (element Key)) :
    ∀ c0, c0 < tbl.length → (∃ i, i ≤ c0 ∧ ¬ usedAt tbl i) → ∃ c, scan_free tbl c0 = some c := by
  intro c0
  induction c0 with
  | zero =>
    intro hlt ⟨i, hi, hu⟩
    have hi0 : i = 0 := by omega
    subst hi0
    unfold scan_free
    rw [List.getElem?_eq_getElem hlt]
    simp only
    split
    · next hm => exact absurd ⟨_, List.getElem?_eq_getElem hlt, hm⟩ hu
    · exact ⟨0, rfl⟩
  | succ n ih =>
    intro hlt ⟨i, hi, hu⟩
    unfold scan_free
    rw [List.getElem?_eq_getElem hlt]
    simp only
    split
    · next hm =>
      have hin : i ≠ n + 1 := by
        intro hEq
        subst hEq
        exact hu ⟨_, List.getElem?_eq_getElem hlt, hm⟩
      exact ih (by omega) ⟨i, by omega, hu⟩
    · exact ⟨n + 1, rfl⟩

theorem last_next_loop_spec (tbl : List (element Key)) :
    ∀ f i t, last_next_loop tbl f i = some t →
      Path (nxt tbl) i t ∧ ∃ e, tbl[t]? = some e ∧ e.next = none := by
  intro f
  induction f with
  | zero => intro i t h; simp [last_next_loop] at h
  | succ f ih =>
    intro i t h
    unfold last_next_loop at h
    split at h
    · cases h
    · next e he =>
      split at h
      · cases h
      · next j hj =>
        split at h
        · cases h
        · next e' he' =>
          have hij : nxt tbl i = some j := by rw [nxt_eq he, hj]
          split at h
          · next hn =>
            cases h
            exact ⟨Path.head hij (Path.refl _), e', he', hn⟩
          · obtain ⟨hp, hq⟩ := ih j t h
            exact ⟨Path.head hij hp, hq⟩

theorem find_loop_some [DecidableEq Key] (k : Key) (tbl : List (element Key)) :
    ∀ f i p, find_loop k tbl f i = some (some p) →
      ∃ e, tbl[p]? = some e ∧ e.mode = Mode.used ∧ e.key = k := by
  intro f
  induction f with
  | zero => intro i p h; simp [find_loop] at h
  | succ f ih =>
    intro i p h
    unfold find_loop at h
    split at h
    · cases h
    · next e he =>
      split at h
      · cases h
      · next hm =>
        split at h
        · next hk =>
          cases h
          exact ⟨e, he, hm, hk⟩
        · split at h
          · cases h
          · exact ih _ p h
      · cases h

/-- When `find_` succeeds the walk of `erase` stops at the same slot. -/
theorem find_loop_erase_loop [DecidableEq Key] (k : Key) (tbl : List (element Key)) :
    ∀ f i p, find_loop k tbl f i = some (some p) →
      (∃ e, tbl[i]? = some e ∧ e.key = k ∧ p = i) ∨
      (∃ e, tbl[i]? = some e ∧ e.key ≠ k ∧ ∃ q eq, tbl[q]? = some eq ∧ eq.mode = Mode.used ∧
        eq.key ≠ k ∧ eq.next = some p ∧ ∀ prev, erase_loop k tbl f prev i = some (q, p)) := by
  intro f
  induction f with
  | zero => intro i p h; simp [find_loop] at h
  | succ f ih =>
    intro i p h
    have hp := find_loop_some k tbl _ _ _ h
    unfold find_loop at h
    split at h
    · cases h
    · next e he =>
      split at h
      · cases h
      · next hm =>
        split at h
        · next hk =>
          cases h
          exact Or.inl ⟨e, he, hk, rfl⟩
        · next hk =>
          split at h
          · cases h
          · next j hj =>
            right
            refine ⟨e, he, hk, ?_⟩
            rcases ih j p h with ⟨e', he', hk', hpj⟩ | ⟨e', he', hk', q, eq, hq, hqm, hqk, hqn, hall⟩
            · subst hpj
              refine ⟨i, e, he, hm, hk, hj, ?_⟩
              intro prev
              unfold erase_loop
              simp only [he, hk, if_false, hj]
              cases f with
              | zero => simp [find_loop] at h
              | succ f =>
                unfold erase_loop
                simp [he', hk']
            · refine ⟨q, eq, hq, hqm, hqk, hqn, ?_⟩
              intro prev
              unfold erase_loop
              simp only [he, hk, if_false, hj]
              exact hall i
      · cases h

end loops

/-! ## Case analysis of `insert_` and `erase` -/

section cases

variable {Key : Type}

theorem insert__spec (hasher : Key → Nat) (s s' : ADS_set Key) (k : Key) (p : Nat)
    (hI : insert_ hasher s k = some (s', p)) :
    (∃ e, s.table[h hasher s k]? = some e ∧ e.mode = Mode.free ∧ p = h hasher s k ∧
      s' = { s with table := s.table.set (h hasher s k) ⟨k, Mode.used, none⟩,
                    curr_size := s.curr_size + 1 }) ∨
    (∃ e c t et0 et, s.table[h hasher s k]? = some e ∧ e.mode ≠ Mode.free ∧
      scan_free s.table s.last_free = some c ∧
      Path (nxt s.table) (h hasher s k) t ∧ s.table[t]? = some et0 ∧ et0.next = none ∧
      (s.table.set c ⟨k, Mode.used, none⟩)[t]? = some et ∧ p = c ∧
      s' = { s with table := (s.table.set c ⟨k, Mode.used, none⟩).set t { et with next := some c },
                    last_free := c, curr_size := s.curr_size + 1 }) := by
  unfold insert_ at hI
  simp only at hI
  split at hI
  · cases hI
  · next e he =>
    split at hI
    · next hm =>
      left
      simp only [Option.some.injEq, Prod.mk.injEq] at hI
      exact ⟨e, he, hm, hI.2.symm, hI.1.symm⟩
    · next hm =>
      right
      split at hI
      · cases hI
      · next c hc =>
        split at hI
        · next hn =>
          unfold set_next write_used at hI
          split at hI
          · cases hI
          · next tbl2 htbl =>
            split at htbl
            · cases htbl
            · next et het =>
              simp only [Option.some.injEq] at htbl
              simp only [Option.some.injEq, Prod.mk.injEq] at hI
              subst htbl
              exact ⟨e, c, _, e, et, he, hm, hc, Path.refl _, he, hn, het, hI.2.symm, hI.1.symm⟩
        · next hn =>
          split at hI
          · cases hI
          · next t ht =>
            obtain ⟨hp, et0, het0, hn0⟩ := last_next_loop_spec _ _ _ _ ht
            unfold set_next write_used at hI
            split at hI
            · cases hI
            · next tbl2 htbl =>
              split at htbl
              · cases htbl
              · next et het =>
                simp only [Option.some.injEq] at htbl
                simp only [Option.some.injEq, Prod.mk.injEq] at hI
                subst htbl
                exact ⟨e, c, t, et0, et, he, hm, hc, hp, het0, hn0, het, hI.2.symm, hI.1.symm⟩

/-- The outcomes of a successful `erase`: key absent; home slot without chain
(A); home slot with a chain, the next slot pulled up (B); slot spliced out of its
chain (C). -/
theorem erase_spec [DecidableEq Key] (hasher : Key → Nat) (s s' : ADS_set Key) (k : Key) (r : Nat)
    (hE : erase hasher s k = some (s', r)) :
    (find_ hasher s k = some none ∧ s' = s ∧ r = 0) ∨
    (∃ e, find_ hasher s k = some (some (h hasher s k)) ∧ r = 1 ∧
      s.table[h hasher s k]? = some e ∧ e.mode = Mode.used ∧ e.key = k ∧ e.next = none ∧
      s' = { s with table := s.table.set (h hasher s k) { e with mode := Mode.free },
                    curr_size := s.curr_size - 1 }) ∨
    (∃ e tmp t t1, find_ hasher s k = some (some (h hasher s k)) ∧ r = 1 ∧
      s.table[h hasher s k]? = some e ∧ e.mode = Mode.used ∧ e.key = k ∧ e.next = some tmp ∧
      s.table[tmp]? = some t ∧
      (s.table.set (h hasher s k) ⟨t.key, t.mode, t.next⟩)[tmp]? = some t1 ∧
      s' = { s with table := (s.table.set (h hasher s k) ⟨t.key, t.mode, t.next⟩).set tmp
                      { t1 with mode := Mode.free, next := none },
                    last_free := s.tableWithKeller_size - 1,
                    curr_size := s.curr_size - 1 }) ∨
    (∃ p q eq pe, find_ hasher s k = some (some p) ∧ r = 1 ∧
      s.table[q]? = some eq ∧ eq.mode = Mode.used ∧ eq.key ≠ k ∧ eq.next = some p ∧
      s.table[p]? = some pe ∧ pe.mode = Mode.used ∧ pe.key = k ∧
      s' = { s with table := (s.table.set q { eq with next := pe.next }).set p
                      { pe with mode := Mode.free, next := none },
                    last_free := s.tableWithKeller_size - 1,
                    curr_size := s.curr_size - 1 }) := by
  unfold erase at hE
  split at hE
  · cases hE
  · next hf =>
    simp only [Option.some.injEq, Prod.mk.injEq] at hE
    exact Or.inl ⟨hf, hE.1.symm, hE.2.symm⟩
  · next p hf =>
    right
    have hf' := hf
    unfold find_ at hf'
    obtain ⟨pe, hpe, hpm, hpk⟩ := find_loop_some _ _ _ _ _ hf'
    have hplt := lt_of_get hpe
    simp only at hE
    rcases find_loop_erase_loop _ _ _ _ _ hf' with
      ⟨e, he, hk0, hpi⟩ | ⟨e, he, hk0, q, eq, hq, hqm, hqk, hqn, hall⟩
    · -- the key sits in its home slot
      subst hpi
      have hep : e = pe := by
        rw [he] at hpe
        exact Option.some.inj hpe
      subst hep
      simp only [he] at hE
      split at hE
      · next hc =>
        left
        unfold set_free at hE
        simp only [he, Option.some.injEq, Prod.mk.injEq] at hE
        exact ⟨e, hf, hE.2.symm, he, hpm, hk0, hc.1, hE.1.symm⟩
      · next hc =>
        right; left
        split at hE
        · cases hE
        · next tmp htmp =>
          split at hE
          · cases hE
          · next t ht =>
            split at hE
            · cases hE
            · next t1 ht1 =>
              simp only [Option.some.injEq, Prod.mk.injEq] at hE
              exact ⟨e, tmp, t, t1, hf, hE.2.symm, he, hpm, hk0, htmp, ht, ht1, hE.1.symm⟩
    · -- the key sits further down the chain
      right; right
      simp only [he, and_false, if_false, hk0, hall] at hE
      have hqp : q ≠ p := by
        intro hEq
        subst hEq
        rw [hq] at hpe
        cases hpe
        exact hqk hpk
      have hqlt := lt_of_get hq
      simp only [hpe] at hE
      split at hE
      · next hn =>
        unfold set_next set_free at hE
        simp only [hq, get_set _ _ _ hqlt, hqp.symm, if_false, hpe, Option.some.injEq,
          Prod.mk.injEq] at hE
        refine ⟨p, q, eq, pe, hf, hE.2.symm, hq, hqm, hqk, hqn, hpe, hpm, hpk, ?_⟩
        rw [← hE.1, hn]
      · next hn =>
        unfold set_next set_free at hE
        simp only [hq, get_set _ _ _ hqlt, hqp.symm, if_false, hpe, List.getElem?_set,
          List.length_set, hplt, if_true, List.set_set, Option.some.injEq, Prod.mk.injEq] at hE
        refine ⟨p, q, eq, pe, hf, hE.2.symm, hq, hqm, hqk, hqn, hpe, hpm, hpk, ?_⟩
        rw [← hE.1]

end cases

/-! ## Preservation of the structural invariant -/

section pointwise

variable {Key : Type}

theorem usedAt_set_self {tbl : List (element Key)} {a : Nat} {x : element Key}
    (ha : a < tbl.length) (hx : x.mode = Mode.used) : usedAt (tbl.set a x) a :=
  ⟨x, by rw [get_set _ _ _ ha, if_pos rfl], hx⟩

theorem usedAt_set_ne {tbl : List (element Key)} {a j : Nat} {x : element Key}
    (hj : j ≠ a) : usedAt (tbl.set a x) j ↔ usedAt tbl j := by
  unfold usedAt
  rw [List.getElem?_set_ne (Ne.symm hj)]

theorem usedAt_lt {tbl : List (element Key)} {j : Nat} (h : usedAt tbl j) : j < tbl.length := by
  obtain ⟨e, he, _⟩ := h
  exact lt_of_get he

theorem usedAt_set_of {tbl : List (element Key)} {a j : Nat} {x : element Key}
    (hx : x.mode = Mode.used) (h : usedAt tbl j) : usedAt (tbl.set a x) j := by
  by_cases hj : j = a
  · subst hj
    exact usedAt_set_self (usedAt_lt h) hx
  · exact (usedAt_set_ne hj).2 h

/-- Counting `used` slots across one write. -/
theorem countP_set_mode (tbl : List (element Key)) :
    ∀ (a : Nat) (e x : element Key), tbl[a]? = some e →
      (tbl.set a x).countP (fun e => decide (e.mode = Mode.used)) +
          (if e.mode = Mode.used then 1 else 0) =
        tbl.countP (fun e => decide (e.mode = Mode.used)) +
          (if x.mode = Mode.used then 1 else 0) := by
  induction tbl with
  | nil => intro a e x h; simp at h
  | cons y ys ih =>
    intro a e x h
    cases a with
    | zero =>
      simp only [List.getElem?_cons_zero, Option.some.injEq] at h
      subst h
      simp only [List.set_cons_zero, List.countP_cons, decide_eq_true_eq]
      omega
    | succ a =>
      simp only [List.getElem?_cons_succ] at h
      have := ih a e x h
      simp only [List.set_cons_succ, List.countP_cons, decide_eq_true_eq]
      omega

theorem countP_set_same (tbl : List (element Key)) (a : Nat) (e x : element Key)
    (h : tbl[a]? = some e) (hm : x.mode = e.mode) :
    (tbl.set a x).countP (fun e => decide (e.mode = Mode.used)) =
      tbl.countP (fun e => decide (e.mode = Mode.used)) := by
  have := countP_set_mode tbl a e x h
  rw [hm] at this
  omega

/-- Slots on a path that starts at a `used` slot are `used`. -/
theorem Path.path_usedAt {tbl : List (element Key)}
    (hl : ∀ (i j : Nat) (e : element Key), tbl[i]? = some e → e.next = some j →
      e.mode = Mode.used ∧ usedAt tbl j)
    {i j : Nat} (h : Path (nxt tbl) i j) (hi : ADS.usedAt tbl i) : ADS.usedAt tbl j := by
  induction h with
  | refl _ => exact hi
  | @head a b c h0 _ ih =>
    obtain ⟨e, he, hn⟩ := nxt_some h0
    exact ih (hl a b e he hn).2

end pointwise

section inv

variable {Key : Type}

theorem h_lt (hasher : Key → Nat) (s : ADS_set Key) (k : Key) (hI : Inv hasher s) :
    h hasher s k < s.table_size :=
  Nat.mod_lt _ hI.ts_pos

/-- Writing a key into its free home slot keeps the invariant. -/
theorem Inv.inv_insert_home (hasher : Key → Nat) (s : ADS_set Key) (k : Key) (e : element Key)
    (hI : Inv hasher s) (he : s.table[h hasher s k]? = some e) (hm : e.mode = Mode.free) :
    Inv hasher { s with table := s.table.set (h hasher s k) ⟨k, Mode.used, none⟩,
                        curr_size := s.curr_size + 1 } := by
  have hlt := lt_of_get he
  have hidx := h_lt hasher s k hI
  have hget := fun i => get_set s.table (⟨k, Mode.used, none⟩ : element Key) i hlt
  have hnot : ¬ usedAt s.table (h hasher s k) := by
    rintro ⟨e', he', hm'⟩
    rw [he] at he'
    cases he'
    rw [hm] at hm'
    cases hm'
  constructor
  · simp only [List.length_set]
    exact hI.len
  · exact hI.ts_pos
  · exact hI.ts_le
  · exact hI.lf_lt
  · intro i e' h'
    simp only [hget] at h'
    split at h'
    · next hi =>
      cases h'
      subst hi
      have := hI.ts_le
      simp only
      constructor
      · intro hc; cases hc
      · intro hc; omega
    · exact hI.sentinel i e' h'
  · intro i j e' h' hn
    simp only [hget] at h'
    split at h'
    · cases h'
      cases hn
    · obtain ⟨h1, h2⟩ := hI.link i j e' h' hn
      exact ⟨h1, usedAt_set_of rfl h2⟩
  · intro i i' j e1 e2 h1 h2 hn1 hn2
    simp only [hget] at h1 h2
    split at h1
    · cases h1; cases hn1
    · split at h2
      · cases h2; cases hn2
      · exact hI.pred i i' j e1 e2 h1 h2 hn1 hn2
  · intro i j e1 e2 h1 hn h2
    simp only [hget] at h1 h2
    split at h1
    · cases h1; cases hn
    · split at h2
      · next hj =>
        subst hj
        exact absurd (hI.link i _ e1 h1 hn).2 hnot
      · exact hI.nothome i j e1 e2 h1 hn h2
  · have := countP_set_mode s.table _ e ⟨k, Mode.used, none⟩ he
    simp only [hm] at this
    have hc := hI.cnt
    simp only at this ⊢
    simp at this
    omega

/-- A slot that is not `free` and is not the sentinel is `used`. -/
theorem Inv.inv_used_of_not_free (hasher : Key → Nat) (s : ADS_set Key) (hI : Inv hasher s)
    {i : Nat} {e : element Key} (he : s.table[i]? = some e) (hi : i < s.tableWithKeller_size)
    (hm : e.mode ≠ Mode.free) : e.mode = Mode.used := by
  have := hI.sentinel i e he
  cases hmode : e.mode with
  | free => exact absurd hmode hm
  | used => rfl
  | end_ =>
    have := this.1 hmode
    omega

/-- Appending a key in a free slot found by the scan, at the end of the chain of
its home slot, keeps the invariant. -/
theorem Inv.inv_insert_chain (hasher : Key → Nat) (s : ADS_set Key) (k : Key)
    (e et0 et : element Key) (c t : Nat)
    (hI : Inv hasher s) (he : s.table[h hasher s k]? = some e) (hm : e.mode ≠ Mode.free)
    (hc : scan_free s.table s.last_free = some c)
    (hp : Path (nxt s.table) (h hasher s k) t) (het0 : s.table[t]? = some et0)
    (hn0 : et0.next = none)
    (het : (s.table.set c ⟨k, Mode.used, none⟩)[t]? = some et) :
    t ≠ c ∧ et = et0 ∧ c < s.tableWithKeller_size ∧ usedAt s.table t ∧ ¬ usedAt s.table c ∧
    Inv hasher { s with table := (s.table.set c ⟨k, Mode.used, none⟩).set t
                          { et with next := some c },
                        last_free := c, curr_size := s.curr_size + 1 } := by
  obtain ⟨hcle, ⟨ec, hec, hecm⟩, _⟩ := scan_free_spec _ _ _ hc
  have hclt := lt_of_get hec
  have htlt := lt_of_get het0
  have hidx := h_lt hasher s k hI
  have hlf := hI.lf_lt
  have hts := hI.ts_le
  have hcW : c < s.tableWithKeller_size := by omega
  have hiu : usedAt s.table (h hasher s k) :=
    ⟨e, he, hI.inv_used_of_not_free hasher s he (by omega) hm⟩
  have htu : usedAt s.table t := hp.path_usedAt hI.link hiu
  have hcu : ¬ usedAt s.table c := by
    rintro ⟨e', he', hm'⟩
    rw [hec] at he'
    cases he'
    exact hecm hm'
  have htc : t ≠ c := by
    intro hEq
    subst hEq
    exact hcu htu
  have hic : h hasher s k ≠ c := by
    intro hEq
    rw [hEq] at hiu
    exact hcu hiu
  have hett : et = et0 := by
    rw [get_set _ _ _ hclt, if_neg htc, het0] at het
    exact (Option.some.inj het).symm
  subst hett
  have htm : et.mode = Mode.used := by
    obtain ⟨e', he', hm'⟩ := htu
    rw [het0] at he'
    cases he'
    exact hm'
  have htlt' : t < (s.table.set c (⟨k, Mode.used, none⟩ : element Key)).length := by
    rw [List.length_set]
    exact htlt
  have hget : ∀ i, ((s.table.set c ⟨k, Mode.used, none⟩).set t { et with next := some c })[i]? =
      if i = t then some { et with next := some c }
      else if i = c then some ⟨k, Mode.used, none⟩ else s.table[i]? := by
    intro i
    rw [get_set _ _ _ htlt', get_set _ _ _ hclt]
  have hused : ∀ j, usedAt s.table j →
      usedAt ((s.table.set c ⟨k, Mode.used, none⟩).set t { et with next := some c }) j := by
    intro j hj
    exact usedAt_set_of htm (usedAt_set_of rfl hj)
  have hcused : usedAt ((s.table.set c ⟨k, Mode.used, none⟩).set t { et with next := some c }) c :=
    ⟨_, by rw [hget, if_neg htc.symm, if_pos rfl], rfl⟩
  refine ⟨htc, rfl, hcW, htu, hcu, ?_⟩
  constructor
  · simp only [List.length_set]
    exact hI.len
  · exact hI.ts_pos
  · exact hI.ts_le
  · exact hcW
  · intro i e' h'
    simp only [hget] at h'
    split at h'
    · next hi =>
      cases h'
      subst hi
      exact hI.sentinel i et het0
    · split at h'
      · next hi =>
        cases h'
        subst hi
        simp only
        constructor
        · intro hc; cases hc
        · intro hc; omega
      · exact hI.sentinel i e' h'
  · intro i j e' h' hn
    simp only [hget] at h'
    split at h'
    · cases h'
      simp only [Option.some.injEq] at hn
      subst hn
      exact ⟨htm, hcused⟩
    · split at h'
      · cases h'
        cases hn
      · obtain ⟨h1, h2⟩ := hI.link i j e' h' hn
        exact ⟨h1, hused j h2⟩
  · intro i i' j e1 e2 h1 h2 hn1 hn2
    simp only [hget] at h1 h2
    split at h1
    · next hi =>
      cases h1
      simp only [Option.some.injEq] at hn1
      subst hn1
      split at h2
      · next hi' => rw [hi, hi']
      · split at h2
        · cases h2; cases hn2
        · exact absurd (hI.link i' _ e2 h2 hn2).2 hcu
    · split at h1
      · cases h1; cases hn1
      · split at h2
        · next hi' =>
          cases h2
          simp only [Option.some.injEq] at hn2
          subst hn2
          exact absurd (hI.link i _ e1 h1 hn1).2 hcu
        · split at h2
          · cases h2; cases hn2
          · exact hI.pred i i' j e1 e2 h1 h2 hn1 hn2
  · intro i j e1 e2 h1 hn h2
    simp only [hget] at h1 h2
    split at h1
    · next hi =>
      cases h1
      simp only [Option.some.injEq] at hn
      subst hn
      rw [if_neg htc.symm, if_pos rfl] at h2
      cases h2
      exact hic
    · split at h1
      · cases h1; cases hn
      · split at h2
        · next hj =>
          cases h2
          subst hj
          exact hI.nothome i j e1 et h1 hn het0
        · split at h2
          · next hj =>
            subst hj
            exact absurd (hI.link i _ e1 h1 hn).2 hcu
          · exact hI.nothome i j e1 e2 h1 hn h2
  · have h1 := countP_set_mode s.table c ec ⟨k, Mode.used, none⟩ hec
    have h2 := countP_set_same (s.table.set c ⟨k, Mode.used, none⟩) t et
      { et with next := some c } (by rw [get_set _ _ _ hclt, if_neg htc, het0]) rfl
    have hc := hI.cnt
    simp only [hecm, if_false, if_true] at h1
    simp only
    rw [h2]
    omega

theorem Inv.inv_insert_ (hasher : Key → Nat) (s s' : ADS_set Key) (k : Key) (p : Nat)
    (hI : Inv hasher s) (h' : ADS.insert_ hasher s k = some (s', p)) : Inv hasher s' := by
  rcases insert__spec hasher s s' k p h' with
    ⟨e, he, hm, _, hs⟩ | ⟨e, c, t, et0, et, he, hm, hc, hp, het0, hn0, het, _, hs⟩
  · rw [hs]
    exact hI.inv_insert_home hasher s k e he hm
  · rw [hs]
    exact (hI.inv_insert_chain hasher s k e et0 et c t he hm hc hp het0 hn0 het).2.2.2.2.2

end inv

section inv_erase

variable {Key : Type}

/-- Case A of `erase`: freeing a home slot without chain keeps the invariant. -/
theorem Inv.inv_erase_home (hasher : Key → Nat) (s : ADS_set Key) (k : Key) (e : element Key)
    (hI : Inv hasher s) (he : s.table[h hasher s k]? = some e) (hm : e.mode = Mode.used)
    (hk : e.key = k) (hn : e.next = none) :
    Inv hasher { s with table := s.table.set (h hasher s k) { e with mode := Mode.free },
                        curr_size := s.curr_size - 1 } := by
  have hlt := lt_of_get he
  have hidx := h_lt hasher s k hI
  have hts := hI.ts_le
  have hget := fun i => get_set s.table ({ e with mode := Mode.free } : element Key) i hlt
  have hnolink : ∀ (i : Nat) (e1 : element Key), s.table[i]? = some e1 →
      e1.next ≠ some (h hasher s k) := by
    intro i e1 h1 hc
    have := hI.nothome i _ e1 e h1 hc he
    rw [hk] at this
    exact this rfl
  constructor
  · simp only [List.length_set]
    exact hI.len
  · exact hI.ts_pos
  · exact hI.ts_le
  · exact hI.lf_lt
  · intro i e' h'
    simp only [hget] at h'
    split at h'
    · next hi =>
      cases h'
      subst hi
      simp only
      constructor
      · intro hc; cases hc
      · intro hc; omega
    · exact hI.sentinel i e' h'
  · intro i j e' h' hn'
    simp only [hget] at h'
    split at h'
    · cases h'
      rw [hn] at hn'
      cases hn'
    · obtain ⟨h1, h2⟩ := hI.link i j e' h' hn'
      refine ⟨h1, ?_⟩
      have hj : j ≠ h hasher s k := by
        intro hEq
        subst hEq
        exact hnolink i e' h' hn'
      exact (usedAt_set_ne hj).2 h2
  · intro i i' j e1 e2 h1 h2 hn1 hn2
    simp only [hget] at h1 h2
    split at h1
    · cases h1
      rw [hn] at hn1
      cases hn1
    · split at h2
      · cases h2
        rw [hn] at hn2
        cases hn2
      · exact hI.pred i i' j e1 e2 h1 h2 hn1 hn2
  · intro i j e1 e2 h1 hn' h2
    simp only [hget] at h1 h2
    split at h1
    · cases h1
      rw [hn] at hn'
      cases hn'
    · split at h2
      · next hj =>
        subst hj
        exact absurd hn' (hnolink i e1 h1)
      · exact hI.nothome i j e1 e2 h1 hn' h2
  · have := countP_set_mode s.table _ e { e with mode := Mode.free } he
    have hc := hI.cnt
    simp only [hm, if_true] at this
    simp only at this ⊢
    simp at this
    omega

/-- Cases B and C of `erase`: slot `q` links to slot `p`; `q` takes over the
successor of `p` (and, in case B, its key), `p` is freed.  `x` is the new content
of `q`. -/
theorem Inv.inv_erase_unlink (hasher : Key → Nat) (s : ADS_set Key) (q p : Nat)
    (eq pe x : element Key)
    (hI : Inv hasher s) (hq : s.table[q]? = some eq) (hqn : eq.next = some p)
    (hpe : s.table[p]? = some pe) (hqp : q ≠ p)
    (hxm : x.mode = Mode.used) (hxn : x.next = pe.next)
    (hxk : x.key = eq.key ∨ ∀ (i : Nat) (e1 : element Key), s.table[i]? = some e1 →
      e1.next ≠ some q) :
    Inv hasher { s with table := (s.table.set q x).set p { pe with mode := Mode.free, next := none },
                        last_free := s.tableWithKeller_size - 1,
                        curr_size := s.curr_size - 1 } := by
  have hqlt := lt_of_get hq
  have hplt := lt_of_get hpe
  have hts := hI.ts_le
  have htp := hI.ts_pos
  obtain ⟨hqm, ⟨pe', hpe', hpm⟩⟩ := hI.link q p eq hq hqn
  rw [hpe] at hpe'
  cases hpe'
  have hplt' : p < (s.table.set q x).length := by
    rw [List.length_set]
    exact hplt
  have hget : ∀ i, ((s.table.set q x).set p { pe with mode := Mode.free, next := none })[i]? =
      if i = p then some { pe with mode := Mode.free, next := none }
      else if i = q then some x else s.table[i]? := by
    intro i
    rw [get_set _ _ _ hplt', get_set _ _ _ hqlt]
  -- the only slot that links to `p` is `q`
  have honly : ∀ (i : Nat) (e1 : element Key), s.table[i]? = some e1 → e1.next = some p → i = q :=
    fun i e1 h1 hn1 => hI.pred i q p e1 eq h1 hq hn1 hqn
  have hpp : pe.next ≠ some p := by
    intro hc
    exact hqp (honly p pe hpe hc).symm
  have hused : ∀ j, j ≠ p → usedAt s.table j →
      usedAt ((s.table.set q x).set p { pe with mode := Mode.free, next := none }) j := by
    intro j hj hu
    exact (usedAt_set_ne hj).2 (usedAt_set_of hxm hu)
  constructor
  · simp only [List.length_set]
    exact hI.len
  · exact hI.ts_pos
  · exact hI.ts_le
  · simp only
    omega
  · intro i e' h'
    simp only [hget] at h'
    split at h'
    · next hi =>
      cases h'
      subst hi
      have := hI.sentinel i pe hpe
      rw [hpm] at this
      simp only
      constructor
      · intro hc; cases hc
      · intro hc
        exact absurd (this.2 hc) (by simp)
    · split at h'
      · next hi =>
        cases h'
        subst hi
        have := hI.sentinel i eq hq
        rw [hqm] at this
        rw [hxm]
        exact this
      · exact hI.sentinel i e' h'
  · intro i j e' h' hn'
    simp only [hget] at h'
    split at h'
    · cases h'
      cases hn'
    · split at h'
      · cases h'
        rw [hxn] at hn'
        refine ⟨hxm, hused j ?_ (hI.link p j pe hpe hn').2⟩
        intro hEq
        subst hEq
        exact hpp hn'
      · next hip hiq =>
        obtain ⟨h1, h2⟩ := hI.link i j e' h' hn'
        refine ⟨h1, hused j ?_ h2⟩
        intro hEq
        subst hEq
        exact hiq (honly i e' h' hn')
  · intro i i' j e1 e2 h1 h2 hn1 hn2
    simp only [hget] at h1 h2
    split at h1
    · cases h1; cases hn1
    · split at h1
      · next hi =>
        cases h1
        rw [hxn] at hn1
        split at h2
        · cases h2; cases hn2
        · split at h2
          · next hi' => rw [hi, hi']
          · next hi'p hi'q => exact absurd (hI.pred i' p j e2 pe h2 hpe hn2 hn1) hi'p
      · next hip hiq =>
        split at h2
        · cases h2; cases hn2
        · split at h2
          · cases h2
            rw [hxn] at hn2
            exact absurd (hI.pred i p j e1 pe h1 hpe hn1 hn2) hip
          · exact hI.pred i i' j e1 e2 h1 h2 hn1 hn2
  · intro i j e1 e2 h1 hn' h2
    simp only [hget] at h1 h2
    -- in the old table some slot `i0` links to `j`
    have key : ∀ (i0 : Nat) (e0 : element Key), s.table[i0]? = some e0 → e0.next = some j →
        (i0 = q → False) → hasher e2.key % s.table_size ≠ j := by
      intro i0 e0 h0 hn0 hi0
      have hjp : j ≠ p := by
        intro hEq
        subst hEq
        exact hi0 (honly i0 e0 h0 hn0)
      rw [if_neg hjp] at h2
      split at h2
      · next hjq =>
        cases h2
        subst hjq
        rcases hxk with hxk | hxk
        · rw [hxk]
          exact hI.nothome i0 j e0 eq h0 hn0 hq
        · exact absurd hn0 (hxk i0 e0 h0)
      · exact hI.nothome i0 j e0 e2 h0 hn0 h2
    split at h1
    · cases h1; cases hn'
    · split at h1
      · cases h1
        rw [hxn] at hn'
        exact key p pe hpe hn' (fun hEq => hqp hEq.symm)
      · next hip hiq => exact key i e1 h1 hn' hiq
  · have h1 := countP_set_same s.table q eq x hq (by rw [hxm, hqm])
    have h2 := countP_set_mode (s.table.set q x) p pe { pe with mode := Mode.free, next := none }
      (by rw [get_set _ _ _ hqlt, if_neg (Ne.symm hqp), hpe])
    have hc := hI.cnt
    simp only [hpm, if_true] at h2
    simp only at h2 ⊢
    simp at h2
    omega

end inv_erase

section inv_ops

variable {Key : Type}

theorem Inv.inv_erase [DecidableEq Key] (hasher : Key → Nat) (s s' : ADS_set Key) (k : Key) (r : Nat)
    (hI : Inv hasher s) (hE : ADS.erase hasher s k = some (s', r)) : Inv hasher s' := by
  rcases erase_spec hasher s s' k r hE with
    ⟨_, hs, _⟩ | ⟨e, _, _, he, hm, hk, hn, hs⟩ |
    ⟨e, tmp, t, t1, _, _, he, hm, hk, hn, ht, ht1, hs⟩ |
    ⟨p, q, eq, pe, _, _, hq, hqm, hqk, hqn, hpe, hpm, hpk, hs⟩
  · rw [hs]
    exact hI
  · rw [hs]
    exact hI.inv_erase_home hasher s k e he hm hk hn
  · have hnolink : ∀ (i : Nat) (e1 : element Key), s.table[i]? = some e1 →
        e1.next ≠ some (h hasher s k) := by
      intro i e1 h1 hc
      have := hI.nothome i _ e1 e h1 hc he
      rw [hk] at this
      exact this rfl
    have hne : h hasher s k ≠ tmp := by
      intro hEq
      rw [← hEq] at hn
      exact hnolink _ e he hn
    have ht1' : t1 = t := by
      rw [get_set _ _ _ (lt_of_get he), if_neg (Ne.symm hne), ht] at ht1
      exact (Option.some.inj ht1).symm
    subst ht1'
    have htm : t1.mode = Mode.used := by
      obtain ⟨_, e', he', hm'⟩ := hI.link _ tmp e he hn
      rw [ht] at he'
      cases he'
      exact hm'
    rw [hs]
    exact hI.inv_erase_unlink hasher s _ tmp e t1 ⟨t1.key, t1.mode, t1.next⟩ he hn ht hne htm rfl
      (Or.inr hnolink)
  · have hqp : q ≠ p := by
      intro hEq
      subst hEq
      rw [hq] at hpe
      cases hpe
      exact hqk hpk
    rw [hs]
    exact hI.inv_erase_unlink hasher s q p eq pe { eq with next := pe.next } hq hqn hpe hqp hqm rfl
      (Or.inl rfl)

theorem N_pos : 0 < N := by decide

theorem getElem?_new_table [Inhabited Key] (n i : Nat) :
    (new_table n : List (element Key))[i]? =
      if i < n then some element.fresh
      else if i = n then some { key := default, mode := Mode.end_, next := none } else none := by
  unfold new_table
  rw [List.getElem?_append, List.length_replicate, List.getElem?_replicate]
  by_cases h1 : i < n
  · simp [h1]
  · simp only [h1, if_false]
    by_cases h2 : i = n
    · subst h2
      simp
    · simp only [h2, if_false]
      apply List.getElem?_eq_none
      simp only [List.length_singleton]
      omega

theorem countP_new_table [Inhabited Key] (n : Nat) :
    (new_table n : List (element Key)).countP (fun e => decide (e.mode = Mode.used)) = 0 := by
  rw [List.countP_eq_zero]
  intro e he
  unfold new_table at he
  simp only [List.mem_append, List.mem_replicate, List.mem_singleton] at he
  rcases he with ⟨_, he⟩ | he <;> subst he <;> simp [element.fresh]

/-- The empty table that `rehash` allocates satisfies the invariant. -/
theorem Inv.inv_new_table [Inhabited Key] (hasher : Key → Nat) (T W lf : Nat) (hT : 0 < T) (hTW : T ≤ W)
    (hlf : lf < W) :
    Inv hasher ({ table := ADS.new_table W, last_free := lf, table_size := T, curr_size := 0,
                  tableWithKeller_size := W } : ADS_set Key) := by
  constructor
  · simp [ADS.new_table]
  · exact hT
  · exact hTW
  · exact hlf
  · intro i e he
    simp only [getElem?_new_table] at he
    split at he
    · next hi =>
      cases he
      simp only [element.fresh]
      constructor
      · intro hc; cases hc
      · intro hc; omega
    · split at he
      · next hi =>
        cases he
        simp [hi]
      · cases he
  · intro i j e he hn
    simp only [getElem?_new_table] at he
    split at he
    · cases he; cases hn
    · split at he
      · cases he; cases hn
      · cases he
  · intro i i' j e e' he _ hn _
    simp only [getElem?_new_table] at he
    split at he
    · cases he; cases hn
    · split at he
      · cases he; cases hn
      · cases he
  · intro i j e e' he hn _
    simp only [getElem?_new_table] at he
    split at he
    · cases he; cases hn
    · split at he
      · cases he; cases hn
      · cases he
  · simp only
    rw [countP_new_table]

theorem Inv.inv_reinsert (hasher : Key → Nat) (l : List (element Key)) :
    ∀ (s s' : ADS_set Key), Inv hasher s → ADS.reinsert hasher l s = some s' → Inv hasher s' := by
  induction l with
  | nil =>
    intro s s' hI h'
    simp only [ADS.reinsert, Option.some.injEq] at h'
    rw [← h']
    exact hI
  | cons e rest ih =>
    intro s s' hI h'
    unfold ADS.reinsert at h'
    split at h'
    · split at h'
      · cases h'
      · next s1 p hins => exact ih s1 s' (hI.inv_insert_ hasher s s1 e.key p hins) h'
    · exact ih s s' hI h'

theorem le_kellerOf_add (T : Nat) : T ≤ T + kellerOf T := Nat.le_add_right _ _

theorem Inv.inv_rehash [Inhabited Key] (hasher : Key → Nat) (s s' : ADS_set Key) (n : Nat)
    (h' : ADS.rehash hasher s n = some s') : Inv hasher s' := by
  unfold ADS.rehash at h'
  simp only at h'
  refine Inv.inv_reinsert hasher _ _ s' (Inv.inv_new_table hasher _ _ _ ?_ ?_ ?_) h'
  · have := N_pos
    omega
  · exact le_kellerOf_add _
  · have := N_pos
    have := le_kellerOf_add (max N (max n (minTableFor s.curr_size)))
    omega

theorem Inv.inv_reserve [Inhabited Key] (hasher : Key → Nat) (s s' : ADS_set Key) (n : Nat)
    (hI : Inv hasher s) (h' : ADS.reserve hasher s n = some s') : Inv hasher s' := by
  unfold ADS.reserve at h'
  split at h'
  · split at h'
    · cases h'
    · exact Inv.inv_rehash hasher s s' _ h'
  · cases h'
    exact hI

theorem Inv.inv_ctor [Inhabited Key] (hasher : Key → Nat) (s : ADS_set Key)
    (h' : ADS.ctor hasher = some s) : Inv hasher s :=
  Inv.inv_rehash hasher _ s _ h'

theorem Inv.inv_insert [DecidableEq Key] [Inhabited Key] (hasher : Key → Nat) (s s' : ADS_set Key)
    (k : Key) (r : Nat × Bool) (hI : Inv hasher s)
    (h' : ADS.insert hasher s k = some (s', r)) : Inv hasher s' := by
  unfold ADS.insert at h'
  split at h'
  · cases h'
  · simp only [Option.some.injEq, Prod.mk.injEq] at h'
    rw [← h'.1]
    exact hI
  · split at h'
    · cases h'
    · next s1 hs1 =>
      split at h'
      · cases h'
      · next s2 p hs2 =>
        simp only [Option.some.injEq, Prod.mk.injEq] at h'
        rw [← h'.1]
        exact (hI.inv_reserve hasher s s1 _ hs1).inv_insert_ hasher s1 s2 k p hs2

theorem Inv.inv_step [DecidableEq Key] [Inhabited Key] (hasher : Key → Nat) (s s' : ADS_set Key)
    (op : Op Key) (hI : Inv hasher s) (h' : ADS.step hasher s op = some s') : Inv hasher s' := by
  cases op with
  | ins k =>
    simp only [ADS.step, Option.map_eq_some'] at h'
    obtain ⟨⟨s1, r⟩, h1, h2⟩ := h'
    simp only at h2
    subst h2
    exact hI.inv_insert hasher s s1 k r h1
  | del k =>
    simp only [ADS.step, Option.map_eq_some'] at h'
    obtain ⟨⟨s1, r⟩, h1, h2⟩ := h'
    simp only at h2
    subst h2
    exact hI.inv_erase hasher s s1 k r h1

theorem Inv.inv_run [DecidableEq Key] [Inhabited Key] (hasher : Key → Nat) (ops : List (Op Key)) :
    ∀ (s s' : ADS_set Key), Inv hasher s → ADS.run hasher s ops = some s' → Inv hasher s' := by
  induction ops with
  | nil =>
    intro s s' hI h'
    simp only [ADS.run, Option.some.injEq] at h'
    rw [← h']
    exact hI
  | cons op rest ih =>
    intro s s' hI h'
    unfold ADS.run at h'
    split at h'
    · cases h'
    · next s1 hs1 => exact ih s1 s' (hI.inv_step hasher s s1 op hs1) h'

/-- Every set built from a default-constructed set by `insert` and `erase` calls
satisfies the structural invariant. -/
theorem Inv.inv_run_fresh [DecidableEq Key] [Inhabited Key] (hasher : Key → Nat) (ops : List (Op Key))
    (s : ADS_set Key) (h' : ADS.run_fresh hasher ops = some s) : Inv hasher s := by
  unfold ADS.run_fresh at h'
  split at h'
  · cases h'
  · next s0 hs0 => exact Inv.inv_run hasher ops s0 s (Inv.inv_ctor hasher s0 hs0) h'

end inv_ops

/-! ## The binary32 load test -/

section binary32

theorem log2_fuel_le : ∀ (f x : Nat), 0 < x → 2 ^ log2_fuel f x ≤ x := by
  intro f
  induction f with
  | zero => intro x hx; simpa [log2_fuel] using hx
  | succ f ih =>
    intro x hx
    unfold log2_fuel
    split
    · simpa using hx
    · have h2 : 0 < x / 2 := by omega
      have := ih (x / 2) h2
      rw [pow_succ]
      omega

theorem lt_log2_fuel : ∀ (f x : Nat), x ≤ f → x < 2 ^ (log2_fuel f x + 1) := by
  intro f
  induction f with
  | zero => intro x hx; simp [log2_fuel]; omega
  | succ f ih =>
    intro x hx
    unfold log2_fuel
    split
    · simp; omega
    · have := ih (x / 2) (by omega)
      rw [pow_succ]
      omega

/-- Rounding to 24 significant bits moves a number by at most its `2^-24`-th part. -/
theorem round24_bounds (x : Nat) (b : Bool) :
    x - x / 16777216 ≤ round24 x b ∧ round24 x b ≤ x + x / 16777216 := by
  unfold round24
  split
  · omega
  · next hx =>
    simp only
    have hpos : 0 < x := by omega
    have hlog := log2_fuel_le x x hpos
    have h24 : 24 ≤ log2_fuel x x := by
      by_contra hc
      have h1 := lt_log2_fuel x x (Nat.le_refl _)
      have h2 : 2 ^ (log2_fuel x x + 1) ≤ 2 ^ 24 := Nat.pow_le_pow_right (by decide) (by omega)
      have h3 : (2 : Nat) ^ 24 = 16777216 := by norm_num
      omega
    obtain ⟨k, hk⟩ : ∃ k, log2_fuel x x - 23 = k + 1 := ⟨log2_fuel x x - 24, by omega⟩
    rw [hk]
    have hL : log2_fuel x x = k + 1 + 23 := by omega
    rw [hL] at hlog
    have hsplit : (2 : Nat) ^ (k + 1 + 23) = 16777216 * 2 ^ k := by
      rw [show k + 1 + 23 = k + 24 by omega, pow_add]
      norm_num
      ring
    rw [hsplit] at hlog
    have hk1 : (2 : Nat) ^ (k + 1) = 2 * 2 ^ k := by rw [pow_succ]; ring
    simp only [Nat.add_sub_cancel]
    rw [hk1]
    generalize hP : 2 ^ k = P at *
    have hPpos : 0 < P := by rw [← hP]; exact Nat.two_pow_pos k
    have hdm := Nat.div_add_mod x (2 * P)
    have hmod := Nat.mod_lt x (show 0 < 2 * P by omega)
    generalize hq : x / (2 * P) = q at *
    generalize hr : x % (2 * P) = r at *
    have hxp : P ≤ x / 16777216 := by
      rw [Nat.le_div_iff_mul_le (by decide)]
      omega
    have hmul : 2 * P * q = q * (2 * P) := by ring
    have hmul1 : (q + 1) * (2 * P) = q * (2 * P) + 2 * P := by ring
    split
    · next hup =>
      rw [hmul1]
      rcases hup with hup | hup
      · omega
      · omega
    · next hdn =>
      have : r ≤ P := by
        by_contra hc
        exact hdn (Or.inl (by omega))
      omega

/-- A number of keys that passes the load test is at most the number of primary
slots. -/
theorem not_overLoad_le (n T : Nat) (hov : overLoad n T = false) : n ≤ T := by
  simp only [overLoad, decide_eq_false_iff_not, not_lt] at hov
  have h1 := round24_bounds T false
  have h2 := round24_bounds (round24 T false * 10066330) false
  have h3 := round24_bounds n false
  omega

/-- A primary zone of twice as many slots as keys passes the load test. -/
theorem not_overLoad_of_le (n c : Nat) (hc : 2 * n ≤ c) : overLoad n c = false := by
  simp only [overLoad, decide_eq_false_iff_not, not_lt]
  have h1 := round24_bounds c false
  have h2 := round24_bounds (round24 c false * 10066330) false
  have h3 := round24_bounds n false
  omega

theorem le_minTableFor (c : Nat) : c ≤ minTableFor c := by
  unfold minTableFor
  simp only
  have h1 := round24_bounds c false
  have h2 := round24_bounds (round24 c false * 72057594037927936 / 10066330)
    (decide (round24 c false * 72057594037927936 % 10066330 ≠ 0))
  omega

theorem minTableFor_le (c : Nat) : 10 * minTableFor c ≤ 17 * c := by
  unfold minTableFor
  simp only
  have h1 := round24_bounds c false
  have h2 := round24_bounds (round24 c false * 72057594037927936 / 10066330)
    (decide (round24 c false * 72057594037927936 % 10066330 ≠ 0))
  omega

theorem minTableFor_zero : minTableFor 0 = 0 := by decide

end binary32

section sizes

variable {Key : Type}

theorem insert__fields (hasher : Key → Nat) (s s' : ADS_set Key) (k : Key) (p : Nat)
    (h' : insert_ hasher s k = some (s', p)) :
    s'.curr_size = s.curr_size + 1 ∧ s'.table_size = s.table_size ∧
      s'.tableWithKeller_size = s.tableWithKeller_size ∧ s'.table.length = s.table.length := by
  rcases insert__spec hasher s s' k p h' with
    ⟨e, he, hm, _, hs⟩ | ⟨e, c, t, et0, et, he, hm, hc, hp, het0, hn0, het, _, hs⟩
  · rw [hs]
    simp
  · rw [hs]
    simp

theorem reinsert_fields (hasher : Key → Nat) (l : List (element Key)) :
    ∀ (s s' : ADS_set Key), reinsert hasher l s = some s' →
      s'.curr_size = s.curr_size + l.countP (fun e => decide (e.mode = Mode.used)) ∧
        s'.table_size = s.table_size ∧ s'.tableWithKeller_size = s.tableWithKeller_size := by
  induction l with
  | nil =>
    intro s s' h'
    simp only [reinsert, Option.some.injEq] at h'
    subst h'
    simp
  | cons e rest ih =>
    intro s s' h'
    unfold reinsert at h'
    split at h'
    · next hm =>
      split at h'
      · cases h'
      · next s1 p hins =>
        obtain ⟨h1, h2, h3, _⟩ := insert__fields hasher s s1 e.key p hins
        obtain ⟨h4, h5, h6⟩ := ih s1 s' h'
        simp only [List.countP_cons, hm, decide_True, if_true]
        refine ⟨by omega, by omega, by omega⟩
    · next hm =>
      obtain ⟨h4, h5, h6⟩ := ih s s' h'
      simp only [List.countP_cons, hm, decide_False]
      refine ⟨by simpa using h4, h5, h6⟩

/-- The slots before the sentinel hold all the `used` slots. -/
theorem Inv.inv_countP_take (hasher : Key → Nat) (s : ADS_set Key) (hI : Inv hasher s) :
    (s.table.take s.tableWithKeller_size).countP (fun e => decide (e.mode = Mode.used)) =
      s.curr_size := by
  have hlen := hI.len
  have hW : s.tableWithKeller_size < s.table.length := by omega
  have hsplit := List.take_append_drop s.tableWithKeller_size s.table
  rw [List.drop_eq_getElem_cons hW] at hsplit
  have hsent := (hI.sentinel s.tableWithKeller_size _ (List.getElem?_eq_getElem hW)).2 rfl
  have hc := hI.cnt
  rw [← hsplit, List.countP_append, List.countP_cons] at hc
  have hdrop : List.drop (s.tableWithKeller_size + 1) s.table = [] := by
    apply List.drop_eq_nil_of_le
    omega
  rw [hdrop] at hc
  simp only [hsent, List.countP_nil] at hc
  simp at hc
  omega

theorem grow_loop_spec (n : Nat) :
    ∀ (f c c' : Nat), grow_loop n f c = some c' → overLoad n c' = false ∧ c < c' := by
  intro f
  induction f with
  | zero => intro c c' h'; simp [grow_loop] at h'
  | succ f ih =>
    intro c c' h'
    unfold grow_loop at h'
    simp only at h'
    split at h'
    · obtain ⟨h1, h2⟩ := ih _ c' h'
      exact ⟨h1, by omega⟩
    · next hov =>
      simp only [Option.some.injEq] at h'
      subst h'
      exact ⟨by simpa using hov, by omega⟩

theorem rehash_fields (hasher : Key → Nat) [Inhabited Key] (s s' : ADS_set Key) (n : Nat)
    (hI : Inv hasher s) (h' : rehash hasher s n = some s') :
    s'.curr_size = s.curr_size ∧ s'.table_size = max N (max n (minTableFor s.curr_size)) := by
  unfold rehash at h'
  simp only at h'
  obtain ⟨h1, h2, _⟩ := reinsert_fields hasher _ _ s' h'
  rw [hI.inv_countP_take hasher s] at h1
  simp only at h1 h2
  exact ⟨by omega, h2⟩

/-- After `reserve(n)` the primary zone has at least `n` slots, and the set holds
as many keys as before. -/
theorem reserve_spec (hasher : Key → Nat) [Inhabited Key] (s s' : ADS_set Key) (n : Nat)
    (hI : Inv hasher s) (h' : reserve hasher s n = some s') :
    n ≤ s'.table_size ∧ s'.curr_size = s.curr_size ∧
      (s' = s ∨ s.table_size < s'.table_size) := by
  unfold reserve at h'
  split at h'
  · split at h'
    · cases h'
    · next c hc =>
      obtain ⟨hov, hlt⟩ := grow_loop_spec n _ _ c hc
      obtain ⟨h1, h2⟩ := rehash_fields hasher s s' c hI h'
      have hnc := not_overLoad_le n c hov
      have hmax : c ≤ max N (max c (minTableFor s.curr_size)) :=
        (Nat.le_max_left _ _).trans (Nat.le_max_right _ _)
      refine ⟨by rw [h2]; omega, h1, Or.inr (by rw [h2]; omega)⟩
  · next hc =>
    simp only [Option.some.injEq] at h'
    subst h'
    have hov : overLoad n s.table_size = false := by
      cases hb : overLoad n s.table_size with
      | false => rfl
      | true => exact absurd (Or.inl hb) hc
    exact ⟨not_overLoad_le n _ hov, rfl, Or.inl rfl⟩

end sizes

section erase_total

variable {Key : Type}

theorem count_eq_one [DecidableEq Key] (hasher : Key → Nat) (s : ADS_set Key) (k : Key) :
    count hasher s k = some 1 ↔ ∃ p, find_ hasher s k = some (some p) := by
  unfold count
  cases hf : find_ hasher s k with
  | none => simp
  | some r =>
    cases r with
    | none => simp
    | some p => simp

theorem count_eq_zero [DecidableEq Key] (hasher : Key → Nat) (s : ADS_set Key) (k : Key) :
    count hasher s k = some 0 ↔ find_ hasher s k = some none := by
  unfold count
  cases hf : find_ hasher s k with
  | none => simp
  | some r =>
    cases r with
    | none => simp
    | some p => simp

theorem set_next_some {tbl : List (element Key)} {i : Nat} {e : element Key}
    (h : tbl[i]? = some e) (nx : Option Nat) :
    set_next tbl i nx = some (tbl.set i { e with next := nx }) := by
  simp [set_next, h]

theorem set_free_some {tbl : List (element Key)} {i : Nat} {e : element Key}
    (h : tbl[i]? = some e) : set_free tbl i = some (tbl.set i { e with mode := Mode.free }) := by
  simp [set_free, h]

/-- On a set that satisfies the invariant, `erase` of a key that `find_` finds
returns `1`. -/
theorem erase_found [DecidableEq Key] (hasher : Key → Nat) (s : ADS_set Key) (k : Key) (p : Nat)
    (hI : Inv hasher s) (hf : find_ hasher s k = some (some p)) :
    ∃ s', erase hasher s k = some (s', 1) := by
  have hf' := hf
  unfold find_ at hf'
  obtain ⟨pe, hpe, hpm, hpk⟩ := find_loop_some _ _ _ _ _ hf'
  have hplt := lt_of_get hpe
  unfold erase
  simp only [hf]
  rcases find_loop_erase_loop _ _ _ _ _ hf' with
    ⟨e, he, hk0, hpi⟩ | ⟨e, he, hk0, q, eq, hq, hqm, hqk, hqn, hall⟩
  · subst hpi
    simp only [he]
    split
    · rw [set_free_some he]
      exact ⟨_, rfl⟩
    · next hc =>
      cases hn : e.next with
      | none => exact absurd ⟨hn, hk0⟩ hc
      | some tmp =>
        obtain ⟨_, t, ht, _⟩ := hI.link _ tmp e he hn
        simp only [ht]
        have hlt : tmp < (s.table.set (h hasher s k) ⟨t.key, t.mode, t.next⟩).length := by
          rw [List.length_set]
          exact lt_of_get ht
        rw [List.getElem?_eq_getElem hlt]
        exact ⟨_, rfl⟩
  · have hqp : q ≠ p := by
      intro hEq
      subst hEq
      rw [hq] at hpe
      cases hpe
      exact hqk hpk
    have hqlt := lt_of_get hq
    simp only [he, and_false, if_false, hk0, hall, hpe]
    split
    · rw [set_next_some hq]
      simp only
      rw [set_free_some (e := pe) (by rw [get_set _ _ _ hqlt, if_neg (Ne.symm hqp), hpe])]
      exact ⟨_, rfl⟩
    · rw [set_next_some hq]
      simp only
      rw [set_next_some (e := pe) (by rw [get_set _ _ _ hqlt, if_neg (Ne.symm hqp), hpe])]
      simp only
      have hlt : p < (s.table.set q { eq with next := pe.next }).length := by
        rw [List.length_set]
        exact hplt
      rw [set_free_some (e := { pe with next := none }) (by rw [get_set _ _ _ hlt, if_pos rfl])]
      exact ⟨_, rfl⟩

theorem Inv.inv_curr_size_pos (hasher : Key → Nat) (s : ADS_set Key) (hI : Inv hasher s)
    {p : Nat} (hp : usedAt s.table p) : 0 < s.curr_size := by
  rw [hI.cnt, List.countP_pos_iff]
  obtain ⟨e, he, hm⟩ := hp
  exact ⟨e, List.mem_iff_getElem?.2 ⟨p, he⟩, by simpa using hm⟩

theorem erase_fields [DecidableEq Key] (hasher : Key → Nat) (s s' : ADS_set Key) (k : Key)
    (hE : erase hasher s k = some (s', 1)) :
    s'.curr_size = s.curr_size - 1 ∧ s'.table_size = s.table_size ∧
      s'.tableWithKeller_size = s.tableWithKeller_size := by
  rcases erase_spec hasher s s' k 1 hE with
    ⟨_, _, h0⟩ | ⟨e, _, _, he, hm, hk, hn, hs⟩ |
    ⟨e, tmp, t, t1, _, _, he, hm, hk, hn, ht, ht1, hs⟩ |
    ⟨p, q, eq, pe, _, _, hq, hqm, hqk, hqn, hpe, hpm, hpk, hs⟩
  · cases h0
  · rw [hs]; simp
  · rw [hs]; simp
  · rw [hs]; simp

end erase_total

section erase_contract

variable {Key : Type}

/-- C6: on every set built from a default-constructed set by `insert` and `erase`
calls, `erase(k)` returns `1` and lowers `size()` by exactly one when `count(k)`
is `1`; it returns `0` and leaves every data member unchanged when `count(k)` is
`0`; it never returns another value. -/
theorem erase_result [DecidableEq Key] [Inhabited Key] (hasher : Key → Nat) (ops : List (Op Key)) (s : ADS_set Key) (k : Key)
    (hs : run_fresh hasher ops = some s) :
    (count hasher s k = some 1 →
      ∃ s', erase hasher s k = some (s', 1) ∧ size s' + 1 = size s) ∧
    (count hasher s k = some 0 → erase hasher s k = some (s, 0)) ∧
    (∀ s' r, erase hasher s k = some (s', r) → r = 0 ∨ r = 1) := by
  have hI := Inv.inv_run_fresh hasher ops s hs
  refine ⟨?_, ?_, ?_⟩
  · intro hc
    obtain ⟨p, hf⟩ := (count_eq_one hasher s k).1 hc
    obtain ⟨s', hE⟩ := erase_found hasher s k p hI hf
    refine ⟨s', hE, ?_⟩
    obtain ⟨h1, _, _⟩ := erase_fields hasher s s' k hE
    obtain ⟨pe, hpe, hpm, _⟩ := find_loop_some _ _ _ _ _ hf
    have := hI.inv_curr_size_pos hasher s ⟨pe, hpe, hpm⟩
    unfold size
    omega
  · intro hc
    have hf := (count_eq_zero hasher s k).1 hc
    unfold erase
    simp only [hf]
  · intro s' r hE
    rcases erase_spec hasher s s' k r hE with
      ⟨_, _, h0⟩ | ⟨_, _, h1, _⟩ | ⟨_, _, _, _, _, h1, _⟩ | ⟨_, _, _, _, _, h1, _⟩
    · exact Or.inl h0
    · exact Or.inr h1
    · exact Or.inr h1
    · exact Or.inr h1

end erase_contract

section load_factor

variable {Key : Type}

/-- One new key: `reserve` first, then `insert_`; afterwards the keys are at most
as many as the primary slots. -/
theorem reserve_insert__load [Inhabited Key] (hasher : Key → Nat) (s s1 s2 : ADS_set Key) (k : Key) (p : Nat)
    (hI : Inv hasher s) (h1 : reserve hasher s (s.curr_size + 1) = some s1)
    (h2 : insert_ hasher s1 k = some (s2, p)) :
    size s1 + 1 ≤ s1.table_size ∧ s2.table_size = s1.table_size ∧
      size s2 = size s1 + 1 ∧ size s2 ≤ s2.table_size := by
  obtain ⟨ha, hb, _⟩ := reserve_spec hasher s s1 _ hI h1
  obtain ⟨hc, hd, _, _⟩ := insert__fields hasher s1 s2 k p h2
  unfold size
  refine ⟨by omega, hd, hc, by omega⟩

theorem Inv.inv_insert_range [DecidableEq Key] [Inhabited Key] (hasher : Key → Nat) (ks : List Key) :
    ∀ (s s' : ADS_set Key), Inv hasher s → ADS.insert_range hasher s ks = some s' →
      Inv hasher s' ∧ (s' = s ∨ size s' ≤ s'.table_size) := by
  induction ks with
  | nil =>
    intro s s' hI h'
    simp only [ADS.insert_range, Option.some.injEq] at h'
    subst h'
    exact ⟨hI, Or.inl rfl⟩
  | cons k rest ih =>
    intro s s' hI h'
    unfold ADS.insert_range at h'
    split at h'
    · cases h'
    · split at h'
      · split at h'
        · cases h'
        · next s1 hs1 =>
          split at h'
          · cases h'
          · next s2 p hs2 =>
            have hI2 := (hI.inv_reserve hasher s s1 _ hs1).inv_insert_ hasher s1 s2 k p hs2
            obtain ⟨hI', hor⟩ := ih s2 s' hI2 h'
            refine ⟨hI', Or.inr ?_⟩
            rcases hor with hEq | hle
            · rw [hEq]
              exact (reserve_insert__load hasher s s1 s2 k p hI hs1 hs2).2.2.2
            · exact hle
      · exact ih s s' hI h'

/-- What holds of the load after an insert: on every set built from a
default-constructed set by `insert` and `erase` calls, an `insert` that adds a
key (single call, or a range insert that changes the set) ends with at most as
many keys as primary slots; the single insert is `reserve(size() + 1)` followed
by `insert_` on the reserved table, which already has room for one more key and
whose `table_size` the write does not change. -/
theorem size_le_table_size [DecidableEq Key] [Inhabited Key] (hasher : Key → Nat) (ops : List (Op Key)) (s : ADS_set Key)
    (hs : run_fresh hasher ops = some s) :
    (∀ (k : Key) (s' : ADS_set Key) (p : Nat), insert hasher s k = some (s', p, true) →
      size s' ≤ s'.table_size ∧
      ∃ s1, reserve hasher s (size s + 1) = some s1 ∧ insert_ hasher s1 k = some (s', p) ∧
        size s1 + 1 ≤ s1.table_size ∧ s'.table_size = s1.table_size) ∧
    (∀ (ks : List Key) (s' : ADS_set Key), insert_range hasher s ks = some s' →
      s' = s ∨ size s' ≤ s'.table_size) := by
  have hI := Inv.inv_run_fresh hasher ops s hs
  constructor
  · intro k s' p h'
    unfold insert at h'
    split at h'
    · cases h'
    · simp at h'
    · split at h'
      · cases h'
      · next s1 hs1 =>
        split at h'
        · cases h'
        · next s2 p2 hs2 =>
          simp only [Option.some.injEq, Prod.mk.injEq, and_true] at h'
          obtain ⟨h1, h2⟩ := h'
          subst h1
          subst h2
          obtain ⟨ha, hb, hc, hd⟩ := reserve_insert__load hasher s s1 s2 k p2 hI hs1 hs2
          exact ⟨hd, s1, hs1, hs2, ha, hb⟩
  · intro ks s' h'
    exact (hI.inv_insert_range hasher ks s s' h').2

end load_factor

section find_after

variable {Key : Type}

/-- Along a finite chain of `used` slots that contains key `k`, `find_` finds `k`. -/
theorem find_loop_of_path [DecidableEq Key] (k : Key) (tbl : List (element Key))
    (hl : ∀ (i j : Nat) (e : element Key), tbl[i]? = some e → e.next = some j →
      e.mode = Mode.used ∧ usedAt tbl j)
    {i j : Nat} (hp : Path (nxt tbl) i j) :
    ∀ (d f : Nat), Ends (nxt tbl) i d → d < f → usedAt tbl i →
      (∃ e, tbl[j]? = some e ∧ e.key = k) → ∃ p, find_loop k tbl f i = some (some p) := by
  induction hp with
  | refl a =>
    intro d f _ hdf ⟨e, he, hm⟩ ⟨e', he', hk⟩
    rw [he] at he'
    cases he'
    cases f with
    | zero => omega
    | succ f =>
      refine ⟨a, ?_⟩
      unfold find_loop
      simp [he, hm, hk]
  | @head a b c h0 _ ih =>
    intro d f hE hdf ⟨e, he, hm⟩ hk
    cases f with
    | zero => omega
    | succ f =>
      unfold find_loop
      simp only [he, hm]
      by_cases hek : e.key = k
      · exact ⟨a, by simp [hek]⟩
      · simp only [hek, if_false]
        have hn : e.next = some b := by rw [← nxt_eq he]; exact h0
        simp only [hn]
        cases hE with
        | last h1 => rw [h0] at h1; cases h1
        | @step _ b' d' h1 h2 =>
          rw [h0] at h1
          cases h1
          exact ih d' f h2 (by omega) (hl a b e he hn).2 hk

theorem Inv.inv_link_lt (hasher : Key → Nat) (s : ADS_set Key) (hI : Inv hasher s) :
    ∀ i j, nxt s.table i = some j → j < s.table.length := by
  intro i j hij
  obtain ⟨e, he, hn⟩ := nxt_some hij
  exact usedAt_lt (hI.link i j e he hn).2

/-- After `insert_` the key is found. -/
theorem find_after_insert_ [DecidableEq Key] (hasher : Key → Nat) (s s' : ADS_set Key) (k : Key) (p : Nat)
    (hI : Inv hasher s) (h' : insert_ hasher s k = some (s', p)) :
    ∃ p', find_ hasher s' k = some (some p') := by
  have hI' := hI.inv_insert_ hasher s s' k p h'
  have hidx := h_lt hasher s k hI
  have hts := hI.ts_le
  have hlen := hI.len
  rcases insert__spec hasher s s' k p h' with
    ⟨e, he, hm, _, hs⟩ | ⟨e, c, t, et0, et, he, hm, hc, hp, het0, hn0, het, _, hs⟩
  · refine ⟨h hasher s k, ?_⟩
    have hlt := lt_of_get he
    have hh : h hasher s' k = h hasher s k := by rw [hs]; rfl
    unfold find_
    rw [hh]
    have hlen' : s'.table.length = s.table.length := by rw [hs]; simp
    rw [hlen']
    cases hL : s.table.length with
    | zero => omega
    | succ L =>
      unfold find_loop
      have : s'.table[h hasher s k]? = some ⟨k, Mode.used, none⟩ := by
        rw [hs]
        simp only
        rw [get_set _ _ _ hlt, if_pos rfl]
      simp [this]
  · obtain ⟨htc, hett, hcW, htu, hcu, _⟩ :=
      hI.inv_insert_chain hasher s k e et0 et c t he hm hc hp het0 hn0 het
    subst hett
    have hclt : c < s.table.length := by omega
    have htlt := lt_of_get het0
    have htlt' : t < (s.table.set c (⟨k, Mode.used, none⟩ : element Key)).length := by
      rw [List.length_set]
      exact htlt
    have hget : ∀ i, s'.table[i]? =
        if i = t then some { et with next := some c }
        else if i = c then some ⟨k, Mode.used, none⟩ else s.table[i]? := by
      intro i
      rw [hs]
      simp only
      rw [get_set _ _ _ htlt', get_set _ _ _ hclt]
    have hnc : nxt s.table c = none := by
      cases hx : nxt s.table c with
      | none => rfl
      | some j =>
        obtain ⟨ec, hec, hecn⟩ := nxt_some hx
        exact absurd ⟨ec, hec, (hI.link c j ec hec hecn).1⟩ hcu
    have hnt : nxt s.table t = none := by rw [nxt_eq het0, hn0]
    have hσ : nxt s'.table = Function.update (nxt s.table) t (some c) := by
      funext i
      by_cases hit : i = t
      · subst hit
        rw [Function.update_same]
        exact (nxt_eq (by rw [hget, if_pos rfl])).trans rfl
      · rw [Function.update_noteq hit]
        by_cases hic : i = c
        · subst hic
          rw [hnc]
          exact (nxt_eq (by rw [hget, if_neg hit, if_pos rfl])).trans rfl
        · unfold nxt
          rw [hget, if_neg hit, if_neg hic]
    have hh : h hasher s' k = h hasher s k := by rw [hs]; rfl
    have hlen' : s'.table.length = s.table.length := by rw [hs]; simp
    have hpath : Path (nxt s'.table) (h hasher s k) c := by
      rw [hσ]
      exact (hp.path_update_none hnt).path_snoc (by rw [Function.update_same])
    obtain ⟨d0, hd0⟩ := hp.path_ends (Ends.last hnt)
    obtain ⟨d, hd⟩ : ∃ d, Ends (nxt s'.table) (h hasher s k) d := by
      rw [hσ]
      exact hd0.ends_update_none hnt hnc htc.symm
    have hdlt : d < s'.table.length :=
      hd.ends_lt_of_bounded (hI'.inv_link_lt hasher s') (by rw [hlen']; omega)
    have hiu : usedAt s'.table (h hasher s k) := by
      have hmu := hI.inv_used_of_not_free hasher s he (by omega) hm
      by_cases hit : h hasher s k = t
      · exact ⟨_, by rw [hget, if_pos hit], by
          have : et = e := by
            rw [← hit, he] at het0
            exact (Option.some.inj het0).symm
          rw [this]
          exact hmu⟩
      · have hic : h hasher s k ≠ c := by
          intro hEq
          exact hcu ⟨e, by rw [← hEq]; exact he, hmu⟩
        exact ⟨e, by rw [hget, if_neg hit, if_neg hic]; exact he, hmu⟩
    unfold find_
    rw [hh]
    exact find_loop_of_path k s'.table hI'.link hpath d _ hd hdlt hiu
      ⟨⟨k, Mode.used, none⟩, by rw [hget, if_neg htc.symm, if_pos rfl], rfl⟩

end find_after

section insert_contract

variable {Key : Type}

/-- What holds of two inserts in a row: on every set built from a
default-constructed set by `insert` and `erase` calls, once `insert(k)` has
returned, `count(k)` is `1` and a second `insert(k)` returns `inserted == false`
and leaves every data member (slots, `curr_size`, `table_size`,
`tableWithKeller_size`, `last_free`) as the first call left it. -/
theorem insert_twice [DecidableEq Key] [Inhabited Key] (hasher : Key → Nat) (ops : List (Op Key)) (s s1 : ADS_set Key) (k : Key)
    (p1 : Nat) (b1 : Bool) (hs : run_fresh hasher ops = some s)
    (h1 : insert hasher s k = some (s1, p1, b1)) :
    count hasher s1 k = some 1 ∧ ∃ p2, insert hasher s1 k = some (s1, p2, false) := by
  have hI := Inv.inv_run_fresh hasher ops s hs
  have hfind : ∃ p, find_ hasher s1 k = some (some p) := by
    unfold insert at h1
    split at h1
    · cases h1
    · next p hf =>
      simp only [Option.some.injEq, Prod.mk.injEq] at h1
      rw [← h1.1]
      exact ⟨p, hf⟩
    · split at h1
      · cases h1
      · next s' hs' =>
        split at h1
        · cases h1
        · next s2 p2 hs2 =>
          simp only [Option.some.injEq, Prod.mk.injEq] at h1
          rw [← h1.1]
          exact find_after_insert_ hasher s' s2 k p2 (hI.inv_reserve hasher s s' _ hs') hs2
  obtain ⟨p, hp⟩ := hfind
  refine ⟨(count_eq_one hasher s1 k).2 ⟨p, hp⟩, p, ?_⟩
  unfold insert
  simp only [hp]

end insert_contract

/-! ## Sets built by insertions only -/

section findable

variable {Key : Type}

/-- The description of the table after a chained `insert_`. -/
theorem insert_chain_get (hasher : Key → Nat) (s : ADS_set Key) (k : Key)
    (e et0 et : element Key) (c t : Nat)
    (hI : Inv hasher s) (he : s.table[h hasher s k]? = some e) (hm : e.mode ≠ Mode.free)
    (hc : scan_free s.table s.last_free = some c)
    (hp : Path (nxt s.table) (h hasher s k) t) (het0 : s.table[t]? = some et0)
    (hn0 : et0.next = none)
    (het : (s.table.set c ⟨k, Mode.used, none⟩)[t]? = some et) :
    (∀ i, ((s.table.set c ⟨k, Mode.used, none⟩).set t { et with next := some c })[i]? =
        if i = t then some { et0 with next := some c }
        else if i = c then some ⟨k, Mode.used, none⟩ else s.table[i]?) ∧
    nxt ((s.table.set c ⟨k, Mode.used, none⟩).set t { et with next := some c }) =
      Function.update (nxt s.table) t (some c) ∧
    nxt s.table t = none ∧ nxt s.table c = none ∧ et0.mode = Mode.used := by
  obtain ⟨htc, hett, hcW, htu, hcu, _⟩ :=
    hI.inv_insert_chain hasher s k e et0 et c t he hm hc hp het0 hn0 het
  subst hett
  have hlen := hI.len
  have hclt : c < s.table.length := by omega
  have htlt := lt_of_get het0
  have htlt' : t < (s.table.set c (⟨k, Mode.used, none⟩ : element Key)).length := by
    rw [List.length_set]
    exact htlt
  have hget : ∀ i, ((s.table.set c ⟨k, Mode.used, none⟩).set t { et with next := some c })[i]? =
      if i = t then some { et with next := some c }
      else if i = c then some ⟨k, Mode.used, none⟩ else s.table[i]? := by
    intro i
    rw [get_set _ _ _ htlt', get_set _ _ _ hclt]
  have hnc : nxt s.table c = none := by
    cases hx : nxt s.table c with
    | none => rfl
    | some j =>
      obtain ⟨ec, hec, hecn⟩ := nxt_some hx
      exact absurd ⟨ec, hec, (hI.link c j ec hec hecn).1⟩ hcu
  have hnt : nxt s.table t = none := by rw [nxt_eq het0, hn0]
  have htm : et.mode = Mode.used := by
    obtain ⟨e', he', hm'⟩ := htu
    rw [het0] at he'
    cases he'
    exact hm'
  refine ⟨hget, ?_, hnt, hnc, htm⟩
  funext i
  by_cases hit : i = t
  · subst hit
    rw [Function.update_same]
    exact (nxt_eq (by rw [hget, if_pos rfl])).trans rfl
  · rw [Function.update_noteq hit]
    by_cases hic : i = c
    · subst hic
      rw [hnc]
      exact (nxt_eq (by rw [hget, if_neg hit, if_pos rfl])).trans rfl
    · unfold nxt
      rw [hget, if_neg hit, if_neg hic]

/-- The description of the table after `insert_` wrote into the home slot. -/
theorem insert_home_nxt (hasher : Key → Nat) (s : ADS_set Key) (k : Key) (e : element Key)
    (hI : Inv hasher s) (he : s.table[h hasher s k]? = some e) (hm : e.mode = Mode.free) :
    nxt (s.table.set (h hasher s k) ⟨k, Mode.used, none⟩) = nxt s.table := by
  have hlt := lt_of_get he
  funext i
  unfold nxt
  rw [get_set _ _ _ hlt]
  by_cases hi : i = h hasher s k
  · subst hi
    rw [if_pos rfl, he]
    simp only
    cases hx : e.next with
    | none => rfl
    | some j =>
      have := (hI.link _ j e he hx).1
      rw [hm] at this
      cases this
  · rw [if_neg hi]

theorem Findable.findable_insert_ (hasher : Key → Nat) (s s' : ADS_set Key) (k : Key) (p : Nat)
    (hI : Inv hasher s) (hF : Findable hasher s) (h' : ADS.insert_ hasher s k = some (s', p)) :
    Findable hasher s' := by
  rcases insert__spec hasher s s' k p h' with
    ⟨e, he, hm, _, hs⟩ | ⟨e, c, t, et0, et, he, hm, hc, hp, het0, hn0, het, _, hs⟩
  · have hlt := lt_of_get he
    have hσ := insert_home_nxt hasher s k e hI he hm
    have hget := fun i => get_set s.table (⟨k, Mode.used, none⟩ : element Key) i hlt
    rw [hs]
    constructor
    · intro i
      simp only [hσ]
      exact hF.term i
    · intro i h1 h2
      exact usedAt_set_of rfl (hF.above i h1 h2)
    · intro j e' h1 h2
      simp only [hσ]
      simp only [hget] at h1
      split at h1
      · next hj =>
        cases h1
        subst hj
        exact Path.refl _
      · exact hF.home j e' h1 h2
  · obtain ⟨hget, hσ, hnt, hnc, htm⟩ :=
      insert_chain_get hasher s k e et0 et c t hI he hm hc hp het0 hn0 het
    obtain ⟨htc, hett, hcW, htu, hcu, _⟩ :=
      hI.inv_insert_chain hasher s k e et0 et c t he hm hc hp het0 hn0 het
    obtain ⟨hcle, _, hbetween⟩ := scan_free_spec _ _ _ hc
    subst hett
    rw [hs]
    constructor
    · intro i
      simp only [hσ]
      obtain ⟨d, hd⟩ := hF.term i
      exact hd.ends_update_none hnt hnc htc.symm
    · intro i h1 h2
      simp only at h1 h2
      have hu : usedAt s.table i := by
        by_cases hi : i ≤ s.last_free
        · exact hbetween i h1 hi
        · exact hF.above i (by omega) h2
      exact usedAt_set_of (by simpa using htm) (usedAt_set_of rfl hu)
    · intro j e' h1 h2
      simp only [hσ]
      simp only [hget] at h1
      split at h1
      · next hj =>
        cases h1
        subst hj
        exact (hF.home j et het0 htm).path_update_none hnt
      · split at h1
        · next hj =>
          cases h1
          subst hj
          exact (hp.path_update_none hnt).path_snoc (by rw [Function.update_same])
        · exact (hF.home j e' h1 h2).path_update_none hnt

/-- Counting: if every slot before the sentinel is `used`, the table holds at
least `tableWithKeller_size` keys. -/
theorem countP_ge_of_all_used (tbl : List (element Key)) (W : Nat) (hW : W ≤ tbl.length)
    (hall : ∀ i, i < W → usedAt tbl i) :
    W ≤ tbl.countP (fun e => decide (e.mode = Mode.used)) := by
  have h1 : (tbl.take W).countP (fun e => decide (e.mode = Mode.used)) = (tbl.take W).length := by
    rw [List.countP_eq_length]
    intro a ha
    obtain ⟨i, hi⟩ := List.mem_iff_getElem?.1 ha
    rw [List.getElem?_take] at hi
    split at hi
    · next hlt =>
      obtain ⟨e, he, hm⟩ := hall i hlt
      rw [he] at hi
      cases hi
      simpa using hm
    · cases hi
  have h2 : (tbl.take W).countP (fun e => decide (e.mode = Mode.used)) ≤
      tbl.countP (fun e => decide (e.mode = Mode.used)) :=
    (List.take_sublist W tbl).countP_le _
  rw [List.length_take, Nat.min_eq_left hW] at h1
  omega

theorem last_next_loop_total (tbl : List (element Key))
    (hb : ∀ i j, nxt tbl i = some j → j < tbl.length) :
    ∀ (d f i : Nat), Ends (nxt tbl) i (d + 1) → d + 1 ≤ f →
      ∃ t, last_next_loop tbl f i = some t := by
  intro d
  induction d with
  | zero =>
    intro f i hE hf
    cases hE with
    | @step _ j _ h0 h1 =>
      obtain ⟨e, he, hn⟩ := nxt_some h0
      have hj := hb i j h0
      cases f with
      | zero => omega
      | succ f =>
        unfold last_next_loop
        simp only [he, hn, List.getElem?_eq_getElem hj]
        cases h1 with
        | last h2 =>
          rw [nxt_eq (List.getElem?_eq_getElem hj)] at h2
          exact ⟨j, by simp [h2]⟩
  | succ d ih =>
    intro f i hE hf
    cases hE with
    | @step _ j _ h0 h1 =>
      obtain ⟨e, he, hn⟩ := nxt_some h0
      have hj := hb i j h0
      cases f with
      | zero => omega
      | succ f =>
        unfold last_next_loop
        simp only [he, hn, List.getElem?_eq_getElem hj]
        split
        · exact ⟨j, rfl⟩
        · exact ih f j h1 (by omega)

/-- With the invariants of insert-only sets and a slot to spare, `insert_` returns. -/
theorem insert__total (hasher : Key → Nat) (s : ADS_set Key) (k : Key)
    (hI : Inv hasher s) (hF : Findable hasher s) (hroom : s.curr_size < s.tableWithKeller_size) :
    ∃ s' p, ADS.insert_ hasher s k = some (s', p) := by
  have hidx := h_lt hasher s k hI
  have hts := hI.ts_le
  have hlen := hI.len
  have hlf := hI.lf_lt
  have hlt : h hasher s k < s.table.length := by omega
  unfold ADS.insert_
  simp only [List.getElem?_eq_getElem hlt]
  split
  · exact ⟨_, _, rfl⟩
  · next hm =>
    have hscan : ∃ c, scan_free s.table s.last_free = some c := by
      apply scan_free_some _ _ (by omega)
      by_contra hcon
      simp only [not_exists, not_and, not_not] at hcon
      have hall : ∀ i, i < s.tableWithKeller_size → usedAt s.table i := by
        intro i hi
        by_cases hil : i ≤ s.last_free
        · exact hcon i hil
        · exact hF.above i (by omega) hi
      have := countP_ge_of_all_used s.table s.tableWithKeller_size (by omega) hall
      rw [← hI.cnt] at this
      omega
    obtain ⟨c, hc⟩ := hscan
    obtain ⟨hcle, ⟨ec, hec, hecm⟩, _⟩ := scan_free_spec _ _ _ hc
    have hclt := lt_of_get hec
    simp only [hc]
    split
    · have hlt' : h hasher s k < (write_used s.table c k).length := by
        unfold write_used
        rw [List.length_set]
        exact hlt
      rw [set_next_some (List.getElem?_eq_getElem hlt')]
      exact ⟨_, _, rfl⟩
    · next hn =>
      obtain ⟨d, hd⟩ := hF.term (h hasher s k)
      have hdlt := hd.ends_lt_of_bounded (hI.inv_link_lt hasher s) hlt
      cases d with
      | zero =>
        cases hd with
        | last h0 =>
          rw [nxt_eq (List.getElem?_eq_getElem hlt)] at h0
          exact absurd h0 hn
      | succ d =>
        obtain ⟨t, ht⟩ := last_next_loop_total s.table (hI.inv_link_lt hasher s) d s.table.length
          (h hasher s k) hd (by omega)
        simp only [ht]
        obtain ⟨_, et0, het0, _⟩ := last_next_loop_spec _ _ _ _ ht
        have hlt' : t < (write_used s.table c k).length := by
          unfold write_used
          rw [List.length_set]
          exact lt_of_get het0
        rw [set_next_some (List.getElem?_eq_getElem hlt')]
        exact ⟨_, _, rfl⟩

end findable

section lookup

variable {Key : Type}

theorem find_loop_total [DecidableEq Key] (k : Key) (tbl : List (element Key))
    (hl : ∀ (i j : Nat) (e : element Key), tbl[i]? = some e → e.next = some j →
      e.mode = Mode.used ∧ usedAt tbl j) :
    ∀ (d f i : Nat), Ends (nxt tbl) i d → d < f →
      (∃ e, tbl[i]? = some e ∧ e.mode ≠ Mode.end_) → ∃ r, find_loop k tbl f i = some r := by
  intro d
  induction d with
  | zero =>
    intro f i hE hf ⟨e, he, hm⟩
    cases f with
    | zero => omega
    | succ f =>
      unfold find_loop
      simp only [he]
      cases hE with
      | last h0 =>
        rw [nxt_eq he] at h0
        cases hmode : e.mode with
        | free => exact ⟨_, rfl⟩
        | used =>
          simp only [h0]
          split
          · exact ⟨_, rfl⟩
          · exact ⟨_, rfl⟩
        | end_ => exact absurd hmode hm
  | succ d ih =>
    intro f i hE hf ⟨e, he, hm⟩
    cases f with
    | zero => omega
    | succ f =>
      unfold find_loop
      simp only [he]
      cases hE with
      | @step _ j _ h0 h1 =>
        rw [nxt_eq he] at h0
        cases hmode : e.mode with
        | free => exact ⟨_, rfl⟩
        | used =>
          simp only [h0]
          split
          · exact ⟨_, rfl⟩
          · obtain ⟨e', he', hm'⟩ := (hl i j e he h0).2
            exact ih f j h1 (by omega) ⟨e', he', by rw [hm']; simp⟩
        | end_ => exact absurd hmode hm

theorem Path.path_usedAt_start {tbl : List (element Key)}
    (hl : ∀ (i j : Nat) (e : element Key), tbl[i]? = some e → e.next = some j →
      e.mode = Mode.used ∧ ADS.usedAt tbl j)
    {i j : Nat} (h : Path (nxt tbl) i j) (hj : ADS.usedAt tbl j) : ADS.usedAt tbl i := by
  cases h with
  | refl _ => exact hj
  | @head _ b _ h0 _ =>
    obtain ⟨e, he, hn⟩ := nxt_some h0
    exact ⟨e, he, (hl i b e he hn).1⟩

/-- On an insert-only set `find_` returns. -/
theorem find__total [DecidableEq Key] (hasher : Key → Nat) (s : ADS_set Key) (k : Key)
    (hI : Inv hasher s) (hF : Findable hasher s) : ∃ r, find_ hasher s k = some r := by
  have hidx := h_lt hasher s k hI
  have hts := hI.ts_le
  have hlen := hI.len
  have hlt : h hasher s k < s.table.length := by omega
  obtain ⟨d, hd⟩ := hF.term (h hasher s k)
  have hdlt := hd.ends_lt_of_bounded (hI.inv_link_lt hasher s) hlt
  unfold find_
  refine find_loop_total k s.table hI.link d _ _ hd hdlt
    ⟨_, List.getElem?_eq_getElem hlt, ?_⟩
  intro hc
  have := (hI.sentinel _ _ (List.getElem?_eq_getElem hlt)).1 hc
  omega

/-- On an insert-only set `find_` finds exactly the stored keys. -/
theorem find__iff_stored [DecidableEq Key] (hasher : Key → Nat) (s : ADS_set Key) (k : Key)
    (hI : Inv hasher s) (hF : Findable hasher s) :
    (∃ p, find_ hasher s k = some (some p)) ↔ stored s k := by
  constructor
  · rintro ⟨p, hp⟩
    obtain ⟨e, he, hm, hk⟩ := find_loop_some _ _ _ _ _ hp
    exact ⟨p, e, he, hm, hk⟩
  · rintro ⟨j, e, he, hm, hk⟩
    have hidx := h_lt hasher s k hI
    have hts := hI.ts_le
    have hlen := hI.len
    have hlt : h hasher s k < s.table.length := by omega
    have hp := hF.home j e he hm
    rw [hk] at hp
    obtain ⟨d, hd⟩ := hF.term (h hasher s k)
    have hdlt := hd.ends_lt_of_bounded (hI.inv_link_lt hasher s) hlt
    unfold find_
    exact find_loop_of_path k s.table hI.link hp d _ hd hdlt
      (hp.path_usedAt_start hI.link ⟨e, he, hm⟩) ⟨e, he, hk⟩

theorem find__none_iff [DecidableEq Key] (hasher : Key → Nat) (s : ADS_set Key) (k : Key)
    (hI : Inv hasher s) (hF : Findable hasher s) :
    find_ hasher s k = some none ↔ ¬ stored s k := by
  rw [← find__iff_stored hasher s k hI hF]
  obtain ⟨r, hr⟩ := find__total hasher s k hI hF
  rw [hr]
  cases r with
  | none => simp
  | some p => simp

theorem count_of_stored [DecidableEq Key] (hasher : Key → Nat) (s : ADS_set Key) (k : Key)
    (hI : Inv hasher s) (hF : Findable hasher s) (hst : stored s k) :
    count hasher s k = some 1 :=
  (count_eq_one hasher s k).2 ((find__iff_stored hasher s k hI hF).2 hst)

theorem count_of_not_stored [DecidableEq Key] (hasher : Key → Nat) (s : ADS_set Key) (k : Key)
    (hI : Inv hasher s) (hF : Findable hasher s) (hst : ¬ stored s k) :
    count hasher s k = some 0 :=
  (count_eq_zero hasher s k).2 ((find__none_iff hasher s k hI hF).2 hst)

/-- The stored keys after `insert_`. -/
theorem stored_insert_ (hasher : Key → Nat) (s s' : ADS_set Key) (k : Key) (p : Nat)
    (hI : Inv hasher s) (h' : insert_ hasher s k = some (s', p)) :
    ∀ x, stored s' x ↔ (x = k ∨ stored s x) := by
  intro x
  rcases insert__spec hasher s s' k p h' with
    ⟨e, he, hm, _, hs⟩ | ⟨e, c, t, et0, et, he, hm, hc, hp, het0, hn0, het, _, hs⟩
  · have hlt := lt_of_get he
    have hget := fun i => get_set s.table (⟨k, Mode.used, none⟩ : element Key) i hlt
    rw [hs]
    unfold stored
    simp only [hget]
    constructor
    · rintro ⟨j, e', h1, h2, h3⟩
      split at h1
      · cases h1
        exact Or.inl h3.symm
      · exact Or.inr ⟨j, e', h1, h2, h3⟩
    · rintro (hx | ⟨j, e', h1, h2, h3⟩)
      · exact ⟨h hasher s k, _, by rw [if_pos rfl], rfl, hx.symm⟩
      · have hj : j ≠ h hasher s k := by
          intro hEq
          subst hEq
          rw [he] at h1
          cases h1
          rw [hm] at h2
          cases h2
        exact ⟨j, e', by rw [if_neg hj]; exact h1, h2, h3⟩
  · obtain ⟨hget, _, _, _, htm⟩ :=
      insert_chain_get hasher s k e et0 et c t hI he hm hc hp het0 hn0 het
    obtain ⟨htc, hett, hcW, htu, hcu, _⟩ :=
      hI.inv_insert_chain hasher s k e et0 et c t he hm hc hp het0 hn0 het
    rw [hs]
    unfold stored
    simp only [hget]
    constructor
    · rintro ⟨j, e', h1, h2, h3⟩
      split at h1
      · next hj =>
        cases h1
        subst hj
        exact Or.inr ⟨j, et0, het0, htm, h3⟩
      · split at h1
        · cases h1
          exact Or.inl h3.symm
        · exact Or.inr ⟨j, e', h1, h2, h3⟩
    · rintro (hx | ⟨j, e', h1, h2, h3⟩)
      · exact ⟨c, _, by rw [if_neg htc.symm, if_pos rfl], rfl, hx.symm⟩
      · by_cases hjt : j = t
        · subst hjt
          rw [het0] at h1
          cases h1
          exact ⟨j, { et0 with next := some c }, by rw [if_pos rfl], h2, h3⟩
        · have hjc : j ≠ c := by
            intro hEq
            subst hEq
            exact hcu ⟨e', h1, h2⟩
          exact ⟨j, e', by rw [if_neg hjt, if_neg hjc]; exact h1, h2, h3⟩

/-- Inserting a key that is not stored keeps the stored keys distinct. -/
theorem DistinctKeys.distinct_insert_ (hasher : Key → Nat) (s s' : ADS_set Key) (k : Key) (p : Nat)
    (hI : Inv hasher s) (hD : DistinctKeys s) (hk : ¬ stored s k)
    (h' : ADS.insert_ hasher s k = some (s', p)) : DistinctKeys s' := by
  rcases insert__spec hasher s s' k p h' with
    ⟨e, he, hm, _, hs⟩ | ⟨e, c, t, et0, et, he, hm, hc, hp, het0, hn0, het, _, hs⟩
  · have hlt := lt_of_get he
    have hget := fun i => get_set s.table (⟨k, Mode.used, none⟩ : element Key) i hlt
    rw [hs]
    intro i j ei ej h1 h2 hm1 hm2 hkk
    simp only [hget] at h1 h2
    split at h1
    · next hi =>
      split at h2
      · next hj => rw [hi, hj]
      · cases h1
        exact absurd ⟨j, ej, h2, hm2, hkk.symm⟩ hk
    · split at h2
      · cases h2
        exact absurd ⟨i, ei, h1, hm1, hkk⟩ hk
      · exact hD i j ei ej h1 h2 hm1 hm2 hkk
  · obtain ⟨hget, _, _, _, htm⟩ :=
      insert_chain_get hasher s k e et0 et c t hI he hm hc hp het0 hn0 het
    rw [hs]
    intro i j ei ej h1 h2 hm1 hm2 hkk
    simp only [hget] at h1 h2
    -- the old content of a slot other than `c`
    have old : ∀ (a : Nat) (ea : element Key),
        (if a = t then some { et0 with next := some c }
          else if a = c then some ⟨k, Mode.used, none⟩ else s.table[a]?) = some ea →
        a ≠ c → ∃ ea', s.table[a]? = some ea' ∧ ea'.mode = ea.mode ∧ ea'.key = ea.key := by
      intro a ea ha hac
      by_cases hat : a = t
      · rw [if_pos hat] at ha
        cases ha
        subst hat
        exact ⟨et0, het0, rfl, rfl⟩
      · rw [if_neg hat, if_neg hac] at ha
        exact ⟨ea, ha, rfl, rfl⟩
    have atc : ∀ (ea : element Key),
        (if c = t then some { et0 with next := some c }
          else if c = c then some ⟨k, Mode.used, none⟩ else s.table[c]?) = some ea →
        ea.key = k := by
      intro ea ha
      obtain ⟨htc, _⟩ := hI.inv_insert_chain hasher s k e et0 et c t he hm hc hp het0 hn0 het
      rw [if_neg htc.symm, if_pos rfl] at ha
      cases ha
      rfl
    by_cases hic : i = c
    · by_cases hjc : j = c
      · rw [hic, hjc]
      · subst hic
        obtain ⟨ej', h2', hm2', hk2'⟩ := old j ej h2 hjc
        have := atc ei h1
        exact absurd ⟨j, ej', h2', by rw [hm2']; exact hm2, by rw [hk2', ← hkk, this]⟩ hk
    · by_cases hjc : j = c
      · subst hjc
        obtain ⟨ei', h1', hm1', hk1'⟩ := old i ei h1 hic
        have := atc ej h2
        exact absurd ⟨i, ei', h1', by rw [hm1']; exact hm1, by rw [hk1', hkk, this]⟩ hk
      · obtain ⟨ei', h1', hm1', hk1'⟩ := old i ei h1 hic
        obtain ⟨ej', h2', hm2', hk2'⟩ := old j ej h2 hjc
        exact hD i j ei' ej' h1' h2' (by rw [hm1']; exact hm1) (by rw [hm2']; exact hm2)
          (by rw [hk1', hk2']; exact hkk)

end lookup

section rebuild

variable {Key : Type}

theorem usedKeys_cons (e : element Key) (l : List (element Key)) :
    usedKeys (e :: l) = if e.mode = Mode.used then e.key :: usedKeys l else usedKeys l := by
  unfold usedKeys
  by_cases hm : e.mode = Mode.used
  · simp [List.filter_cons, hm]
  · simp [List.filter_cons, hm]

theorem length_usedKeys (l : List (element Key)) :
    (usedKeys l).length = l.countP (fun e => decide (e.mode = Mode.used)) := by
  unfold usedKeys
  rw [List.length_map, List.countP_eq_length_filter]

theorem mem_usedKeys (l : List (element Key)) (x : Key) :
    x ∈ usedKeys l ↔ ∃ (i : Nat) (e : element Key), l[i]? = some e ∧ e.mode = Mode.used ∧
      e.key = x := by
  unfold usedKeys
  simp only [List.mem_map, List.mem_filter, decide_eq_true_eq]
  constructor
  · rintro ⟨e, ⟨hmem, hm⟩, hk⟩
    obtain ⟨i, hi⟩ := List.mem_iff_getElem?.1 hmem
    exact ⟨i, e, hi, hm, hk⟩
  · rintro ⟨i, e, hi, hm, hk⟩
    exact ⟨e, ⟨List.mem_iff_getElem?.2 ⟨i, hi⟩, hm⟩, hk⟩

theorem nodup_usedKeys (l : List (element Key))
    (hD : ∀ (i j : Nat) (ei ej : element Key), l[i]? = some ei → l[j]? = some ej →
      ei.mode = Mode.used → ej.mode = Mode.used → ei.key = ej.key → i = j) :
    (usedKeys l).Nodup := by
  induction l with
  | nil => simp [usedKeys]
  | cons e rest ih =>
    have hrest : (usedKeys rest).Nodup := by
      apply ih
      intro i j ei ej h1 h2 hm1 hm2 hk
      have := hD (i + 1) (j + 1) ei ej (by simpa using h1) (by simpa using h2) hm1 hm2 hk
      omega
    rw [usedKeys_cons]
    split
    · next hm =>
      rw [List.nodup_cons]
      refine ⟨?_, hrest⟩
      intro hmem
      obtain ⟨i, e', h1, hm1, hk⟩ := (mem_usedKeys rest e.key).1 hmem
      have := hD 0 (i + 1) e e' (by simp) (by simpa using h1) hm hm1 hk.symm
      omega
    · exact hrest

/-- The keys that `rehash` moves are the stored keys, each once. -/
theorem usedKeys_take (hasher : Key → Nat) (s : ADS_set Key) (hI : Inv hasher s) :
    (∀ x, x ∈ usedKeys (s.table.take s.tableWithKeller_size) ↔ stored s x) ∧
    (DistinctKeys s → (usedKeys (s.table.take s.tableWithKeller_size)).Nodup) ∧
    (usedKeys (s.table.take s.tableWithKeller_size)).length = s.curr_size := by
  refine ⟨?_, ?_, ?_⟩
  · intro x
    rw [mem_usedKeys]
    unfold stored
    constructor
    · rintro ⟨i, e, h1, hm, hk⟩
      rw [List.getElem?_take] at h1
      split at h1
      · exact ⟨i, e, h1, hm, hk⟩
      · cases h1
    · rintro ⟨i, e, h1, hm, hk⟩
      refine ⟨i, e, ?_, hm, hk⟩
      rw [List.getElem?_take]
      have hi : i < s.tableWithKeller_size := by
        have h2 := hI.sentinel i e h1
        have h3 := lt_of_get h1
        have h4 := hI.len
        by_contra hcon
        have : i = s.tableWithKeller_size := by omega
        have := h2.2 this
        rw [hm] at this
        cases this
      rw [if_pos hi]
      exact h1
  · intro hD
    apply nodup_usedKeys
    intro i j ei ej h1 h2 hm1 hm2 hk
    rw [List.getElem?_take] at h1 h2
    split at h1
    · split at h2
      · exact hD i j ei ej h1 h2 hm1 hm2 hk
      · cases h2
    · cases h1
  · rw [length_usedKeys]
    exact hI.inv_countP_take hasher s

theorem reinsert_good (hasher : Key → Nat) (l : List (element Key)) :
    ∀ (s : ADS_set Key), Inv hasher s → Findable hasher s → DistinctKeys s →
      (usedKeys l).Nodup → (∀ x, x ∈ usedKeys l → ¬ stored s x) →
      s.curr_size + (usedKeys l).length ≤ s.tableWithKeller_size →
      ∃ s', reinsert hasher l s = some s' ∧ Inv hasher s' ∧ Findable hasher s' ∧
        DistinctKeys s' ∧ ∀ x, stored s' x ↔ (stored s x ∨ x ∈ usedKeys l) := by
  induction l with
  | nil =>
    intro s hI hF hD _ _ _
    exact ⟨s, rfl, hI, hF, hD, fun x => by simp [usedKeys]⟩
  | cons e rest ih =>
    intro s hI hF hD hnd hdisj hroom
    rw [usedKeys_cons] at hnd hdisj hroom ⊢
    unfold reinsert
    by_cases hm : e.mode = Mode.used
    · simp only [if_pos hm] at hnd hdisj hroom ⊢
      rw [List.nodup_cons] at hnd
      simp only [List.length_cons] at hroom
      obtain ⟨s1, p, hins⟩ := insert__total hasher s e.key hI hF (by omega)
      have hI1 := hI.inv_insert_ hasher s s1 e.key p hins
      have hF1 := hF.findable_insert_ hasher s s1 e.key p hI hins
      have hst := stored_insert_ hasher s s1 e.key p hI hins
      have hD1 := hD.distinct_insert_ hasher s s1 e.key p hI (hdisj e.key (List.mem_cons_self _ _)) hins
      obtain ⟨hc1, _, hW1, _⟩ := insert__fields hasher s s1 e.key p hins
      obtain ⟨s', hre, hI', hF', hD', hst'⟩ := ih s1 hI1 hF1 hD1 hnd.2
        (by
          intro x hx hsx
          rcases (hst x).1 hsx with hxe | hsx
          · subst hxe
            exact hnd.1 hx
          · exact hdisj x (List.mem_cons_of_mem _ hx) hsx)
        (by omega)
      refine ⟨s', by simp only [hins]; exact hre, hI', hF', hD', ?_⟩
      intro x
      rw [hst' x, hst x, List.mem_cons]
      tauto
    · simp only [if_neg hm] at hnd hdisj hroom ⊢
      exact ih s hI hF hD hnd hdisj hroom

theorem Findable.findable_new_table [Inhabited Key] (hasher : Key → Nat) (T W : Nat) :
    Findable hasher ({ table := ADS.new_table W, last_free := W - 1, table_size := T,
                       curr_size := 0, tableWithKeller_size := W } : ADS_set Key) := by
  have hn : ∀ i, nxt (ADS.new_table W : List (element Key)) i = none := by
    intro i
    cases hx : nxt (ADS.new_table W : List (element Key)) i with
    | none => rfl
    | some j =>
      obtain ⟨e, he, hnx⟩ := nxt_some hx
      simp only [getElem?_new_table] at he
      split at he
      · cases he
        cases hnx
      · split at he
        · cases he
          cases hnx
        · cases he
  constructor
  · intro i
    exact ⟨0, Ends.last (hn i)⟩
  · intro i h1 h2
    simp only at h1 h2
    omega
  · intro j e he hm
    simp only [getElem?_new_table] at he
    split at he
    · cases he
      cases hm
    · split at he
      · cases he
        cases hm
      · cases he

theorem not_stored_new_table [Inhabited Key] (T W lf : Nat) (x : Key) :
    ¬ stored ({ table := new_table W, last_free := lf, table_size := T,
                curr_size := 0, tableWithKeller_size := W } : ADS_set Key) x := by
  rintro ⟨j, e, he, hm, _⟩
  simp only [getElem?_new_table] at he
  split at he
  · cases he
    cases hm
  · split at he
    · cases he
      cases hm
    · cases he

/-- On an insert-only set `rehash` returns, and keeps the stored keys. -/
theorem rehash_good [Inhabited Key] (hasher : Key → Nat) (s : ADS_set Key) (n : Nat)
    (hI : Inv hasher s) (hD : DistinctKeys s) :
    ∃ s', rehash hasher s n = some s' ∧ Inv hasher s' ∧ Findable hasher s' ∧ DistinctKeys s' ∧
      ∀ x, stored s' x ↔ stored s x := by
  obtain ⟨hmem, hnd, hlen⟩ := usedKeys_take hasher s hI
  have hN := N_pos
  have hk := le_kellerOf_add (max N (max n (minTableFor s.curr_size)))
  have hmin := le_minTableFor s.curr_size
  obtain ⟨s', hre, hI', hF', hD', hst⟩ := reinsert_good hasher
    (s.table.take s.tableWithKeller_size)
    ({ table := new_table (max N (max n (minTableFor s.curr_size)) +
          kellerOf (max N (max n (minTableFor s.curr_size)))),
       last_free := max N (max n (minTableFor s.curr_size)) +
          kellerOf (max N (max n (minTableFor s.curr_size))) - 1,
       table_size := max N (max n (minTableFor s.curr_size)),
       curr_size := 0,
       tableWithKeller_size := max N (max n (minTableFor s.curr_size)) +
          kellerOf (max N (max n (minTableFor s.curr_size))) } : ADS_set Key)
    (Inv.inv_new_table hasher _ _ _ (by omega) hk (by omega))
    (Findable.findable_new_table hasher _ _)
    (by
      intro i j ei ej h1 _ hm1 _ _
      exact absurd ⟨i, ei, h1, hm1, rfl⟩ (not_stored_new_table _ _ _ ei.key))
    (hnd hD)
    (fun x _ => not_stored_new_table _ _ _ x)
    (by
      rw [hlen]
      simp only
      omega)
  refine ⟨s', hre, hI', hF', hD', ?_⟩
  intro x
  rw [hst x, hmem x]
  constructor
  · rintro (h1 | h1)
    · exact absurd h1 (not_stored_new_table _ _ _ x)
    · exact h1
  · exact Or.inr

theorem grow_loop_total (n : Nat) :
    ∀ (f c : Nat), 0 < f → 2 * n ≤ 2 ^ f * (c + 1) - 1 → ∃ c', grow_loop n f c = some c' := by
  intro f
  induction f with
  | zero => intro c hf; omega
  | succ f ih =>
    intro c _ hb
    unfold grow_loop
    simp only
    split
    · next hov =>
      have hpow : 2 ^ (f + 1) * (c + 1) = 2 ^ f * (c * 2 + 1 + 1) := by ring
      rw [hpow] at hb
      rcases Nat.eq_zero_or_pos f with hf0 | hfpos
      · subst hf0
        simp only [pow_zero, one_mul] at hb
        rw [not_overLoad_of_le n (c * 2 + 1) (by omega)] at hov
        cases hov
      · exact ih (c * 2 + 1) hfpos hb
    · exact ⟨_, rfl⟩

theorem grow_loop_reserve (n c : Nat) : ∃ c', grow_loop n (n + 2) c = some c' := by
  apply grow_loop_total n (n + 2) c (by omega)
  have h1 : n < 2 ^ n := Nat.lt_two_pow n
  have h2 : 2 ^ (n + 2) = 4 * 2 ^ n := by ring
  have h3 : 4 * 2 ^ n ≤ 4 * 2 ^ n * (c + 1) := Nat.le_mul_of_pos_right _ (by omega)
  rw [h2]
  omega

/-- On an insert-only set `reserve` returns, and keeps the stored keys. -/
theorem reserve_good [Inhabited Key] (hasher : Key → Nat) (s : ADS_set Key) (n : Nat)
    (hI : Inv hasher s) (hF : Findable hasher s) (hD : DistinctKeys s) :
    ∃ s', reserve hasher s n = some s' ∧ Inv hasher s' ∧ Findable hasher s' ∧ DistinctKeys s' ∧
      ∀ x, stored s' x ↔ stored s x := by
  unfold reserve
  split
  · obtain ⟨c, hc⟩ := grow_loop_reserve n s.table_size
    simp only [hc]
    exact rehash_good hasher s c hI hD
  · exact ⟨s, rfl, hI, hF, hD, fun _ => Iff.rfl⟩

end rebuild

section build

variable {Key : Type}

theorem ctor_eq [Inhabited Key] (hasher : Key → Nat) :
    ctor hasher = some ({ table := new_table 8, last_free := 7, table_size := 7, curr_size := 0,
                          tableWithKeller_size := 8 } : ADS_set Key) := by
  simp [ctor, rehash, reinsert, N, minTableFor_zero, kellerOf]

/-- On an insert-only set `insert` returns, and adds its key to the stored keys. -/
theorem insert_good [DecidableEq Key] [Inhabited Key] (hasher : Key → Nat) (s : ADS_set Key) (k : Key)
    (hI : Inv hasher s) (hF : Findable hasher s) (hD : DistinctKeys s) :
    ∃ s' p b, insert hasher s k = some (s', p, b) ∧ Inv hasher s' ∧ Findable hasher s' ∧
      DistinctKeys s' ∧ ∀ x, stored s' x ↔ (x = k ∨ stored s x) := by
  obtain ⟨r, hr⟩ := find__total hasher s k hI hF
  unfold insert
  simp only [hr]
  cases r with
  | some p =>
    have hst := (find__iff_stored hasher s k hI hF).1 ⟨p, hr⟩
    refine ⟨s, p, false, rfl, hI, hF, hD, ?_⟩
    intro x
    constructor
    · exact Or.inr
    · rintro (hx | hx)
      · rw [hx]
        exact hst
      · exact hx
  | none =>
    have hnst := (find__none_iff hasher s k hI hF).1 hr
    obtain ⟨s1, hres, hI1, hF1, hD1, hst1⟩ := reserve_good hasher s (s.curr_size + 1) hI hF hD
    obtain ⟨hload, hc1, _⟩ := reserve_spec hasher s s1 _ hI hres
    have hts := hI1.ts_le
    obtain ⟨s2, p, hins⟩ := insert__total hasher s1 k hI1 hF1 (by omega)
    simp only [hres, hins]
    refine ⟨s2, p, true, rfl, hI1.inv_insert_ hasher s1 s2 k p hins,
      hF1.findable_insert_ hasher s1 s2 k p hI1 hins,
      hD1.distinct_insert_ hasher s1 s2 k p hI1 (fun hc => hnst ((hst1 k).1 hc)) hins, ?_⟩
    intro x
    rw [stored_insert_ hasher s1 s2 k p hI1 hins x, hst1 x]

/-- The range insert is the sequence of the single inserts. -/
theorem insert_range_eq_run [DecidableEq Key] [Inhabited Key] (hasher : Key → Nat) (ks : List Key) :
    ∀ (s : ADS_set Key), insert_range hasher s ks = run hasher s (ks.map Op.ins) := by
  induction ks with
  | nil => intro s; rfl
  | cons k rest ih =>
    intro s
    unfold insert_range
    simp only [List.map_cons]
    unfold run
    simp only [step]
    unfold insert count
    cases hf : find_ hasher s k with
    | none => rfl
    | some r =>
      cases r with
      | some p =>
        simp only [Option.map_some', Option.isSome_some, if_true, one_ne_zero, if_false]
        exact ih s
      | none =>
        simp only [Option.map_some', Option.isSome_none, Bool.false_eq_true, if_false, if_true]
        cases hres : reserve hasher s (s.curr_size + 1) with
        | none => rfl
        | some s1 =>
          simp only
          cases hins : insert_ hasher s1 k with
          | none => rfl
          | some r2 =>
            obtain ⟨s2, p⟩ := r2
            simp only [Option.map_some']
            exact ih s2

theorem run_inserts_good [DecidableEq Key] [Inhabited Key] (hasher : Key → Nat) (ks : List Key) :
    ∀ (s : ADS_set Key), Inv hasher s → Findable hasher s → DistinctKeys s →
      ∃ s', run hasher s (ks.map Op.ins) = some s' ∧ Inv hasher s' ∧ Findable hasher s' ∧
        DistinctKeys s' ∧ ∀ x, stored s' x ↔ (stored s x ∨ x ∈ ks) := by
  induction ks with
  | nil =>
    intro s hI hF hD
    exact ⟨s, rfl, hI, hF, hD, fun x => by simp⟩
  | cons k rest ih =>
    intro s hI hF hD
    obtain ⟨s1, p, b, hins, hI1, hF1, hD1, hst1⟩ := insert_good hasher s k hI hF hD
    obtain ⟨s', hrun, hI', hF', hD', hst'⟩ := ih s1 hI1 hF1 hD1
    refine ⟨s', ?_, hI', hF', hD', ?_⟩
    · simp only [List.map_cons]
      unfold run
      simp only [step, hins, Option.map_some']
      exact hrun
    · intro x
      rw [hst' x, hst1 x, List.mem_cons]
      tauto

/-- The set built by inserting the keys of `ks` into a default-constructed set. -/
theorem build_good [DecidableEq Key] [Inhabited Key] (hasher : Key → Nat) (ks : List Key) :
    ∃ s : ADS_set Key, run_fresh hasher (ks.map Op.ins) = some s ∧ Inv hasher s ∧
      Findable hasher s ∧ DistinctKeys s ∧ ∀ x, stored s x ↔ x ∈ ks := by
  obtain ⟨s, hrun, hI, hF, hD, hst⟩ := run_inserts_good hasher ks
    ({ table := new_table 8, last_free := 7, table_size := 7, curr_size := 0,
       tableWithKeller_size := 8 } : ADS_set Key)
    (Inv.inv_new_table hasher 7 8 7 (by omega) (by omega) (by omega))
    (Findable.findable_new_table hasher 7 8)
    (by
      intro i j ei ej h1 _ hm1 _ _
      exact absurd ⟨i, ei, h1, hm1, rfl⟩ (not_stored_new_table _ _ _ ei.key))
  refine ⟨s, ?_, hI, hF, hD, ?_⟩
  · unfold run_fresh
    rw [ctor_eq]
    exact hrun
  · intro x
    rw [hst x]
    constructor
    · rintro (h1 | h1)
      · exact absurd h1 (not_stored_new_table _ _ _ x)
      · exact h1
    · exact Or.inr

/-- The size of an insert-only set whose stored keys are those of `ks`. -/
theorem size_good [DecidableEq Key] (hasher : Key → Nat) (s : ADS_set Key) (ks : List Key)
    (hI : Inv hasher s) (hD : DistinctKeys s) (hst : ∀ x, stored s x ↔ x ∈ ks) :
    List.Perm (usedKeys (s.table.take s.tableWithKeller_size)) ks.dedup ∧
      size s = ks.dedup.length := by
  obtain ⟨hmem, hnd, hlen⟩ := usedKeys_take hasher s hI
  have hperm : List.Perm (usedKeys (s.table.take s.tableWithKeller_size)) ks.dedup := by
    rw [List.perm_ext_iff_of_nodup (hnd hD) (List.nodup_dedup ks)]
    intro x
    rw [hmem x, hst x, List.mem_dedup]
  refine ⟨hperm, ?_⟩
  unfold size
  rw [← hlen]
  exact hperm.length_eq

/-- C5: for every hash function and every list of keys (duplicates allowed),
inserting the keys in order into a default-constructed set, one by one or with
the range insert, returns a set in which `count` is `1` for every listed key and
`size()` is the number of distinct keys of the list. -/
theorem insert_all [DecidableEq Key] [Inhabited Key] (hasher : Key → Nat) (ks : List Key) :
    ∃ s : ADS_set Key, run_fresh hasher (ks.map Op.ins) = some s ∧
      (ctor hasher).bind (fun s0 => insert_range hasher s0 ks) = some s ∧
      (∀ k, k ∈ ks → count hasher s k = some 1) ∧ size s = ks.dedup.length := by
  obtain ⟨s, hrun, hI, hF, hD, hst⟩ := build_good hasher ks
  refine ⟨s, hrun, ?_, ?_, (size_good hasher s ks hI hD hst).2⟩
  · unfold run_fresh at hrun
    rw [ctor_eq] at hrun ⊢
    simp only [Option.some_bind]
    rw [insert_range_eq_run]
    exact hrun
  · intro k hk
    exact count_of_stored hasher s k hI hF ((hst k).2 hk)

end build

/-! ## Iteration and equality -/

section iteration

variable {Key : Type}

theorem drop_of_get {l : List (element Key)} {i : Nat} {e : element Key} (h : l[i]? = some e) :
    l.drop i = e :: l.drop (i + 1) := by
  obtain ⟨hlt, he⟩ := List.getElem?_eq_some.1 h
  rw [List.drop_eq_getElem_cons hlt, he]

theorem skip_spec (hasher : Key → Nat) (s : ADS_set Key) (hI : Inv hasher s) :
    ∀ (f pos : Nat), pos ≤ s.tableWithKeller_size → s.tableWithKeller_size - pos < f →
      ∃ pos', skip s.table f pos = some pos' ∧ pos ≤ pos' ∧ pos' ≤ s.tableWithKeller_size ∧
        (pos' = s.tableWithKeller_size ∨ usedAt s.table pos') ∧
        usedKeys ((s.table.take s.tableWithKeller_size).drop pos) =
          usedKeys ((s.table.take s.tableWithKeller_size).drop pos') := by
  intro f
  induction f with
  | zero => intro pos _ h2; omega
  | succ f ih =>
    intro pos h1 h2
    have hlen := hI.len
    have hlt : pos < s.table.length := by omega
    have hget := List.getElem?_eq_getElem hlt
    unfold skip
    simp only [hget]
    split
    · next hc =>
      have hpW : pos ≠ s.tableWithKeller_size := by
        intro hEq
        exact hc.2 ((hI.sentinel pos _ hget).2 hEq)
      obtain ⟨pos', hs, ha, hb, hcase, hkeys⟩ := ih (pos + 1) (by omega) (by omega)
      refine ⟨pos', hs, by omega, hb, hcase, ?_⟩
      rw [← hkeys]
      have hg : (s.table.take s.tableWithKeller_size)[pos]? = some s.table[pos] := by
        rw [List.getElem?_take, if_pos (by omega), hget]
      rw [drop_of_get hg, usedKeys_cons, if_neg hc.1]
    · next hc =>
      refine ⟨pos, rfl, le_refl _, h1, ?_, rfl⟩
      by_cases hu : s.table[pos].mode = Mode.used
      · exact Or.inr ⟨_, hget, hu⟩
      · left
        have : s.table[pos].mode = Mode.end_ := by
          by_contra hne
          exact hc ⟨hu, hne⟩
        exact (hI.sentinel pos _ hget).1 this

theorem iterate_spec (hasher : Key → Nat) (s : ADS_set Key) (hI : Inv hasher s) :
    ∀ (f pos : Nat), pos ≤ s.tableWithKeller_size → s.tableWithKeller_size - pos < f →
      (pos = s.tableWithKeller_size ∨ usedAt s.table pos) →
      iterate s f pos = some (usedKeys ((s.table.take s.tableWithKeller_size).drop pos)) := by
  intro f
  induction f with
  | zero => intro pos _ h2; omega
  | succ f ih =>
    intro pos h1 h2 h3
    have hlen := hI.len
    unfold iterate
    by_cases hp : pos = s.tableWithKeller_size
    · have hnil : (s.table.take s.tableWithKeller_size).drop pos = [] := by
        apply List.drop_eq_nil_of_le
        rw [List.length_take]
        omega
      simp [end_, hp, hnil, usedKeys]
      rw [hp] at hnil
      simp [hnil]
    · have hu : usedAt s.table pos := by
        rcases h3 with h3 | h3
        · exact absurd h3 hp
        · exact h3
      obtain ⟨e, he, hm⟩ := hu
      simp only [end_, hp, if_false, he]
      obtain ⟨pos', hs, ha, hb, hcase, hkeys⟩ :=
        skip_spec hasher s hI (s.table.length + 1) (pos + 1) (by omega) (by omega)
      simp only [hs]
      rw [ih pos' hb (by omega) hcase]
      simp only [Option.map_some', Option.some.injEq]
      have hg : (s.table.take s.tableWithKeller_size)[pos]? = some e := by
        rw [List.getElem?_take, if_pos (by omega), he]
      rw [drop_of_get hg, usedKeys_cons, if_pos hm, hkeys]

/-- A range-for over the set yields the keys of the `used` slots, in slot order. -/
theorem keys_eq (hasher : Key → Nat) (s : ADS_set Key) (hI : Inv hasher s) :
    keys s = some (usedKeys (s.table.take s.tableWithKeller_size)) := by
  have hlen := hI.len
  obtain ⟨pos', hs, _, hb, hcase, hkeys⟩ :=
    skip_spec hasher s hI (s.table.length + 1) 0 (by omega) (by omega)
  unfold keys begin_
  simp only [hs]
  rw [iterate_spec hasher s hI _ pos' hb (by omega) hcase, ← hkeys]
  rfl

end iteration

section equality

variable {Key : Type}

theorem all_counted_true [DecidableEq Key] (hasher : Key → Nat) (lhs : ADS_set Key)
    (hI : Inv hasher lhs) (hF : Findable hasher lhs) :
    ∀ (ks : List Key), (∀ k, k ∈ ks → stored lhs k) → all_counted hasher lhs ks = some true := by
  intro ks
  induction ks with
  | nil => intro _; rfl
  | cons k rest ih =>
    intro hall
    unfold all_counted
    rw [count_of_stored hasher lhs k hI hF (hall k (List.mem_cons_self _ _))]
    simp only [one_ne_zero, if_false]
    exact ih (fun x hx => hall x (List.mem_cons_of_mem _ hx))

theorem all_counted_false [DecidableEq Key] (hasher : Key → Nat) (lhs : ADS_set Key)
    (hI : Inv hasher lhs) (hF : Findable hasher lhs) :
    ∀ (ks : List Key), (∃ k, k ∈ ks ∧ ¬ stored lhs k) → all_counted hasher lhs ks = some false := by
  intro ks
  induction ks with
  | nil => rintro ⟨k, hk, _⟩; cases hk
  | cons k rest ih =>
    rintro ⟨x, hx, hnx⟩
    unfold all_counted
    by_cases hst : stored lhs k
    · rw [count_of_stored hasher lhs k hI hF hst]
      simp only [one_ne_zero, if_false]
      rcases List.mem_cons.1 hx with hxk | hxr
      · subst hxk
        exact absurd hst hnx
      · exact ih ⟨x, hxr, hnx⟩
    · rw [count_of_not_stored hasher lhs k hI hF hst]
      simp

/-- C10: for every hash function and any two lists of keys, the sets built by
inserting each list in order into a default-constructed set exist, and
`operator==` on them returns `true` exactly when the two lists have the same set
of keys. -/
theorem eq_iff_same_keys [DecidableEq Key] [Inhabited Key] (hasher : Key → Nat) (l1 l2 : List Key) :
    ∃ a b : ADS_set Key, run_fresh hasher (l1.map Op.ins) = some a ∧
      run_fresh hasher (l2.map Op.ins) = some b ∧
      eq hasher a b = some (decide (l1.toFinset = l2.toFinset)) := by
  obtain ⟨a, hrunA, hIA, hFA, hDA, hstA⟩ := build_good hasher l1
  obtain ⟨b, hrunB, hIB, hFB, hDB, hstB⟩ := build_good hasher l2
  refine ⟨a, b, hrunA, hrunB, ?_⟩
  obtain ⟨_, hsizeA⟩ := size_good hasher a l1 hIA hDA hstA
  obtain ⟨hpermB, hsizeB⟩ := size_good hasher b l2 hIB hDB hstB
  have hmemB : ∀ k, k ∈ usedKeys (b.table.take b.tableWithKeller_size) ↔ k ∈ l2 := by
    intro k
    rw [hpermB.mem_iff, List.mem_dedup]
  unfold size at hsizeA hsizeB
  unfold eq
  rw [keys_eq hasher b hIB]
  by_cases hset : l1.toFinset = l2.toFinset
  · have hcard : l1.dedup.length = l2.dedup.length := by
      rw [← List.card_toFinset, ← List.card_toFinset, hset]
    have hsz : ¬ a.curr_size ≠ b.curr_size := by
      rw [hsizeA, hsizeB, hcard]
      simp
    simp only [hsz, if_false, hset, decide_True]
    apply all_counted_true hasher a hIA hFA
    intro k hk
    rw [hstA k]
    have : k ∈ l2.toFinset := List.mem_toFinset.2 ((hmemB k).1 hk)
    rw [← hset] at this
    exact List.mem_toFinset.1 this
  · simp only [hset, decide_False]
    by_cases hsz : a.curr_size ≠ b.curr_size
    · rw [if_pos hsz]
    · rw [if_neg hsz]
      apply all_counted_false hasher a hIA hFA
      by_contra hcon
      simp only [not_exists, not_and, not_not] at hcon
      apply hset
      have hsub : l2.toFinset ⊆ l1.toFinset := by
        intro k hk
        rw [List.mem_toFinset] at hk ⊢
        exact (hstA k).1 (hcon k ((hmemB k).2 hk))
      have hcard : l1.toFinset.card ≤ l2.toFinset.card := by
        rw [List.card_toFinset, List.card_toFinset, ← hsizeA, ← hsizeB]
        have : a.curr_size = b.curr_size := by
          by_contra hne
          exact hsz hne
        omega
      exact (Finset.eq_of_subset_of_card_le hsub hcard).symm

end equality

/-! ## Concrete call sequences

`std::hash` on unsigned integers is the identity, so the sets below are
`ADS_set<size_t>` objects.  After the first insert the table has 15 home slots
(`0 .. 14`) and the cellar slots `15` and `16`. -/

section concrete

/-- C1 fails on the code: after `lost_ops` the most recent call about key `14` is
an insert, yet `count(14)` is `0` and `find(14)` is `end()`.  Key `60` overflowed
into home slot `14`, key `14` was chained behind it, and `erase(60)` freed slot
`14` while key `14` stayed in the chain of slot `0`. -/
theorem lost_key_not_found :
    run_fresh id lost_ops = some lost_set ∧ inserted_last 14 lost_ops = true ∧
      count id lost_set 14 = some 0 ∧ find id lost_set 14 = some (end_ lost_set) ∧
      keys lost_set = some [0, 14, 30, 45] := by
  decide

/-- C2 fails on the code: after `merged_ops` followed by `erase(14)` the most
recent call about key `14` is an erase, yet `count(14)` is `1`: the rehash
reinserted both stored copies of `14` and the erase removed one of them. -/
theorem erased_key_found :
    run_fresh id (merged_ops ++ [Op.del 14]) = some merged_set_erased ∧
      inserted_last 14 (merged_ops ++ [Op.del 14]) = false ∧
      count id merged_set_erased 14 = some 1 := by
  decide

/-- C3 fails on the code: after `twice_ops` four distinct keys have an insert as
their most recent call, and `size()` is `5`. -/
theorem size_counts_twice :
    run_fresh id twice_ops = some twice_set ∧ live_count twice_ops = 4 ∧ size twice_set = 5 := by
  decide

/-- C7 fails on the code: on the set built by `merged_ops`, `erase(14)` returns
`1` and an immediately following `erase(14)` returns `1` again. -/
theorem erase_twice_returns_one :
    run_fresh id merged_ops = some merged_set ∧
      erase id merged_set 14 = some (merged_set_erased, 1) ∧
      (erase id merged_set_erased 14).map (fun r => r.2) = some 1 := by
  decide

/-- C8 fails on the code: iterating the set built by `twice_ops` yields key `14`
twice, and iterating the set built by `lost_ops` yields key `14` although
`count(14)` is `0`. -/
theorem iteration_repeats_key :
    run_fresh id twice_ops = some twice_set ∧ keys twice_set = some [0, 14, 14, 30, 45] ∧
      run_fresh id lost_ops = some lost_set ∧ keys lost_set = some [0, 14, 30, 45] ∧
      count id lost_set 14 = some 0 := by
  decide

theorem erase_result_witness :
    run_fresh id demo_ops = some demo_set ∧ count id demo_set 5 = some 0 ∧
      erase id demo_set 5 = some (demo_set, 0) :=
  ⟨by decide, by decide, (erase_result id demo_ops demo_set 5 (by decide)).2.1 (by decide)⟩

theorem insert_twice_witness :
    run_fresh id demo_ops = some demo_set ∧ insert id demo_set 7 = some (demo_set7, 7, true) ∧
      count id demo_set7 7 = some 1 :=
  ⟨by decide, by decide,
    (insert_twice id demo_ops demo_set demo_set7 7 7 true (by decide) (by decide)).1⟩

theorem size_le_table_size_witness :
    run_fresh id demo_ops = some demo_set ∧ insert id demo_set 7 = some (demo_set7, 7, true) ∧
      size demo_set7 ≤ demo_set7.table_size :=
  ⟨by decide, by decide,
    ((size_le_table_size id demo_ops demo_set (by decide)).1 7 demo_set7 7
      (by decide)).1⟩

end concrete

/-! ## `clear` and the slot count -/

section clear_count

variable {Key : Type}

theorem clear_eq_ctor [DecidableEq Key] [Inhabited Key] (hasher : Key → Nat) (s : ADS_set Key) :
    clear hasher s = ctor hasher := by
  unfold clear swap
  cases ctor hasher with
  | none => rfl
  | some tmp => rfl

/-- C12: for every set state `clear()` returns the state of a default-constructed
set: `size()` is `0`, `empty()` is true, `table_size` is `N`, every slot before
the sentinel is `free`, the sentinel is the last slot, and `count(k)` is `0` for
every key. -/
theorem clear_resets [DecidableEq Key] [Inhabited Key] (hasher : Key → Nat) (s : ADS_set Key) :
    ∃ s', clear hasher s = some s' ∧ ctor hasher = some s' ∧ size s' = 0 ∧ empty s' = true ∧
      s'.table_size = N ∧ s'.table.length = s'.tableWithKeller_size + 1 ∧
      (∀ i, i < s'.tableWithKeller_size →
        s'.table[i]? = some { key := default, mode := Mode.free, next := none }) ∧
      s'.table[s'.tableWithKeller_size]? =
        some { key := default, mode := Mode.end_, next := none } ∧
      ∀ k, count hasher s' k = some 0 := by
  refine ⟨_, (clear_eq_ctor hasher s).trans (ctor_eq hasher), ctor_eq hasher, rfl, rfl, rfl,
    by simp [new_table], ?_, ?_, ?_⟩
  · intro i hi
    simp only at hi
    simp only [getElem?_new_table, hi, if_true]
    rfl
  · simp only [getElem?_new_table]
    simp
  · intro k
    rw [count_eq_zero]
    unfold find_ h
    simp only
    have hlt : hasher k % 7 < 7 := Nat.mod_lt _ (by omega)
    have hlen : (new_table 8 : List (element Key)).length = 9 := by simp [new_table]
    rw [hlen]
    unfold find_loop
    simp only [getElem?_new_table]
    rw [if_pos (by omega)]
    rfl

theorem Inv.inv_clear [DecidableEq Key] [Inhabited Key] (hasher : Key → Nat) (s s' : ADS_set Key)
    (h' : clear hasher s = some s') : Inv hasher s' := by
  rw [clear_eq_ctor] at h'
  exact Inv.inv_ctor hasher s' h'

theorem Inv.inv_step_call [DecidableEq Key] [Inhabited Key] (hasher : Key → Nat)
    (s s' : ADS_set Key) (c : Call Key) (hI : Inv hasher s)
    (h' : step_call hasher s c = some s') : Inv hasher s' := by
  cases c with
  | op o => exact hI.inv_step hasher s s' o h'
  | clr => exact Inv.inv_clear hasher s s' h'

theorem Inv.inv_run_calls [DecidableEq Key] [Inhabited Key] (hasher : Key → Nat)
    (cs : List (Call Key)) :
    ∀ (s s' : ADS_set Key), Inv hasher s → run_calls hasher s cs = some s' → Inv hasher s' := by
  induction cs with
  | nil =>
    intro s s' hI h'
    simp only [run_calls, Option.some.injEq] at h'
    rw [← h']
    exact hI
  | cons c rest ih =>
    intro s s' hI h'
    unfold run_calls at h'
    split at h'
    · cases h'
    · next s1 hs1 => exact ih s1 s' (hI.inv_step_call hasher s s1 c hs1) h'

/-- C16: in every state reached from a default-constructed set by `insert`,
`erase` and `clear` calls, `size()` is the number of slots whose mode is `used`. -/
theorem size_counts_used [DecidableEq Key] [Inhabited Key] (hasher : Key → Nat)
    (cs : List (Call Key)) (s : ADS_set Key) (hs : run_calls_fresh hasher cs = some s) :
    size s = s.table.countP (fun e => decide (e.mode = Mode.used)) := by
  unfold run_calls_fresh at hs
  split at hs
  · cases hs
  · next s0 hs0 =>
    exact (Inv.inv_run_calls hasher cs s0 s (Inv.inv_ctor hasher s0 hs0) hs).cnt

theorem size_counts_used_witness :
    run_calls_fresh id demo_calls = some demo_calls_set ∧
      size demo_calls_set = demo_calls_set.table.countP (fun e => decide (e.mode = Mode.used)) :=
  ⟨by decide, size_counts_used id demo_calls demo_calls_set (by decide)⟩

end clear_count

/-! ## Overflow, growth and the free-slot cursor on concrete calls -/

section concrete_cursor

/-- C13 fails on the code: after `overflow_ops` home slot `14` of a table with
`table_size == 15` holds key `60`, whose hash is `0` modulo `15`; both cellar slots
were `used` when `insert(60)` scanned for a free slot.  Insertions alone do the
same through `rehash`: after `spread_ops` home slot `30` of a table with
`table_size == 31` holds key `186`, whose hash is `0` modulo `31`. -/
theorem overflow_into_home_slot :
    run_fresh id overflow_ops = some overflow_set ∧ overflow_set.table_size = 15 ∧
      overflow_set.table[14]? = some { key := 60, mode := Mode.used, next := none } ∧
      h id overflow_set 60 = 0 ∧
      run_fresh id spread_ops = some spread_set ∧ spread_set.table_size = 31 ∧
      spread_set.table[30]? = some { key := 186, mode := Mode.used, next := some 29 } ∧
      h id spread_set 186 = 0 := by
  decide

/-- C14 fails on the code: in the set built by `full_cellar_ops` the cellar slots
`15` and `16` are both `used`, and `insert(60)` adds its key without a rehash:
`table_size` stays `15` and the key goes to home slot `14`. -/
theorem full_cellar_no_growth :
    run_fresh id full_cellar_ops = some full_cellar_set ∧
      full_cellar_set.table_size = 15 ∧ full_cellar_set.tableWithKeller_size = 17 ∧
      (full_cellar_set.table[15]?).map (fun e => e.mode) = some Mode.used ∧
      (full_cellar_set.table[16]?).map (fun e => e.mode) = some Mode.used ∧
      insert id full_cellar_set 60 = some (overflow_set, 14, true) ∧
      overflow_set.table_size = 15 := by
  decide

/-- C18 fails on the code: in the set built by `cursor_ops` the cursor is `15`;
`erase(15)` does not rehash and leaves the cursor at `16`. -/
theorem cursor_rises_on_erase :
    run_fresh id cursor_ops = some cursor_set ∧ cursor_set.last_free = 15 ∧
      erase id cursor_set 15 = some (cursor_set_erased, 1) ∧
      cursor_set_erased.table_size = cursor_set.table_size ∧
      cursor_set_erased.last_free = 16 := by
  decide

/-- C19 fails on the code: in the set built by `wrap_ops` the cursor is `4` and the
slots `0 .. 4` are `used`; `insert(90)` does not grow the table, its scan passes
slot `0` and reads outside the array. -/
theorem scan_leaves_array :
    run_fresh id wrap_ops = some wrap_set ∧ wrap_set.last_free = 4 ∧
      find_ id wrap_set 90 = some none ∧
      reserve id wrap_set (size wrap_set + 1) = some wrap_set ∧
      (wrap_set.table[h id wrap_set 90]?).map (fun e => e.mode) = some Mode.used ∧
      scan_free wrap_set.table wrap_set.last_free = none ∧
      insert_ id wrap_set 90 = none ∧ insert id wrap_set 90 = none := by
  decide

/-- C20 fails on the code: the set built by `lost_ops` is not equal to itself, and
comparing it with the set built by `plain_ops` gives `false` one way and `true`
the other way. -/
theorem eq_not_reflexive :
    run_fresh id lost_ops = some lost_set ∧ eq id lost_set lost_set = some false ∧
      run_fresh id plain_ops = some plain_set ∧
      eq id lost_set plain_set = some false ∧ eq id plain_set lost_set = some true := by
  decide

end concrete_cursor

section cursor

variable {Key : Type}

/-- An `insert` that adds a key while the load test or the cursor test of
`reserve` holds grows the table before the key is written. -/
theorem insert_grows [DecidableEq Key] [Inhabited Key] (hasher : Key → Nat)
    (s s' : ADS_set Key) (k : Key) (p : Nat) (hI : Inv hasher s)
    (h' : insert hasher s k = some (s', p, true))
    (hc : overLoad (s.curr_size + 1) s.table_size = true ∨ s.last_free = s.table_size) :
    s.table_size < s'.table_size := by
  unfold insert at h'
  split at h'
  · cases h'
  · simp at h'
  · split at h'
    · cases h'
    · next s1 hs1 =>
      split at h'
      · cases h'
      · next s2 p2 hs2 =>
        simp only [Option.some.injEq, Prod.mk.injEq, and_true] at h'
        obtain ⟨h1, _⟩ := h'
        subst h1
        obtain ⟨_, hts, _, _⟩ := insert__fields hasher s1 s2 k p2 hs2
        rw [hts]
        unfold reserve at hs1
        split at hs1
        · split at hs1
          · cases hs1
          · next c hc' =>
            obtain ⟨_, hlt⟩ := grow_loop_spec _ _ _ c hc'
            obtain ⟨_, h2⟩ := rehash_fields hasher s s1 c hI hs1
            rw [h2]
            omega
        · next hn =>
          exact absurd hc hn

/-- Where `erase` leaves the cursor: unchanged when the key is absent or alone in
its home slot, on the top cellar slot otherwise. -/
theorem erase_cursor [DecidableEq Key] (hasher : Key → Nat) (s s' : ADS_set Key) (k : Key)
    (r : Nat) (e : element Key) (hE : erase hasher s k = some (s', r))
    (he : s.table[h hasher s k]? = some e) :
    (r = 0 → s'.last_free = s.last_free) ∧
    (r = 1 → (e.next = none ∧ e.key = k) → s'.last_free = s.last_free) ∧
    (r = 1 → ¬ (e.next = none ∧ e.key = k) → s'.last_free = s.tableWithKeller_size - 1) := by
  unfold erase at hE
  simp only [he] at hE
  split at hE
  · cases hE
  · cases hE
    exact ⟨fun _ => rfl, fun h0 => absurd h0 (by decide), fun h0 => absurd h0 (by decide)⟩
  · by_cases hc : e.next = none ∧ e.key = k
    · rw [if_pos hc] at hE
      split at hE
      · cases hE
      · cases hE
        exact ⟨fun _ => rfl, fun _ _ => rfl, fun _ h1 => absurd hc h1⟩
    · rw [if_neg hc] at hE
      refine ⟨?_, fun _ h1 => absurd h1 hc, fun _ _ => ?_⟩
      · intro hr
        subst hr
        repeat' split at hE
        all_goals cases hE
      · repeat' split at hE
        all_goals (cases hE <;> rfl)

/-- C18 as amended: on every set built from a default-constructed set by `insert`
and `erase` calls, the cursor is at most `tableWithKeller_size - 1`; an `insert`
that does not rehash (it leaves `table_size` unchanged) does not increase
`last_free`; an `erase` never rehashes, leaves `last_free` unchanged when it
returns `0` or when the key sits in its home slot with `next == -1`, and
otherwise sets it to `tableWithKeller_size - 1`, the top cellar slot. -/
theorem cursor_moves [DecidableEq Key] [Inhabited Key] (hasher : Key → Nat)
    (ops : List (Op Key)) (s : ADS_set Key) (hs : run_fresh hasher ops = some s) :
    s.last_free ≤ s.tableWithKeller_size - 1 ∧
    (∀ (k : Key) (s' : ADS_set Key) (r : Nat × Bool), insert hasher s k = some (s', r) →
      s'.table_size = s.table_size → s'.last_free ≤ s.last_free) ∧
    (∀ (k : Key) (s' : ADS_set Key) (r : Nat), erase hasher s k = some (s', r) →
      s'.table_size = s.table_size ∧ s'.tableWithKeller_size = s.tableWithKeller_size ∧
      (r = 0 → s'.last_free = s.last_free) ∧
      ∀ (e : element Key), s.table[h hasher s k]? = some e →
        (r = 1 → (e.next = none ∧ e.key = k) → s'.last_free = s.last_free) ∧
        (r = 1 → ¬ (e.next = none ∧ e.key = k) →
          s'.last_free = s.tableWithKeller_size - 1)) := by
  have hI := Inv.inv_run_fresh hasher ops s hs
  refine ⟨?_, ?_, ?_⟩
  · have := hI.lf_lt
    omega
  · intro k s' r h' hts
    unfold insert at h'
    split at h'
    · cases h'
    · simp only [Option.some.injEq, Prod.mk.injEq] at h'
      rw [← h'.1]
    · split at h'
      · cases h'
      · next s1 hs1 =>
        split at h'
        · cases h'
        · next s2 p2 hs2 =>
          simp only [Option.some.injEq, Prod.mk.injEq] at h'
          obtain ⟨h1, _⟩ := h'
          subst h1
          obtain ⟨_, hts2, _, _⟩ := insert__fields hasher s1 s2 k p2 hs2
          obtain ⟨_, _, hor⟩ := reserve_spec hasher s s1 _ hI hs1
          rcases hor with hEq | hlt
          · subst hEq
            rcases insert__spec hasher s1 s2 k p2 hs2 with
              ⟨e, he, hm, _, hs2'⟩ | ⟨e, c, t, et0, et, he, hm, hc, hp, het0, hn0, het, _, hs2'⟩
            · rw [hs2']
            · obtain ⟨hcle, _, _⟩ := scan_free_spec _ _ _ hc
              rw [hs2']
              exact hcle
          · omega
  · intro k s' r hE
    have hfields : s'.table_size = s.table_size ∧
        s'.tableWithKeller_size = s.tableWithKeller_size ∧
        (r = 0 → s'.last_free = s.last_free) := by
      rcases erase_spec hasher s s' k r hE with
        ⟨_, hs', _⟩ | ⟨e, _, hr, _, _, _, _, hs'⟩ |
        ⟨e, tmp, t, t1, _, hr, _, _, _, _, _, _, hs'⟩ |
        ⟨p, q, eq, pe, _, hr, _, _, _, _, _, _, _, hs'⟩
      · rw [hs']
        exact ⟨rfl, rfl, fun _ => rfl⟩
      · rw [hs']
        exact ⟨rfl, rfl, fun _ => rfl⟩
      · rw [hs']
        exact ⟨rfl, rfl, fun h0 => by omega⟩
      · rw [hs']
        exact ⟨rfl, rfl, fun h0 => by omega⟩
    refine ⟨hfields.1, hfields.2.1, hfields.2.2, ?_⟩
    intro e he
    exact (erase_cursor hasher s s' k r e hE he).2

theorem cursor_moves_witness :
    run_fresh id cursor_ops = some cursor_set ∧
      erase id cursor_set 15 = some (cursor_set_erased, 1) ∧
      cursor_set.table[h id cursor_set 15]? =
        some { key := 0, mode := Mode.used, next := some 16 } ∧
      cursor_set_erased.last_free = cursor_set.tableWithKeller_size - 1 :=
  ⟨by decide, by decide, by decide,
    ((((cursor_moves id cursor_ops cursor_set (by decide)).2.2 15 cursor_set_erased 1
      (by decide)).2.2.2 { key := 0, mode := Mode.used, next := some 16 } (by decide)).2
      rfl (by decide))⟩

end cursor

/-! ## Chain integrity on every reachable set -/

section chains_end

variable {Key : Type}

/-- Taking a slot `p` out of its chain, its predecessor `q` taking over its
successor, keeps every chain finite. -/
theorem Ends.ends_splice {σ : Nat → Option Nat} {q p : Nat} (hq : σ q = some p) :
    ∀ (d i : Nat), Ends σ i d →
      ∃ d', Ends (Function.update (Function.update σ q (σ p)) p none) i d' := by
  intro d
  induction d using Nat.strong_induction_on with
  | _ d ih =>
    intro i hE
    by_cases hip : i = p
    · exact ⟨0, Ends.last (by rw [hip, Function.update_same])⟩
    · by_cases hiq : i = q
      · subst hiq
        cases hE with
        | last h0 => rw [hq] at h0; cases h0
        | @step _ j d1 h0 h1 =>
          rw [hq] at h0
          cases h0
          cases h1 with
          | last h2 =>
            refine ⟨0, Ends.last ?_⟩
            rw [Function.update_noteq hip, Function.update_same]
            exact h2
          | @step _ m d2 h2 h3 =>
            obtain ⟨d', hd'⟩ := ih d2 (by omega) m h3
            refine ⟨d' + 1, Ends.step ?_ hd'⟩
            rw [Function.update_noteq hip, Function.update_same]
            exact h2
      · cases hE with
        | last h0 =>
          refine ⟨0, Ends.last ?_⟩
          rw [Function.update_noteq hip, Function.update_noteq hiq]
          exact h0
        | @step _ j d1 h0 h1 =>
          obtain ⟨d', hd'⟩ := ih d1 (by omega) j h1
          refine ⟨d' + 1, Ends.step ?_ hd'⟩
          rw [Function.update_noteq hip, Function.update_noteq hiq]
          exact h0

/-- The successor map after slot `p` was taken out of its chain. -/
theorem nxt_unlink (tbl : List (element Key)) (q p : Nat) (x y pe : element Key)
    (hq : q < tbl.length) (hpe : tbl[p]? = some pe) (hxn : x.next = pe.next)
    (hyn : y.next = none) :
    nxt ((tbl.set q x).set p y) =
      Function.update (Function.update (nxt tbl) q (nxt tbl p)) p none := by
  have hp := lt_of_get hpe
  have hp' : p < (tbl.set q x).length := by
    rw [List.length_set]
    exact hp
  funext i
  by_cases hip : i = p
  · subst hip
    rw [Function.update_same]
    exact (nxt_eq (by rw [get_set _ _ _ hp', if_pos rfl])).trans hyn
  · rw [Function.update_noteq hip]
    by_cases hiq : i = q
    · subst hiq
      rw [Function.update_same, nxt_eq hpe, ← hxn]
      exact nxt_eq (by rw [get_set _ _ _ hp', if_neg hip, get_set _ _ _ hq, if_pos rfl])
    · rw [Function.update_noteq hiq]
      unfold nxt
      rw [get_set _ _ _ hp', if_neg hip, get_set _ _ _ hq, if_neg hiq]

/-- The successor map does not change when only the mode of a slot changes. -/
theorem nxt_set_same_next (tbl : List (element Key)) (a : Nat) (e x : element Key)
    (he : tbl[a]? = some e) (hx : x.next = e.next) : nxt (tbl.set a x) = nxt tbl := by
  have ha := lt_of_get he
  funext i
  unfold nxt
  rw [get_set _ _ _ ha]
  by_cases hi : i = a
  · subst hi
    rw [if_pos rfl, he]
    exact hx
  · rw [if_neg hi]

/-- The outcomes of a successful `erase` on a set that satisfies the invariant:
key absent; home slot without chain freed; or slot `p` taken out of its chain,
its predecessor `q` taking over its successor and, when the key sat in the home
slot `q`, its key. -/
theorem erase_cases [DecidableEq Key] (hasher : Key → Nat) (s s' : ADS_set Key) (k : Key)
    (r : Nat) (hI : Inv hasher s) (hE : erase hasher s k = some (s', r)) :
    (find_ hasher s k = some none ∧ s' = s ∧ r = 0) ∨
    (∃ e, r = 1 ∧ s.table[h hasher s k]? = some e ∧ e.mode = Mode.used ∧ e.key = k ∧
      e.next = none ∧
      s' = { s with table := s.table.set (h hasher s k) { e with mode := Mode.free },
                    curr_size := s.curr_size - 1 }) ∨
    (∃ q p eq pe x, r = 1 ∧ s.table[q]? = some eq ∧ eq.mode = Mode.used ∧ eq.next = some p ∧
      s.table[p]? = some pe ∧ pe.mode = Mode.used ∧ q ≠ p ∧
      x.mode = Mode.used ∧ x.next = pe.next ∧
      ((x.key = eq.key ∧ pe.key = k ∧ eq.key ≠ k) ∨
        (x.key = pe.key ∧ eq.key = k ∧ q = h hasher s k)) ∧
      s' = { s with table := (s.table.set q x).set p { pe with mode := Mode.free, next := none },
                    last_free := s.tableWithKeller_size - 1,
                    curr_size := s.curr_size - 1 }) := by
  rcases erase_spec hasher s s' k r hE with
    ⟨hf, hs, hr⟩ | ⟨e, _, hr, he, hm, hk, hn, hs⟩ |
    ⟨e, tmp, t, t1, _, hr, he, hm, hk, hn, ht, ht1, hs⟩ |
    ⟨p, q, eq, pe, _, hr, hq, hqm, hqk, hqn, hpe, hpm, hpk, hs⟩
  · exact Or.inl ⟨hf, hs, hr⟩
  · exact Or.inr (Or.inl ⟨e, hr, he, hm, hk, hn, hs⟩)
  · right; right
    have hnolink : ∀ (i : Nat) (e1 : element Key), s.table[i]? = some e1 →
        e1.next ≠ some (h hasher s k) := by
      intro i e1 h1 hc
      have := hI.nothome i _ e1 e h1 hc he
      rw [hk] at this
      exact this rfl
    have hne : h hasher s k ≠ tmp := by
      intro hEq
      rw [← hEq] at hn
      exact hnolink _ e he hn
    have ht1' : t1 = t := by
      rw [get_set _ _ _ (lt_of_get he), if_neg (Ne.symm hne), ht] at ht1
      exact (Option.some.inj ht1).symm
    subst ht1'
    have htm : t1.mode = Mode.used := by
      obtain ⟨_, e', he', hm'⟩ := hI.link _ tmp e he hn
      rw [ht] at he'
      cases he'
      exact hm'
    exact ⟨h hasher s k, tmp, e, t1, ⟨t1.key, t1.mode, t1.next⟩, hr, he, hm, hn, ht, htm, hne,
      htm, rfl, Or.inr ⟨rfl, hk, rfl⟩, hs⟩
  · right; right
    have hqp : q ≠ p := by
      intro hEq
      subst hEq
      rw [hq] at hpe
      cases hpe
      exact hqk hpk
    exact ⟨q, p, eq, pe, { eq with next := pe.next }, hr, hq, hqm, hqn, hpe, hpm, hqp, hqm, rfl,
      Or.inl ⟨rfl, hpk, hqk⟩, hs⟩

theorem chainsEnd_insert_ (hasher : Key → Nat) (s s' : ADS_set Key) (k : Key) (p : Nat)
    (hI : Inv hasher s) (hT : ChainsEnd s) (h' : insert_ hasher s k = some (s', p)) :
    ChainsEnd s' := by
  rcases insert__spec hasher s s' k p h' with
    ⟨e, he, hm, _, hs⟩ | ⟨e, c, t, et0, et, he, hm, hc, hp, het0, hn0, het, _, hs⟩
  · have hσ := insert_home_nxt hasher s k e hI he hm
    rw [hs]
    intro i
    simp only [hσ]
    exact hT i
  · obtain ⟨hget, hσ, hnt, hnc, htm⟩ :=
      insert_chain_get hasher s k e et0 et c t hI he hm hc hp het0 hn0 het
    obtain ⟨htc, _⟩ := hI.inv_insert_chain hasher s k e et0 et c t he hm hc hp het0 hn0 het
    rw [hs]
    intro i
    simp only [hσ]
    obtain ⟨d, hd⟩ := hT i
    exact hd.ends_update_none hnt hnc htc.symm

theorem chainsEnd_erase [DecidableEq Key] (hasher : Key → Nat) (s s' : ADS_set Key) (k : Key)
    (r : Nat) (hI : Inv hasher s) (hT : ChainsEnd s) (hE : erase hasher s k = some (s', r)) :
    ChainsEnd s' := by
  rcases erase_cases hasher s s' k r hI hE with
    ⟨_, hs, _⟩ | ⟨e, _, he, hm, hk, hn, hs⟩ |
    ⟨q, p, eq, pe, x, _, hq, hqm, hqn, hpe, hpm, hqp, hxm, hxn, _, hs⟩
  · rw [hs]
    exact hT
  · rw [hs]
    intro i
    simp only
    rw [nxt_set_same_next s.table _ e { e with mode := Mode.free } he rfl]
    exact hT i
  · rw [hs]
    intro i
    simp only
    rw [nxt_unlink s.table q p x _ pe (lt_of_get hq) hpe hxn rfl]
    obtain ⟨d, hd⟩ := hT i
    exact Ends.ends_splice (by rw [nxt_eq hq, hqn]) d i hd

theorem chainsEnd_new_table [Inhabited Key] (T W lf : Nat) :
    ChainsEnd ({ table := new_table W, last_free := lf, table_size := T, curr_size := 0,
                 tableWithKeller_size := W } : ADS_set Key) := by
  intro i
  refine ⟨0, Ends.last ?_⟩
  cases hx : nxt (new_table W : List (element Key)) i with
  | none => rfl
  | some j =>
    obtain ⟨e, he, hnx⟩ := nxt_some hx
    simp only [getElem?_new_table] at he
    split at he
    · cases he
      cases hnx
    · split at he
      · cases he
        cases hnx
      · cases he

theorem chainsEnd_reinsert (hasher : Key → Nat) (l : List (element Key)) :
    ∀ (s s' : ADS_set Key), Inv hasher s → ChainsEnd s → reinsert hasher l s = some s' →
      ChainsEnd s' := by
  induction l with
  | nil =>
    intro s s' _ hT h'
    simp only [reinsert, Option.some.injEq] at h'
    rw [← h']
    exact hT
  | cons e rest ih =>
    intro s s' hI hT h'
    unfold reinsert at h'
    split at h'
    · split at h'
      · cases h'
      · next s1 p hins =>
        exact ih s1 s' (hI.inv_insert_ hasher s s1 e.key p hins)
          (chainsEnd_insert_ hasher s s1 e.key p hI hT hins) h'
    · exact ih s s' hI hT h'

theorem chainsEnd_rehash [Inhabited Key] (hasher : Key → Nat) (s s' : ADS_set Key) (n : Nat)
    (h' : rehash hasher s n = some s') : ChainsEnd s' := by
  unfold rehash at h'
  simp only at h'
  have hN := N_pos
  have hk := le_kellerOf_add (max N (max n (minTableFor s.curr_size)))
  exact chainsEnd_reinsert hasher _ _ s'
    (Inv.inv_new_table hasher _ _ _ (by omega) hk (by omega)) (chainsEnd_new_table _ _ _) h'

theorem chainsEnd_reserve [Inhabited Key] (hasher : Key → Nat) (s s' : ADS_set Key) (n : Nat)
    (hT : ChainsEnd s) (h' : reserve hasher s n = some s') : ChainsEnd s' := by
  unfold reserve at h'
  split at h'
  · split at h'
    · cases h'
    · exact chainsEnd_rehash hasher s s' _ h'
  · cases h'
    exact hT

theorem chainsEnd_step [DecidableEq Key] [Inhabited Key] (hasher : Key → Nat)
    (s s' : ADS_set Key) (op : Op Key) (hI : Inv hasher s) (hT : ChainsEnd s)
    (h' : step hasher s op = some s') : ChainsEnd s' := by
  cases op with
  | ins k =>
    simp only [step, Option.map_eq_some'] at h'
    obtain ⟨⟨s1, r⟩, h1, h2⟩ := h'
    simp only at h2
    subst h2
    unfold insert at h1
    split at h1
    · cases h1
    · simp only [Option.some.injEq, Prod.mk.injEq] at h1
      rw [← h1.1]
      exact hT
    · split at h1
      · cases h1
      · next s2 hs2 =>
        split at h1
        · cases h1
        · next s3 p hs3 =>
          simp only [Option.some.injEq, Prod.mk.injEq] at h1
          rw [← h1.1]
          exact chainsEnd_insert_ hasher s2 s3 k p (hI.inv_reserve hasher s s2 _ hs2)
            (chainsEnd_reserve hasher s s2 _ hT hs2) hs3
  | del k =>
    simp only [step, Option.map_eq_some'] at h'
    obtain ⟨⟨s1, r⟩, h1, h2⟩ := h'
    simp only at h2
    subst h2
    exact chainsEnd_erase hasher s s1 k r hI hT h1

theorem chainsEnd_run [DecidableEq Key] [Inhabited Key] (hasher : Key → Nat)
    (ops : List (Op Key)) :
    ∀ (s s' : ADS_set Key), Inv hasher s → ChainsEnd s → run hasher s ops = some s' →
      ChainsEnd s' := by
  induction ops with
  | nil =>
    intro s s' _ hT h'
    simp only [run, Option.some.injEq] at h'
    rw [← h']
    exact hT
  | cons op rest ih =>
    intro s s' hI hT h'
    unfold run at h'
    split at h'
    · cases h'
    · next s1 hs1 =>
      exact ih s1 s' (hI.inv_step hasher s s1 op hs1) (chainsEnd_step hasher s s1 op hI hT hs1) h'

theorem chainsEnd_run_fresh [DecidableEq Key] [Inhabited Key] (hasher : Key → Nat)
    (ops : List (Op Key)) (s : ADS_set Key) (h' : run_fresh hasher ops = some s) :
    ChainsEnd s := by
  unfold run_fresh at h'
  split at h'
  · cases h'
  · next s0 hs0 =>
    exact chainsEnd_run hasher ops s0 s (Inv.inv_ctor hasher s0 hs0)
      (chainsEnd_rehash hasher _ s0 _ hs0) h'

/-- Along a path the number of links to the end of the chain does not grow. -/
theorem Path.path_ends_le {σ : Nat → Option Nat} {a b : Nat} (hp : Path σ a b) :
    ∀ {da db : Nat}, Ends σ a da → Ends σ b db → db ≤ da := by
  induction hp with
  | refl _ =>
    intro da db h1 h2
    rw [h1.ends_unique h2]
  | @head i j k h0 _ ih =>
    intro da db h1 h2
    cases h1 with
    | last h3 => rw [h0] at h3; cases h3
    | @step _ j' d h3 h4 =>
      rw [h0] at h3
      cases h3
      have := ih h4 h2
      omega

/-- With finite chains `find_` returns. -/
theorem find__returns [DecidableEq Key] (hasher : Key → Nat) (s : ADS_set Key) (k : Key)
    (hI : Inv hasher s) (hT : ChainsEnd s) : ∃ r, find_ hasher s k = some r := by
  have hidx := h_lt hasher s k hI
  have hts := hI.ts_le
  have hlen := hI.len
  have hlt : h hasher s k < s.table.length := by omega
  obtain ⟨d, hd⟩ := hT (h hasher s k)
  have hdlt := hd.ends_lt_of_bounded (hI.inv_link_lt hasher s) hlt
  unfold find_
  refine find_loop_total k s.table hI.link d _ _ hd hdlt
    ⟨_, List.getElem?_eq_getElem hlt, ?_⟩
  intro hc
  have := (hI.sentinel _ _ (List.getElem?_eq_getElem hlt)).1 hc
  omega

/-- C15: in every state reached from a default-constructed set by `insert` and
`erase` calls, the slots reached by `next` links from a `used` slot are `used`
slots before the sentinel, every chain ends after finitely many links at a slot
whose `next` is `-1`, no slot is reached again from its successor, every `free`
slot has `next == -1`, and `find_` returns for every key (a pointer or
`nullptr`, never the exception). -/
theorem chain_integrity [DecidableEq Key] [Inhabited Key] (hasher : Key → Nat)
    (ops : List (Op Key)) (s : ADS_set Key) (hs : run_fresh hasher ops = some s) :
    (∀ i j, usedAt s.table i → Path (nxt s.table) i j →
      usedAt s.table j ∧ j < s.tableWithKeller_size) ∧
    (∀ i, ∃ d, Ends (nxt s.table) i d) ∧
    (∀ i j, nxt s.table i = some j → ¬ Path (nxt s.table) j i) ∧
    (∀ (i : Nat) (e : element Key), s.table[i]? = some e → e.mode = Mode.free →
      e.next = none) ∧
    (∀ k, ∃ r, find_ hasher s k = some r) := by
  have hI := Inv.inv_run_fresh hasher ops s hs
  have hT := chainsEnd_run_fresh hasher ops s hs
  refine ⟨?_, hT, ?_, ?_, ?_⟩
  · intro i j hi hp
    have hj := hp.path_usedAt hI.link hi
    refine ⟨hj, ?_⟩
    obtain ⟨e, he, hm⟩ := hj
    have h1 := lt_of_get he
    have h2 := hI.len
    have h3 := hI.sentinel j e he
    by_contra hcon
    have : j = s.tableWithKeller_size := by omega
    have := h3.2 this
    rw [hm] at this
    cases this
  · intro i j hij hp
    obtain ⟨d, hd⟩ := hT i
    cases hd with
    | last h0 => rw [hij] at h0; cases h0
    | @step _ j' d' h0 h1 =>
      rw [hij] at h0
      cases h0
      have := hp.path_ends_le h1 (Ends.step hij h1)
      omega
  · intro i e he hm
    cases hn : e.next with
    | none => rfl
    | some j =>
      have := (hI.link i j e he hn).1
      rw [hm] at this
      cases this
  · intro k
    exact find__returns hasher s k hI hT

theorem chain_integrity_witness :
    run_fresh id lost_ops = some lost_set ∧ ∃ r, find_ id lost_set 14 = some r :=
  ⟨by decide, (chain_integrity id lost_ops lost_set (by decide)).2.2.2.2 14⟩

end chains_end

/-! ## The growth schedule of `reserve` -/

section growth

variable {Key : Type}

theorem usedKeys_set_new (l : List (element Key)) :
    ∀ (a : Nat) (e x : element Key), l[a]? = some e → e.mode ≠ Mode.used → x.mode = Mode.used →
      List.Perm (usedKeys (l.set a x)) (x.key :: usedKeys l) := by
  induction l with
  | nil => intro a e x he; cases he
  | cons y ys ih =>
    intro a e x he hm hx
    cases a with
    | zero =>
      simp only [List.getElem?_cons_zero, Option.some.injEq] at he
      subst he
      simp only [List.set_cons_zero, usedKeys_cons, if_pos hx, if_neg hm]
      exact List.Perm.refl _
    | succ a =>
      simp only [List.getElem?_cons_succ] at he
      simp only [List.set_cons_succ, usedKeys_cons]
      split
      · exact (List.Perm.cons _ (ih a e x he hm hx)).trans (List.Perm.swap _ _ _)
      · exact ih a e x he hm hx

theorem usedKeys_set_same (l : List (element Key)) :
    ∀ (a : Nat) (e x : element Key), l[a]? = some e → x.mode = e.mode → x.key = e.key →
      usedKeys (l.set a x) = usedKeys l := by
  induction l with
  | nil => intro a e x he; cases he
  | cons y ys ih =>
    intro a e x he hm hk
    cases a with
    | zero =>
      simp only [List.getElem?_cons_zero, Option.some.injEq] at he
      subst he
      simp only [List.set_cons_zero, usedKeys_cons, hm, hk]
    | succ a =>
      simp only [List.getElem?_cons_succ] at he
      simp only [List.set_cons_succ, usedKeys_cons]
      rw [ih a e x he hm hk]

/-- `insert_` adds its key to the keys of the `used` slots, once. -/
theorem usedKeys_insert_ (hasher : Key → Nat) (s s' : ADS_set Key) (k : Key) (p : Nat)
    (h' : insert_ hasher s k = some (s', p)) :
    List.Perm (usedKeys s'.table) (k :: usedKeys s.table) := by
  rcases insert__spec hasher s s' k p h' with
    ⟨e, he, hm, _, hs⟩ | ⟨e, c, t, et0, et, he, hm, hc, hp, het0, hn0, het, _, hs⟩
  · rw [hs]
    exact usedKeys_set_new s.table _ e ⟨k, Mode.used, none⟩ he (by rw [hm]; decide) rfl
  · obtain ⟨_, ⟨ec, hec, hecm⟩, _⟩ := scan_free_spec _ _ _ hc
    rw [hs]
    simp only
    rw [usedKeys_set_same _ t et { et with next := some c } het rfl rfl]
    exact usedKeys_set_new s.table c ec ⟨k, Mode.used, none⟩ hec hecm rfl

/-- Reinserting a list of slots into a set built by insertions returns, whatever
keys the list holds, and adds the keys of its `used` slots. -/
theorem reinsert_total (hasher : Key → Nat) (l : List (element Key)) :
    ∀ (s : ADS_set Key), Inv hasher s → Findable hasher s →
      s.curr_size + (usedKeys l).length ≤ s.tableWithKeller_size →
      ∃ s', reinsert hasher l s = some s' ∧ Inv hasher s' ∧ Findable hasher s' ∧
        List.Perm (usedKeys s'.table) (usedKeys l ++ usedKeys s.table) := by
  induction l with
  | nil =>
    intro s hI hF _
    exact ⟨s, rfl, hI, hF, by simp [usedKeys]⟩
  | cons e rest ih =>
    intro s hI hF hroom
    rw [usedKeys_cons] at hroom ⊢
    unfold reinsert
    by_cases hm : e.mode = Mode.used
    · simp only [if_pos hm] at hroom ⊢
      simp only [List.length_cons] at hroom
      obtain ⟨s1, p, hins⟩ := insert__total hasher s e.key hI hF (by omega)
      have hI1 := hI.inv_insert_ hasher s s1 e.key p hins
      have hF1 := hF.findable_insert_ hasher s s1 e.key p hI hins
      have hP := usedKeys_insert_ hasher s s1 e.key p hins
      obtain ⟨hc1, _, hW1, _⟩ := insert__fields hasher s s1 e.key p hins
      obtain ⟨s', hre, hI', hF', hP'⟩ := ih s1 hI1 hF1 (by omega)
      refine ⟨s', by simp only [hins]; exact hre, hI', hF', ?_⟩
      refine hP'.trans ?_
      refine (List.Perm.append_left _ hP).trans ?_
      exact List.perm_middle
    · simp only [if_neg hm] at hroom ⊢
      exact ih s hI hF hroom

theorem usedKeys_new_table [Inhabited Key] (W : Nat) :
    usedKeys (new_table W : List (element Key)) = [] := by
  rw [List.eq_nil_iff_forall_not_mem]
  intro x hx
  rw [mem_usedKeys] at hx
  obtain ⟨i, e, he, hm, hk⟩ := hx
  exact not_stored_new_table 0 W 0 x ⟨i, e, he, hm, hk⟩

theorem usedKeys_take_eq (hasher : Key → Nat) (s : ADS_set Key) (hI : Inv hasher s) :
    usedKeys (s.table.take s.tableWithKeller_size) = usedKeys s.table := by
  have hlen := hI.len
  have hW : s.tableWithKeller_size < s.table.length := by omega
  have hget := List.getElem?_eq_getElem hW
  have hend := (hI.sentinel _ _ hget).2 rfl
  have hdrop := drop_of_get hget
  have hd1 : s.table.drop (s.tableWithKeller_size + 1) = [] :=
    List.drop_eq_nil_of_le (by omega)
  rw [hd1] at hdrop
  have hsplit := List.take_append_drop s.tableWithKeller_size s.table
  rw [hdrop] at hsplit
  conv_rhs => rw [← hsplit]
  unfold usedKeys
  rw [List.filter_append]
  simp [hend]

theorem stored_iff_mem (s : ADS_set Key) (x : Key) : stored s x ↔ x ∈ usedKeys s.table := by
  rw [mem_usedKeys]
  rfl

/-- Member `rehash` returns on every set that satisfies the invariant; the new
set holds the keys of the old one, each as often as before, and finds each. -/
theorem rehash_total [Inhabited Key] (hasher : Key → Nat) (s : ADS_set Key) (n : Nat)
    (hI : Inv hasher s) :
    ∃ s', rehash hasher s n = some s' ∧ Inv hasher s' ∧ Findable hasher s' ∧
      List.Perm (usedKeys s'.table) (usedKeys s.table) := by
  obtain ⟨_, _, hlen⟩ := usedKeys_take hasher s hI
  have hN := N_pos
  have hk := le_kellerOf_add (max N (max n (minTableFor s.curr_size)))
  have hmin := le_minTableFor s.curr_size
  obtain ⟨s', hre, hI', hF', hP⟩ := reinsert_total hasher
    (s.table.take s.tableWithKeller_size)
    ({ table := new_table (max N (max n (minTableFor s.curr_size)) +
          kellerOf (max N (max n (minTableFor s.curr_size)))),
       last_free := max N (max n (minTableFor s.curr_size)) +
          kellerOf (max N (max n (minTableFor s.curr_size))) - 1,
       table_size := max N (max n (minTableFor s.curr_size)),
       curr_size := 0,
       tableWithKeller_size := max N (max n (minTableFor s.curr_size)) +
          kellerOf (max N (max n (minTableFor s.curr_size))) } : ADS_set Key)
    (Inv.inv_new_table hasher _ _ _ (by omega) hk (by omega))
    (Findable.findable_new_table hasher _ _)
    (by
      rw [hlen]
      simp only
      omega)
  refine ⟨s', hre, hI', hF', ?_⟩
  simp only [usedKeys_new_table, List.append_nil] at hP
  rw [usedKeys_take_eq hasher s hI] at hP
  exact hP

theorem growth_seq_shift (c : Nat) : ∀ j, growth_seq c (j + 1) = growth_seq (c * 2 + 1) j := by
  intro j
  induction j with
  | zero => simp only [growth_seq]; omega
  | succ j ih =>
    have h1 : growth_seq c (j + 1 + 1) = 2 * growth_seq c (j + 1) + 1 := rfl
    have h2 : growth_seq (c * 2 + 1) (j + 1) = 2 * growth_seq (c * 2 + 1) j + 1 := rfl
    rw [h1, h2, ih]

/-- The loop of `reserve` stops at the first capacity of the doubling sequence
that passes the load test. -/
theorem grow_loop_first (n : Nat) :
    ∀ (f c c' : Nat), grow_loop n f c = some c' →
      ∃ j, c' = growth_seq c j ∧ overLoad n (growth_seq c j) = false ∧
        ∀ i, i < j → overLoad n (growth_seq c i) = true := by
  intro f
  induction f with
  | zero => intro c c' h'; simp [grow_loop] at h'
  | succ f ih =>
    intro c c' h'
    unfold grow_loop at h'
    simp only at h'
    have h0 : growth_seq c 0 = c * 2 + 1 := by simp only [growth_seq]; omega
    split at h'
    · next hov =>
      obtain ⟨j, h1, h2, h3⟩ := ih _ c' h'
      refine ⟨j + 1, ?_, ?_, ?_⟩
      · rw [growth_seq_shift]; exact h1
      · rw [growth_seq_shift]; exact h2
      · intro i hi
        cases i with
        | zero => rw [h0]; exact hov
        | succ i => rw [growth_seq_shift]; exact h3 i (by omega)
    · next hov =>
      simp only [Option.some.injEq] at h'
      subst h'
      refine ⟨0, h0.symm, ?_, ?_⟩
      · rw [h0]; simpa using hov
      · intro i hi; omega

theorem le_growth_seq (T : Nat) : ∀ j, 2 * T + 1 ≤ growth_seq T j := by
  intro j
  induction j with
  | zero => exact Nat.le_refl _
  | succ j ih =>
    have h1 : growth_seq T (j + 1) = 2 * growth_seq T j + 1 := rfl
    omega

/-- After `rehash` the primary zone has at least `N` slots and the cellar
`size_type(table_size * 0.1628)`. -/
theorem rehash_shape [Inhabited Key] (hasher : Key → Nat) (s s' : ADS_set Key) (n : Nat)
    (h' : rehash hasher s n = some s') :
    N ≤ s'.table_size ∧ s'.tableWithKeller_size = s'.table_size + kellerOf s'.table_size := by
  unfold rehash at h'
  simp only at h'
  obtain ⟨_, h2, h3⟩ := reinsert_fields hasher _ _ s' h'
  simp only at h2 h3
  rw [h2, h3]
  exact ⟨Nat.le_max_left _ _, rfl⟩

theorem shape_step [DecidableEq Key] [Inhabited Key] (hasher : Key → Nat)
    (s s' : ADS_set Key) (op : Op Key) (hI : Inv hasher s)
    (hS : N ≤ s.table_size ∧ s.tableWithKeller_size = s.table_size + kellerOf s.table_size)
    (h' : step hasher s op = some s') :
    N ≤ s'.table_size ∧ s'.tableWithKeller_size = s'.table_size + kellerOf s'.table_size := by
  cases op with
  | ins k =>
    simp only [step, Option.map_eq_some'] at h'
    obtain ⟨⟨s1, r⟩, h1, h2⟩ := h'
    simp only at h2
    subst h2
    unfold insert at h1
    split at h1
    · cases h1
    · simp only [Option.some.injEq, Prod.mk.injEq] at h1
      rw [← h1.1]
      exact hS
    · split at h1
      · cases h1
      · next s2 hs2 =>
        split at h1
        · cases h1
        · next s3 p hs3 =>
          simp only [Option.some.injEq, Prod.mk.injEq] at h1
          rw [← h1.1]
          obtain ⟨_, h3, h4, _⟩ := insert__fields hasher s2 s3 k p hs3
          rw [h3, h4]
          unfold reserve at hs2
          split at hs2
          · split at hs2
            · cases hs2
            · exact rehash_shape hasher s s2 _ hs2
          · cases hs2
            exact hS
  | del k =>
    simp only [step, Option.map_eq_some'] at h'
    obtain ⟨⟨s1, r⟩, h1, h2⟩ := h'
    simp only at h2
    subst h2
    rcases erase_cases hasher s s1 k r hI h1 with
      ⟨_, hs, _⟩ | ⟨e, _, _, _, _, _, hs⟩ | ⟨q, p, eq, pe, x, _, _, _, _, _, _, _, _, _, _, hs⟩
    · rw [hs]
      exact hS
    · rw [hs]
      exact hS
    · rw [hs]
      exact hS

theorem shape_run [DecidableEq Key] [Inhabited Key] (hasher : Key → Nat)
    (ops : List (Op Key)) :
    ∀ (s s' : ADS_set Key), Inv hasher s →
      (N ≤ s.table_size ∧ s.tableWithKeller_size = s.table_size + kellerOf s.table_size) →
      run hasher s ops = some s' →
      N ≤ s'.table_size ∧ s'.tableWithKeller_size = s'.table_size + kellerOf s'.table_size := by
  induction ops with
  | nil =>
    intro s s' _ hS h'
    simp only [run, Option.some.injEq] at h'
    rw [← h']
    exact hS
  | cons op rest ih =>
    intro s s' hI hS h'
    unfold run at h'
    split at h'
    · cases h'
    · next s1 hs1 =>
      exact ih s1 s' (hI.inv_step hasher s s1 op hs1) (shape_step hasher s s1 op hI hS hs1) h'

/-- The primary zone of a reachable set has at least `N` slots, and its cellar
`size_type(table_size * 0.1628)`. -/
theorem shape_run_fresh [DecidableEq Key] [Inhabited Key] (hasher : Key → Nat)
    (ops : List (Op Key)) (s : ADS_set Key) (h' : run_fresh hasher ops = some s) :
    N ≤ s.table_size ∧ s.tableWithKeller_size = s.table_size + kellerOf s.table_size := by
  unfold run_fresh at h'
  split at h'
  · cases h'
  · next s0 hs0 =>
    exact shape_run hasher ops s0 s (Inv.inv_ctor hasher s0 hs0)
      (rehash_shape hasher _ s0 _ hs0) h'

/-- The growth of `reserve` on the code: in every state reached from a
default-constructed set by `insert` and `erase` calls, when `reserve(n)` grows
(its load test fails for `table_size`, or `last_free == table_size`) it returns,
and the new `table_size` is the first capacity of the sequence `c_1 = 2*T + 1`,
`c_(i+1) = 2*c_i + 1` that passes the binary32 load test for `n`; the rebuilt
set has the same `curr_size`, holds the same keys in its `used` slots, each as
often as before, and `count` is `1` on each of them. -/
theorem growth_schedule [DecidableEq Key] [Inhabited Key] (hasher : Key → Nat)
    (ops : List (Op Key)) (s : ADS_set Key) (n : Nat) (hs : run_fresh hasher ops = some s)
    (hg : overLoad n s.table_size = true ∨ s.last_free = s.table_size) :
    ∃ s' j, reserve hasher s n = some s' ∧ s'.table_size = growth_seq s.table_size j ∧
      overLoad n (growth_seq s.table_size j) = false ∧
      (∀ i, i < j → overLoad n (growth_seq s.table_size i) = true) ∧
      s'.curr_size = s.curr_size ∧ size s' = size s ∧
      List.Perm (usedKeys s'.table) (usedKeys s.table) ∧
      (∀ x, stored s' x ↔ stored s x) ∧
      (∀ x, stored s x → count hasher s' x = some 1) := by
  have hI := Inv.inv_run_fresh hasher ops s hs
  obtain ⟨hN, hW⟩ := shape_run_fresh hasher ops s hs
  obtain ⟨c, hc⟩ := grow_loop_reserve n s.table_size
  obtain ⟨j, hj, hov, hfirst⟩ := grow_loop_first n _ _ _ hc
  obtain ⟨s', hre, hI', hF', hP⟩ := rehash_total hasher s c hI
  obtain ⟨hcs, hts⟩ := rehash_fields hasher s s' c hI hre
  have hst : ∀ x, stored s' x ↔ stored s x := by
    intro x
    rw [stored_iff_mem, stored_iff_mem]
    exact hP.mem_iff
  refine ⟨s', j, ?_, ?_, hov, hfirst, hcs, hcs, hP, hst, ?_⟩
  · unfold reserve
    have hg' : overLoad n s.table_size = true ∨ s.last_free = s.table_size := hg
    rw [if_pos hg']
    simp only [hc]
    exact hre
  · rw [hts, ← hj]
    have h1 := le_growth_seq s.table_size j
    rw [← hj] at h1
    have h2 := hI.cnt
    have h3 := hI.len
    have h4 : s.curr_size ≤ s.tableWithKeller_size := by
      rw [← hI.inv_countP_take hasher s]
      exact (List.countP_le_length _).trans (by rw [List.length_take]; omega)
    unfold kellerOf at hW
    have h5 := minTableFor_le s.curr_size
    omega
  · intro x hx
    exact count_of_stored hasher s' x hI' hF' ((hst x).2 hx)

theorem growth_schedule_witness :
    run_fresh id cursor_ops = some cursor_set ∧
      (overLoad 20 cursor_set.table_size = true ∨
        cursor_set.last_free = cursor_set.table_size) ∧
      ∃ s' j, reserve id cursor_set 20 = some s' ∧
        s'.table_size = growth_seq cursor_set.table_size j ∧
        overLoad 20 (growth_seq cursor_set.table_size j) = false ∧
        (∀ i, i < j → overLoad 20 (growth_seq cursor_set.table_size i) = true) ∧
        s'.curr_size = cursor_set.curr_size ∧ size s' = size cursor_set ∧
        List.Perm (usedKeys s'.table) (usedKeys cursor_set.table) ∧
        (∀ x, stored s' x ↔ stored cursor_set x) ∧
        (∀ x, stored cursor_set x → count id s' x = some 1) :=
  ⟨by decide, by decide, growth_schedule id cursor_ops cursor_set 20 (by decide) (by decide)⟩

end growth

/-! ## Sets whose overflow keys all went to the cellar -/

section cellar

variable {Key : Type}

/-- The keys along a chain have the home slot of the key at its start. -/
theorem path_home (hasher : Key → Nat) (s : ADS_set Key) (hS : Sorted hasher s)
    {a t : Nat} (hp : Path (nxt s.table) a t) :
    ∀ (ea et : element Key), s.table[a]? = some ea → s.table[t]? = some et →
      hasher et.key % s.table_size = hasher ea.key % s.table_size := by
  induction hp with
  | refl _ =>
    intro ea et h1 h2
    rw [h1] at h2
    cases h2
    rfl
  | @head i j k h0 hp ih =>
    intro ea et h1 h2
    obtain ⟨e, he, hn⟩ := nxt_some h0
    rw [h1] at he
    cases he
    cases hj : s.table[j]? with
    | none =>
      cases hp with
      | refl _ => rw [hj] at h2; cases h2
      | head h3 _ =>
        obtain ⟨e3, he3, _⟩ := nxt_some h3
        rw [hj] at he3
        cases he3
    | some ej =>
      rw [ih ej et hj h2]
      exact (hS i j ea ej h1 hn hj).2

theorem kellerOf_mono {a b : Nat} (hab : a ≤ b) : kellerOf a ≤ kellerOf b := by
  unfold kellerOf
  exact Nat.div_le_div_right (Nat.mul_le_mul_right _ hab)

/-- While fewer keys are stored than the cellar has slots, the cursor is above
the primary zone or on a slot that is not `used`. -/
theorem cursor_pre (hasher : Key → Nat) (s : ADS_set Key) (hI : Inv hasher s) (hC : Cursor s)
    (hlt : s.curr_size < kellerOf s.table_size) :
    s.table_size < s.last_free ∨ ¬ usedAt s.table s.last_free := by
  by_cases h0 : s.curr_size = 0
  · right
    intro hu
    have := hI.inv_curr_size_pos hasher s hu
    omega
  · left
    have h1 := hC.fill
    have h2 := hC.shape
    omega

theorem cellar_insert_ (hasher : Key → Nat) (s s' : ADS_set Key) (k : Key) (p : Nat)
    (hI : Inv hasher s) (hS : Sorted hasher s) (hH : HomeKeyed hasher s) (hC : Cursor s)
    (hpre : s.table_size < s.last_free ∨ ¬ usedAt s.table s.last_free)
    (h' : insert_ hasher s k = some (s', p)) :
    Sorted hasher s' ∧ HomeKeyed hasher s' ∧ Cursor s' := by
  have hidx := h_lt hasher s k hI
  rcases insert__spec hasher s s' k p h' with
    ⟨e, he, hm, _, hs⟩ | ⟨e, c, t, et0, et, he, hm, hc, hp, het0, hn0, het, _, hs⟩
  · have hlt := lt_of_get he
    have hget := fun i => get_set s.table (⟨k, Mode.used, none⟩ : element Key) i hlt
    have hfree : ¬ usedAt s.table (h hasher s k) := by
      rintro ⟨e1, h1, h2⟩
      rw [he] at h1
      cases h1
      rw [hm] at h2
      cases h2
    rw [hs]
    refine ⟨?_, ?_, ?_⟩
    · intro i j e1 e2 h1 h2 h3
      simp only [hget] at h1 h3
      split at h1
      · cases h1
        cases h2
      · have hu := (hI.link i j e1 h1 h2).2
        split at h3
        · next hj =>
          rw [hj] at hu
          exact absurd hu hfree
        · exact hS i j e1 e2 h1 h2 h3
    · intro i e1 h1 h2 h3
      simp only [hget] at h1
      split at h1
      · next hi =>
        cases h1
        rw [hi]
        rfl
      · exact hH i e1 h1 h2 h3
    · refine ⟨hC.shape, hC.lf_ge, ?_, ?_⟩
      · intro i h1 h2 hu
        simp only at h1 h2 hu
        have hne : i ≠ h hasher s k := by omega
        exact hC.cellar_free i h1 h2 ((usedAt_set_ne hne).1 hu)
      · have := hC.fill
        simp only
        omega
  · obtain ⟨hget, _, _, _, htm⟩ :=
      insert_chain_get hasher s k e et0 et c t hI he hm hc hp het0 hn0 het
    obtain ⟨htc, _, hcW, htu, hcu, _⟩ :=
      hI.inv_insert_chain hasher s k e et0 et c t he hm hc hp het0 hn0 het
    obtain ⟨hcle, _, habove⟩ := scan_free_spec _ _ _ hc
    have hem : e.mode = Mode.used :=
      hI.inv_used_of_not_free hasher s he (by have := hI.ts_le; omega) hm
    have hpos := hI.inv_curr_size_pos hasher s ⟨e, he, hem⟩
    have hfill := hC.fill
    have hlfge := hC.lf_ge
    -- the scan stops at the cursor or one slot below it
    have hc1 : s.last_free ≤ c + 1 := by
      by_contra hcon
      have hu1 := habove s.last_free (by omega) (Nat.le_refl _)
      have hu2 := habove (s.last_free - 1) (by omega) (by omega)
      rcases hpre with hpre | hpre
      · exact hC.cellar_free (s.last_free - 1) (by omega) (by omega) hu2
      · exact hpre hu1
    have hcT : s.table_size ≤ c := by
      by_cases hcl : c = s.last_free
      · omega
      · have hu1 := habove s.last_free (by omega) (Nat.le_refl _)
        rcases hpre with hpre | hpre
        · omega
        · exact absurd hu1 hpre
    rw [hs]
    refine ⟨?_, ?_, ?_⟩
    · intro i j e1 e2 h1 h2 h3
      simp only [hget] at h1 h3
      simp only
      split at h1
      · -- the new link
        cases h1
        simp only [Option.some.injEq] at h2
        subst h2
        rw [if_neg (Ne.symm htc), if_pos rfl] at h3
        cases h3
        refine ⟨hcT, ?_⟩
        have h4 := path_home hasher s hS hp e et0 he het0
        have h5 := hH _ e he hem hidx
        simp only
        rw [h4, h5]
        rfl
      · split at h1
        · cases h1
          cases h2
        · have hu := (hI.link i j e1 h1 h2).2
          split at h3
          · next hj =>
            cases h3
            subst hj
            exact hS i j e1 et0 h1 h2 het0
          · split at h3
            · next hj =>
              rw [hj] at hu
              exact absurd hu hcu
            · exact hS i j e1 e2 h1 h2 h3
    · intro i e1 h1 h2 h3
      simp only [hget] at h1
      simp only at h3
      split at h1
      · next hi =>
        cases h1
        subst hi
        exact hH i et0 het0 htm h3
      · split at h1
        · omega
        · exact hH i e1 h1 h2 h3
    · refine ⟨hC.shape, hcT, ?_, ?_⟩
      · intro i h1 h2 hu
        simp only at h1 h2 hu
        have hold : ¬ usedAt s.table i := hC.cellar_free i h1 (by omega)
        obtain ⟨e1, h3, h4⟩ := hu
        rw [hget] at h3
        split at h3
        · next hi =>
          subst hi
          exact hold htu
        · split at h3
          · omega
          · exact hold ⟨e1, h3, h4⟩
      · simp only
        omega

theorem cellar_new_table [Inhabited Key] (hasher : Key → Nat) (T : Nat) (hT : N ≤ T) :
    Sorted hasher ({ table := new_table (T + kellerOf T), last_free := T + kellerOf T - 1,
                     table_size := T, curr_size := 0,
                     tableWithKeller_size := T + kellerOf T } : ADS_set Key) ∧
    HomeKeyed hasher ({ table := new_table (T + kellerOf T), last_free := T + kellerOf T - 1,
                        table_size := T, curr_size := 0,
                        tableWithKeller_size := T + kellerOf T } : ADS_set Key) ∧
    Cursor ({ table := new_table (T + kellerOf T), last_free := T + kellerOf T - 1,
              table_size := T, curr_size := 0,
              tableWithKeller_size := T + kellerOf T } : ADS_set Key) := by
  have hK : 1 ≤ kellerOf T := by
    unfold kellerOf
    unfold N at hT
    omega
  have hnot : ∀ i, ¬ usedAt (new_table (T + kellerOf T) : List (element Key)) i := by
    rintro i ⟨e, he, hm⟩
    exact not_stored_new_table 0 _ 0 e.key ⟨i, e, he, hm, rfl⟩
  refine ⟨?_, ?_, ?_⟩
  · intro i j e e' h1 h2 h3
    exfalso
    simp only [getElem?_new_table] at h1
    split at h1
    · cases h1
      cases h2
    · split at h1
      · cases h1
        cases h2
      · cases h1
  · intro i e h1 h2 _
    exact absurd ⟨e, h1, h2⟩ (hnot i)
  · refine ⟨rfl, ?_, ?_, ?_⟩
    · simp only
      omega
    · intro i _ _
      exact hnot i
    · simp only
      omega

theorem cellar_reinsert (hasher : Key → Nat) (l : List (element Key)) :
    ∀ (s s' : ADS_set Key), Inv hasher s → Sorted hasher s → HomeKeyed hasher s → Cursor s →
      s.curr_size + (usedKeys l).length ≤ kellerOf s.table_size →
      reinsert hasher l s = some s' →
      Sorted hasher s' ∧ HomeKeyed hasher s' ∧ Cursor s' := by
  induction l with
  | nil =>
    intro s s' _ hS hH hC _ h'
    simp only [reinsert, Option.some.injEq] at h'
    rw [← h']
    exact ⟨hS, hH, hC⟩
  | cons e rest ih =>
    intro s s' hI hS hH hC hroom h'
    rw [usedKeys_cons] at hroom
    unfold reinsert at h'
    by_cases hm : e.mode = Mode.used
    · simp only [if_pos hm] at hroom h'
      simp only [List.length_cons] at hroom
      split at h'
      · cases h'
      · next s1 p hins =>
        obtain ⟨hS1, hH1, hC1⟩ := cellar_insert_ hasher s s1 e.key p hI hS hH hC
          (cursor_pre hasher s hI hC (by omega)) hins
        obtain ⟨hc1, hT1, _, _⟩ := insert__fields hasher s s1 e.key p hins
        exact ih s1 s' (hI.inv_insert_ hasher s s1 e.key p hins) hS1 hH1 hC1
          (by rw [hc1, hT1]; omega) h'
    · simp only [if_neg hm] at hroom h'
      exact ih s s' hI hS hH hC hroom h'

theorem cellar_rehash [Inhabited Key] (hasher : Key → Nat) (s s' : ADS_set Key) (n : Nat)
    (hI : Inv hasher s)
    (hroom : s.curr_size ≤ kellerOf (max N (max n (minTableFor s.curr_size))))
    (h' : rehash hasher s n = some s') :
    Sorted hasher s' ∧ HomeKeyed hasher s' ∧ Cursor s' := by
  obtain ⟨_, _, hlen⟩ := usedKeys_take hasher s hI
  have hN := N_pos
  have hk := le_kellerOf_add (max N (max n (minTableFor s.curr_size)))
  obtain ⟨hS0, hH0, hC0⟩ := @cellar_new_table Key _ hasher
    (max N (max n (minTableFor s.curr_size))) (Nat.le_max_left _ _)
  unfold rehash at h'
  simp only at h'
  exact cellar_reinsert hasher _ _ s'
    (Inv.inv_new_table hasher _ _ _ (by omega) hk (by omega)) hS0 hH0 hC0
    (by rw [hlen]; simpa using hroom) h'

/-- What `reserve` leaves to `insert_` while the keys are fewer than the slots
of the next cellar. -/
theorem cellar_reserve [Inhabited Key] (hasher : Key → Nat) (s s' : ADS_set Key) (n : Nat)
    (hI : Inv hasher s) (hS : Sorted hasher s) (hH : HomeKeyed hasher s) (hC : Cursor s)
    (hroom : s.curr_size + 1 ≤ kellerOf (2 * s.table_size + 1))
    (h' : reserve hasher s n = some s') :
    Sorted hasher s' ∧ HomeKeyed hasher s' ∧ Cursor s' ∧
      (s'.table_size < s'.last_free ∨ ¬ usedAt s'.table s'.last_free) ∧
      (s' = s ∨ 2 * s.table_size + 1 ≤ s'.table_size) := by
  unfold reserve at h'
  split at h'
  · split at h'
    · cases h'
    · next c hc =>
      obtain ⟨j, hj, _, _⟩ := grow_loop_first _ _ _ _ hc
      have hcge := le_growth_seq s.table_size j
      rw [← hj] at hcge
      obtain ⟨hcs, hts⟩ := rehash_fields hasher s s' c hI h'
      have hT' : 2 * s.table_size + 1 ≤ s'.table_size := by
        rw [hts]
        exact hcge.trans ((Nat.le_max_left _ _).trans (Nat.le_max_right _ _))
      have hK := kellerOf_mono hT'
      obtain ⟨hS', hH', hC'⟩ := cellar_rehash hasher s s' c hI
        (by rw [← hts]; omega) h'
      exact ⟨hS', hH', hC', cursor_pre hasher s' (Inv.inv_rehash hasher s s' c h') hC'
        (by omega), Or.inr hT'⟩
  · next hcond =>
    cases h'
    have h1 := hC.lf_ge
    have h2 : s.last_free ≠ s.table_size := fun hc => hcond (Or.inr hc)
    exact ⟨hS, hH, hC, Or.inl (by omega), Or.inl rfl⟩

/-- While the keys are fewer than the slots of the next cellar, `insert` keeps
every overflow key in the cellar. -/
theorem cellar_insert [DecidableEq Key] [Inhabited Key] (hasher : Key → Nat)
    (s s' : ADS_set Key) (k : Key) (r : Nat × Bool)
    (hI : Inv hasher s) (hS : Sorted hasher s) (hH : HomeKeyed hasher s) (hC : Cursor s)
    (hroom : s.curr_size + 1 ≤ kellerOf (2 * s.table_size + 1))
    (h' : insert hasher s k = some (s', r)) :
    Sorted hasher s' ∧ HomeKeyed hasher s' ∧ Cursor s' ∧
      (s'.table_size = s.table_size ∨ 2 * s.table_size + 1 ≤ s'.table_size) := by
  unfold insert at h'
  split at h'
  · cases h'
  · simp only [Option.some.injEq, Prod.mk.injEq] at h'
    rw [← h'.1]
    exact ⟨hS, hH, hC, Or.inl rfl⟩
  · split at h'
    · cases h'
    · next s2 hs2 =>
      split at h'
      · cases h'
      · next s3 p hs3 =>
        simp only [Option.some.injEq, Prod.mk.injEq] at h'
        rw [← h'.1]
        obtain ⟨hS2, hH2, hC2, hpre, hT2⟩ := cellar_reserve hasher s s2 _ hI hS hH hC hroom hs2
        obtain ⟨hS3, hH3, hC3⟩ := cellar_insert_ hasher s2 s3 k p
          (hI.inv_reserve hasher s s2 _ hs2) hS2 hH2 hC2 hpre hs3
        obtain ⟨_, h3, _, _⟩ := insert__fields hasher s2 s3 k p hs3
        refine ⟨hS3, hH3, hC3, ?_⟩
        rw [h3]
        rcases hT2 with hT2 | hT2
        · rw [hT2]
          exact Or.inl rfl
        · exact Or.inr hT2

end cellar

/-! ## `erase` on chains that hold the keys of one home slot -/

section pure_chains

variable {Key : Type}

/-- Paths that do not end in the slot taken out survive the unlinking. -/
theorem Path.path_splice {σ : Nat → Option Nat} {q p : Nat} (hq : σ q = some p)
    (hpred : ∀ i, σ i = some p → i = q) (hqp : q ≠ p) {a j : Nat} (hp : Path σ a j)
    (hj : j ≠ p) :
    (a ≠ p → Path (Function.update (Function.update σ q (σ p)) p none) a j) ∧
    (∀ r, a = p → σ p = some r →
      Path (Function.update (Function.update σ q (σ p)) p none) r j) := by
  induction hp with
  | refl a =>
    exact ⟨fun _ => Path.refl _, fun r ha _ => absurd ha hj⟩
  | @head i b j h0 rest ih =>
    obtain ⟨ih1, ih2⟩ := ih hj
    constructor
    · intro hip
      by_cases hiq : i = q
      · have hbp : b = p := by
          rw [hiq, hq] at h0
          exact (Option.some.inj h0).symm
        have hcase : σ p = none ∨ ∃ r, σ p = some r := by
          cases σ p with
          | none => exact Or.inl rfl
          | some r => exact Or.inr ⟨r, rfl⟩
        rcases hcase with hσp | ⟨r, hσp⟩
        · rw [hbp] at rest
          cases rest with
          | refl _ => exact absurd rfl hj
          | head h3 _ => rw [hσp] at h3; cases h3
        · refine Path.head ?_ (ih2 r hbp hσp)
          rw [Function.update_noteq hip, hiq, Function.update_same]
          exact hσp
      · have hb : b ≠ p := by
          intro hb
          rw [hb] at h0
          exact hiq (hpred i h0)
        refine Path.head ?_ (ih1 hb)
        rw [Function.update_noteq hip, Function.update_noteq hiq]
        exact h0
    · intro r hip hσp
      have hbr : b = r := by
        rw [hip, hσp] at h0
        exact (Option.some.inj h0).symm
      have hb : b ≠ p := by
        intro hb
        rw [hbr] at hb
        rw [hb] at hσp
        exact hqp (hpred p hσp).symm
      rw [← hbr]
      exact ih1 hb

/-- With finite chains that start in the home slot of their keys, `find_` finds
exactly the stored keys. -/
theorem find__iff_stored_rooted [DecidableEq Key] (hasher : Key → Nat) (s : ADS_set Key)
    (k : Key) (hI : Inv hasher s) (hT : ChainsEnd s) (hR : Rooted hasher s) :
    (∃ p, find_ hasher s k = some (some p)) ↔ stored s k := by
  constructor
  · rintro ⟨p, hp⟩
    obtain ⟨e, he, hm, hk⟩ := find_loop_some _ _ _ _ _ hp
    exact ⟨p, e, he, hm, hk⟩
  · rintro ⟨j, e, he, hm, hk⟩
    have hidx := h_lt hasher s k hI
    have hts := hI.ts_le
    have hlen := hI.len
    have hlt : h hasher s k < s.table.length := by omega
    have hp := hR j e he hm
    rw [hk] at hp
    obtain ⟨d, hd⟩ := hT (h hasher s k)
    have hdlt := hd.ends_lt_of_bounded (hI.inv_link_lt hasher s) hlt
    unfold find_
    exact find_loop_of_path k s.table hI.link hp d _ hd hdlt
      (hp.path_usedAt_start hI.link ⟨e, he, hm⟩) ⟨e, he, hk⟩

theorem count_rooted [DecidableEq Key] (hasher : Key → Nat) (s : ADS_set Key) (k : Key)
    (hP : PureChains hasher s) :
    (stored s k → count hasher s k = some 1) ∧ (¬ stored s k → count hasher s k = some 0) := by
  have hiff := find__iff_stored_rooted hasher s k hP.inv hP.ends hP.rooted
  constructor
  · intro hst
    exact (count_eq_one hasher s k).2 (hiff.2 hst)
  · intro hst
    rw [count_eq_zero]
    obtain ⟨r, hr⟩ := find__returns hasher s k hP.inv hP.ends
    cases r with
    | none => exact hr
    | some p => exact absurd (hiff.1 ⟨p, hr⟩) hst

/-- On chains that hold the keys of one home slot, a successful `erase` removes
its key and nothing else, and keeps the chains so. -/
theorem erase_pure [DecidableEq Key] (hasher : Key → Nat) (s s' : ADS_set Key) (k : Key)
    (hP : PureChains hasher s) (hE : erase hasher s k = some (s', 1)) :
    PureChains hasher s' ∧ (∀ x, stored s' x ↔ (stored s x ∧ x ≠ k)) ∧
      s'.curr_size = s.curr_size - 1 ∧ s'.table_size = s.table_size := by
  have hI := hP.inv
  have hI' := hI.inv_erase hasher s s' k 1 hE
  have hT' := chainsEnd_erase hasher s s' k 1 hI hP.ends hE
  obtain ⟨hcs, hts, _⟩ := erase_fields hasher s s' k hE
  rcases erase_cases hasher s s' k 1 hI hE with
    ⟨_, _, h0⟩ | ⟨e, _, he, hm, hk, hn, hs⟩ |
    ⟨q, p, eq, pe, x, _, hq, hqm, hqn, hpe, hpm, hqp, hxm, hxn, hxk, hs⟩
  · cases h0
  · have hlt := lt_of_get he
    have hget := fun i => get_set s.table ({ e with mode := Mode.free } : element Key) i hlt
    have hσ := nxt_set_same_next s.table _ e { e with mode := Mode.free } he rfl
    refine ⟨⟨hI', hT', ?_, ?_, ?_, ?_⟩, ?_, hcs, hts⟩
    · rw [hs]
      intro i j e1 e2 h1 h2 h3
      simp only [hget] at h1 h3
      split at h1
      · cases h1
        simp only [hn] at h2
        cases h2
      · split at h3
        · next hj =>
          exfalso
          have h4 := hI.nothome i j e1 e h1 h2 (by rw [hj]; exact he)
          rw [hk, hj] at h4
          exact h4 rfl
        · exact hP.sorted i j e1 e2 h1 h2 h3
    · rw [hs]
      intro i e1 h1 h2 h3
      simp only [hget] at h1
      split at h1
      · cases h1
        cases h2
      · exact hP.homeKeyed i e1 h1 h2 h3
    · rw [hs]
      intro j e1 h1 h2
      simp only [hget] at h1
      simp only [hσ]
      split at h1
      · cases h1
        cases h2
      · exact hP.rooted j e1 h1 h2
    · rw [hs]
      intro i j ei ej h1 h2 hm1 hm2 hkk
      simp only [hget] at h1 h2
      split at h1
      · cases h1
        cases hm1
      · split at h2
        · cases h2
          cases hm2
        · exact hP.distinct i j ei ej h1 h2 hm1 hm2 hkk
    · rw [hs]
      intro x0
      unfold stored
      simp only [hget]
      constructor
      · rintro ⟨j, e1, h1, h2, h3⟩
        split at h1
        · cases h1
          cases h2
        · next hj =>
          refine ⟨⟨j, e1, h1, h2, h3⟩, ?_⟩
          intro hx
          exact hj (hP.distinct j _ e1 e h1 he h2 hm (by rw [h3, hx, hk]))
      · rintro ⟨⟨j, e1, h1, h2, h3⟩, hx⟩
        have hj : j ≠ h hasher s k := by
          intro hj
          rw [hj, he] at h1
          cases h1
          exact hx (h3.symm.trans hk)
        exact ⟨j, e1, by rw [if_neg hj]; exact h1, h2, h3⟩
  · have hqlt := lt_of_get hq
    have hplt := lt_of_get hpe
    have hget : ∀ i, ((s.table.set q x).set p
        ({ pe with mode := Mode.free, next := none } : element Key))[i]? =
        if i = p then some { pe with mode := Mode.free, next := none }
        else if i = q then some x else s.table[i]? := by
      intro i
      rw [get_set _ _ _ (by rw [List.length_set]; exact hplt), get_set _ _ _ hqlt]
    have hσ := nxt_unlink s.table q p x
      ({ pe with mode := Mode.free, next := none } : element Key) pe hqlt hpe hxn rfl
    have hsqp := hP.sorted q p eq pe hq hqn hpe
    have hxhome : hasher x.key % s.table_size = hasher eq.key % s.table_size := by
      rcases hxk with ⟨h1, _⟩ | ⟨h1, _⟩
      · rw [h1]
      · rw [h1]
        exact hsqp.2
    have hpred : ∀ (i : Nat) (e1 : element Key), s.table[i]? = some e1 → e1.next = some p →
        i = q := fun i e1 h1 h2 => hI.pred i q p e1 eq h1 hq h2 hqn
    have hxother : ∀ (j : Nat) (ej : element Key), j ≠ p → j ≠ q → s.table[j]? = some ej →
        ej.mode = Mode.used → ej.key = x.key → False := by
      intro j ej hjp hjq h1 h2 h3
      rcases hxk with ⟨hx, _, _⟩ | ⟨hx, _, _⟩
      · exact hjq (hP.distinct j q ej eq h1 hq h2 hqm (h3.trans hx))
      · exact hjp (hP.distinct j p ej pe h1 hpe h2 hpm (h3.trans hx))
    have hqσ : nxt s.table q = some p := by rw [nxt_eq hq, hqn]
    have hpredσ : ∀ i, nxt s.table i = some p → i = q := by
      intro i hi
      obtain ⟨e1, h1, h2⟩ := nxt_some hi
      exact hpred i e1 h1 h2
    refine ⟨⟨hI', hT', ?_, ?_, ?_, ?_⟩, ?_, hcs, hts⟩
    · rw [hs]
      intro i j e1 e2 h1 h2 h3
      simp only [hget] at h1 h3
      simp only
      split at h1
      · cases h1
        cases h2
      · split at h1
        · cases h1
          rw [hxn] at h2
          have hjp : j ≠ p := by
            intro hj
            rw [hj] at h2
            exact hqp (hpred p pe hpe h2).symm
          rw [if_neg hjp] at h3
          split at h3
          · next hj =>
            cases h3
            exact ⟨(hP.sorted p j pe eq hpe h2 (by rw [hj]; exact hq)).1, rfl⟩
          · have h4 := hP.sorted p j pe e2 hpe h2 h3
            exact ⟨h4.1, h4.2.trans (hsqp.2.trans hxhome.symm)⟩
        · next hip hiq =>
          have hjp : j ≠ p := by
            intro hj
            rw [hj] at h2
            exact hiq (hpred i e1 h1 h2)
          rw [if_neg hjp] at h3
          split at h3
          · next hj =>
            cases h3
            have h4 := hP.sorted i j e1 eq h1 h2 (by rw [hj]; exact hq)
            exact ⟨h4.1, hxhome.trans h4.2⟩
          · exact hP.sorted i j e1 e2 h1 h2 h3
    · rw [hs]
      intro i e1 h1 h2 h3
      simp only [hget] at h1
      simp only at h3 ⊢
      split at h1
      · cases h1
        cases h2
      · split at h1
        · next hiq =>
          cases h1
          rw [hxhome, hiq]
          exact hP.homeKeyed q eq hq hqm (by omega)
        · exact hP.homeKeyed i e1 h1 h2 h3
    · rw [hs]
      intro j e1 h1 h2
      simp only [hget] at h1
      simp only [hσ]
      have key : ∀ a, a < s.table_size → j ≠ p → Path (nxt s.table) a j →
          Path (Function.update (Function.update (nxt s.table) q (nxt s.table p)) p none) a j :=
        fun a ha hjp hp => (Path.path_splice hqσ hpredσ hqp hp hjp).1 (by omega)
      split at h1
      · cases h1
        cases h2
      · next hjp =>
        split at h1
        · next hjq =>
          cases h1
          rw [hxhome]
          refine key _ (Nat.mod_lt _ hI.ts_pos) hjp ?_
          rw [hjq]
          exact hP.rooted q eq hq hqm
        · exact key _ (Nat.mod_lt _ hI.ts_pos) hjp (hP.rooted j e1 h1 h2)
    · rw [hs]
      intro i j ei ej h1 h2 hm1 hm2 hkk
      simp only [hget] at h1 h2
      split at h1
      · cases h1
        cases hm1
      · next hip =>
        split at h1
        · next hiq =>
          cases h1
          split at h2
          · cases h2
            cases hm2
          · next hjp =>
            split at h2
            · next hjq => rw [hiq, hjq]
            · next hjq => exact absurd hkk.symm (fun hc => hxother j ej hjp hjq h2 hm2 hc)
        · next hiq =>
          split at h2
          · cases h2
            cases hm2
          · split at h2
            · cases h2
              exact absurd hkk (fun hc => hxother i ei hip hiq h1 hm1 hc)
            · exact hP.distinct i j ei ej h1 h2 hm1 hm2 hkk
    · rw [hs]
      intro x0
      unfold stored
      simp only [hget]
      constructor
      · rintro ⟨j, e1, h1, h2, h3⟩
        split at h1
        · cases h1
          cases h2
        · next hjp =>
          split at h1
          · cases h1
            rcases hxk with ⟨hx, hpk, hqk⟩ | ⟨hx, hqk, _⟩
            · exact ⟨⟨q, eq, hq, hqm, hx.symm.trans h3⟩, fun hc => hqk ((hx.symm.trans h3).trans hc)⟩
            · refine ⟨⟨p, pe, hpe, hpm, hx.symm.trans h3⟩, ?_⟩
              intro hc
              exact hqp (hP.distinct q p eq pe hq hpe hqm hpm
                (hqk.trans ((hx.symm.trans h3).trans hc).symm))
          · next hjq =>
            refine ⟨⟨j, e1, h1, h2, h3⟩, ?_⟩
            intro hc
            rcases hxk with ⟨_, hpk, _⟩ | ⟨_, hqk, _⟩
            · exact hjp (hP.distinct j p e1 pe h1 hpe h2 hpm (by rw [h3, hc, hpk]))
            · exact hjq (hP.distinct j q e1 eq h1 hq h2 hqm (by rw [h3, hc, hqk]))
      · rintro ⟨⟨j, e1, h1, h2, h3⟩, hne⟩
        by_cases hjp : j = p
        · rw [hjp, hpe] at h1
          cases h1
          rcases hxk with ⟨_, hpk, _⟩ | ⟨hx, _, _⟩
          · exact absurd (h3.symm.trans hpk) hne
          · exact ⟨q, x, by rw [if_neg hqp, if_pos rfl], hxm, hx.trans h3⟩
        · by_cases hjq : j = q
          · rw [hjq, hq] at h1
            cases h1
            rcases hxk with ⟨hx, _, _⟩ | ⟨_, hqk, _⟩
            · exact ⟨q, x, by rw [if_neg hqp, if_pos rfl], hxm, hx.trans h3⟩
            · exact absurd (h3.symm.trans hqk) hne
          · exact ⟨j, e1, by rw [if_neg hjp, if_neg hjq]; exact h1, h2, h3⟩

/-- On chains that hold the keys of one home slot, `erase` of a stored key
returns `1`. -/
theorem erase_stored [DecidableEq Key] (hasher : Key → Nat) (s : ADS_set Key) (k : Key)
    (hP : PureChains hasher s) (hst : stored s k) :
    ∃ s', erase hasher s k = some (s', 1) ∧ PureChains hasher s' ∧
      (∀ x, stored s' x ↔ (stored s x ∧ x ≠ k)) ∧
      s'.curr_size = s.curr_size - 1 ∧ s'.table_size = s.table_size := by
  obtain ⟨p, hp⟩ := (find__iff_stored_rooted hasher s k hP.inv hP.ends hP.rooted).2 hst
  obtain ⟨s', hE⟩ := erase_found hasher s k p hP.inv hp
  exact ⟨s', hE, erase_pure hasher s s' k hP hE⟩

theorem CellarOnly.pureChains (hasher : Key → Nat) (s : ADS_set Key)
    (hC : CellarOnly hasher s) : PureChains hasher s :=
  ⟨hC.inv, hC.findable.term, hC.sorted, hC.homeKeyed, hC.findable.home, hC.distinct⟩

end pure_chains

/-! ## The scenario `{1,2,3}`, `insert(4)`, `insert(5)`, `erase(1)`, `erase(5)` -/

section scenario

variable {Key : Type}

/-- While the keys are fewer than the slots of the next cellar, `insert` of a new
key returns `true` and keeps every overflow key in the cellar. -/
theorem cellarOnly_insert [DecidableEq Key] [Inhabited Key] (hasher : Key → Nat)
    (s : ADS_set Key) (k : Key) (hC : CellarOnly hasher s)
    (hroom : s.curr_size + 1 ≤ kellerOf (2 * s.table_size + 1)) (hk : ¬ stored s k) :
    ∃ s' p, insert hasher s k = some (s', p, true) ∧ CellarOnly hasher s' ∧
      (∀ x, stored s' x ↔ (x = k ∨ stored s x)) ∧ s'.curr_size = s.curr_size + 1 ∧
      (s'.table_size = s.table_size ∨ 2 * s.table_size + 1 ≤ s'.table_size) ∧
      (s.last_free = s.table_size → s.table_size < s'.table_size) := by
  obtain ⟨s', p, b, hins, hI', hF', hD', hst⟩ :=
    insert_good hasher s k hC.inv hC.findable hC.distinct
  have hfind := (find__none_iff hasher s k hC.inv hC.findable).2 hk
  have hb : b = true ∧ s'.curr_size = s.curr_size + 1 := by
    have hins2 := hins
    unfold insert at hins2
    rw [hfind] at hins2
    simp only at hins2
    split at hins2
    · cases hins2
    · next s1 hs1 =>
      split at hins2
      · cases hins2
      · next s2 p2 hs2 =>
        simp only [Option.some.injEq, Prod.mk.injEq] at hins2
        obtain ⟨h1, _, h3⟩ := hins2
        obtain ⟨_, hc1, _⟩ := reserve_spec hasher s s1 _ hC.inv hs1
        obtain ⟨hc2, _⟩ := insert__fields hasher s1 s2 k p2 hs2
        refine ⟨h3.symm, ?_⟩
        rw [← h1, hc2, hc1]
  obtain ⟨hb1, hcs⟩ := hb
  subst hb1
  obtain ⟨hS', hH', hC', hT'⟩ := cellar_insert hasher s s' k (p, true) hC.inv hC.sorted
    hC.homeKeyed hC.cursor hroom hins
  exact ⟨s', p, hins, ⟨hI', hF', hD', hS', hH', hC'⟩, hst, hcs, hT',
    fun hlf => insert_grows hasher s s' k p hC.inv hins (Or.inr hlf)⟩

theorem cellarOnly_ctor [Inhabited Key] (hasher : Key → Nat) :
    CellarOnly hasher ({ table := new_table 8, last_free := 7, table_size := 7, curr_size := 0,
                         tableWithKeller_size := 8 } : ADS_set Key) := by
  obtain ⟨hS, hH, hC⟩ := @cellar_new_table Key _ hasher 7 (by decide)
  refine ⟨Inv.inv_ctor hasher _ (ctor_eq hasher), Findable.findable_new_table hasher 7 8, ?_,
    hS, hH, hC⟩
  intro i j ei ej h1 _ hm1 _ _
  exact absurd ⟨i, ei, h1, hm1, rfl⟩ (not_stored_new_table 7 8 7 ei.key)

theorem kellerOf_next (T : Nat) (hT : 15 ≤ T) : 5 ≤ kellerOf (2 * T + 1) := by
  unfold kellerOf
  omega

/-- C11: for every hash function on integers, the set constructed from the list
`{1, 2, 3}` takes `insert(4)` and `insert(5)` (both return `true`), then
`erase(1)` and `erase(5)` both return `1`; afterwards `size() == 3`, `count` is
`1` for the keys `2`, `3` and `4` and `0` for the keys `1` and `5`. -/
theorem scenario_erase (hasher : Int → Nat) :
    ∃ (s3 s4 s5 s6 s7 : ADS_set Int) (p4 p5 : Nat),
      (ctor hasher).bind (fun s0 => insert_range hasher s0 [1, 2, 3]) = some s3 ∧
      insert hasher s3 4 = some (s4, p4, true) ∧ insert hasher s4 5 = some (s5, p5, true) ∧
      erase hasher s5 1 = some (s6, 1) ∧ erase hasher s6 5 = some (s7, 1) ∧
      size s7 = 3 ∧ count hasher s7 2 = some 1 ∧ count hasher s7 3 = some 1 ∧
      count hasher s7 4 = some 1 ∧ count hasher s7 1 = some 0 ∧ count hasher s7 5 = some 0 := by
  have hC0 := @cellarOnly_ctor Int _ hasher
  have hn0 : ∀ x : Int, ¬ stored
      ({ table := new_table 8, last_free := 7, table_size := 7, curr_size := 0,
         tableWithKeller_size := 8 } : ADS_set Int) x :=
    fun x => not_stored_new_table 7 8 7 x
  obtain ⟨s1, p1, hi1, hC1, hst1, hc1, hT1, hg1⟩ := cellarOnly_insert hasher _ 1 hC0
    (by decide) (hn0 1)
  simp only at hc1 hT1 hg1
  have hg1' := hg1 trivial
  have h15 : 15 ≤ s1.table_size := by omega
  have hst1' : ∀ x : Int, stored s1 x ↔ x = 1 := by
    intro x
    rw [hst1 x]
    simp only [hn0 x, or_false]
  obtain ⟨s2, p2, hi2, hC2, hst2, hc2, hT2, _⟩ := cellarOnly_insert hasher s1 2 hC1
    (by have := kellerOf_next s1.table_size h15; omega)
    (by rw [hst1']; decide)
  have h15b : 15 ≤ s2.table_size := by omega
  obtain ⟨s3, p3, hi3, hC3, hst3, hc3, hT3, _⟩ := cellarOnly_insert hasher s2 3 hC2
    (by have := kellerOf_next s2.table_size h15b; omega)
    (by rw [hst2, hst1']; decide)
  have h15c : 15 ≤ s3.table_size := by omega
  obtain ⟨s4, p4, hi4, hC4, hst4, hc4, hT4, _⟩ := cellarOnly_insert hasher s3 4 hC3
    (by have := kellerOf_next s3.table_size h15c; omega)
    (by rw [hst3, hst2, hst1']; decide)
  have h15d : 15 ≤ s4.table_size := by omega
  obtain ⟨s5, p5, hi5, hC5, hst5, hc5, hT5, _⟩ := cellarOnly_insert hasher s4 5 hC4
    (by have := kellerOf_next s4.table_size h15d; omega)
    (by rw [hst4, hst3, hst2, hst1']; decide)
  have hst5' : ∀ x : Int, stored s5 x ↔ (x = 5 ∨ x = 4 ∨ x = 3 ∨ x = 2 ∨ x = 1) := by
    intro x
    rw [hst5, hst4, hst3, hst2, hst1']
  obtain ⟨s6, he1, hP6, hst6, hc6, _⟩ := erase_stored hasher s5 1 (hC5.pureChains hasher s5)
    (by rw [hst5']; decide)
  obtain ⟨s7, he5, hP7, hst7, hc7, _⟩ := erase_stored hasher s6 5 hP6
    (by rw [hst6, hst5']; decide)
  have hst7' : ∀ x : Int, stored s7 x ↔
      (((x = 5 ∨ x = 4 ∨ x = 3 ∨ x = 2 ∨ x = 1) ∧ x ≠ 1) ∧ x ≠ 5) := by
    intro x
    rw [hst7, hst6, hst5']
  refine ⟨s3, s4, s5, s6, s7, p4, p5, ?_, hi4, hi5, he1, he5, ?_, ?_, ?_, ?_, ?_, ?_⟩
  · rw [ctor_eq]
    simp only [Option.some_bind]
    rw [insert_range_eq_run]
    simp only [List.map, run, step, hi1, hi2, hi3, Option.map_some']
  · unfold size
    omega
  · exact (count_rooted hasher s7 2 hP7).1 (by rw [hst7']; decide)
  · exact (count_rooted hasher s7 3 hP7).1 (by rw [hst7']; decide)
  · exact (count_rooted hasher s7 4 hP7).1 (by rw [hst7']; decide)
  · exact (count_rooted hasher s7 1 hP7).2 (by rw [hst7']; decide)
  · exact (count_rooted hasher s7 5 hP7).2 (by rw [hst7']; decide)

end scenario

/-! ## A reachable set beyond the load factor -/

section counted

theorem run_snoc {Key : Type} [DecidableEq Key] [Inhabited Key] (hasher : Key → Nat)
    (ops : List (Op Key)) (op : Op Key) :
    ∀ (s : ADS_set Key), run hasher s (ops ++ [op]) =
      (run hasher s ops).bind (fun s' => step hasher s' op) := by
  induction ops with
  | nil =>
    intro s
    simp only [List.nil_append, run, Option.some_bind]
    cases step hasher s op <;> rfl
  | cons o rest ih =>
    intro s
    simp only [List.cons_append, run]
    cases step hasher s o with
    | none => rfl
    | some s1 => exact ih s1

theorem run_fresh_snoc {Key : Type} [DecidableEq Key] [Inhabited Key] (hasher : Key → Nat)
    (ops : List (Op Key)) (op : Op Key) (s s' : ADS_set Key)
    (h1 : run_fresh hasher ops = some s) (h2 : step hasher s op = some s') :
    run_fresh hasher (ops ++ [op]) = some s' := by
  unfold run_fresh at h1 ⊢
  cases hc : ctor hasher with
  | none => rw [hc] at h1; cases h1
  | some s0 =>
    rw [hc] at h1
    simp only at h1 ⊢
    rw [run_snoc, h1]
    exact h2

theorem slotKey_insert_ (s s' : ADS_set Nat) (k p : Nat) (hI : Inv id s) (hK : SlotIsKey s)
    (hk : k < s.table_size) (hns : ¬ stored s k) (h' : insert_ id s k = some (s', p)) :
    SlotIsKey s' ∧ s'.last_free = s.last_free := by
  have hh : h id s k = k := by
    unfold h
    exact Nat.mod_eq_of_lt hk
  rcases insert__spec id s s' k p h' with
    ⟨e, he, hm, _, hs⟩ | ⟨e, c, t, et0, et, he, hm, hc, hp, het0, hn0, het, _, hs⟩
  · have hlt := lt_of_get he
    have hget := fun i => get_set s.table (⟨k, Mode.used, none⟩ : element Nat) i hlt
    rw [hs]
    refine ⟨?_, rfl⟩
    intro i e1 h1 h2
    simp only [hget] at h1
    split at h1
    · next hi =>
      cases h1
      rw [hi, hh]
    · exact hK i e1 h1 h2
  · exfalso
    have hts := hI.ts_le
    have hem := hI.inv_used_of_not_free id s he (by rw [hh]; omega) hm
    have hkey := hK _ e he hem
    exact hns ⟨_, e, he, hem, hkey.trans hh⟩

theorem slotKey_reinsert (l : List (element Nat)) :
    ∀ (s s' : ADS_set Nat), Inv id s → SlotIsKey s →
      (∀ x, x ∈ usedKeys l → x < s.table_size) → (usedKeys l).Nodup →
      (∀ x, x ∈ usedKeys l → ¬ stored s x) → reinsert id l s = some s' →
      SlotIsKey s' ∧ s'.last_free = s.last_free := by
  induction l with
  | nil =>
    intro s s' _ hK _ _ _ h'
    simp only [reinsert, Option.some.injEq] at h'
    rw [← h']
    exact ⟨hK, rfl⟩
  | cons e rest ih =>
    intro s s' hI hK hlt hnd hns h'
    rw [usedKeys_cons] at hlt hnd hns
    unfold reinsert at h'
    by_cases hm : e.mode = Mode.used
    · simp only [if_pos hm] at hlt hnd hns h'
      rw [List.nodup_cons] at hnd
      split at h'
      · cases h'
      · next s1 p hins =>
        obtain ⟨hK1, hlf1⟩ := slotKey_insert_ s s1 e.key p hI hK
          (hlt e.key (List.mem_cons_self _ _)) (hns e.key (List.mem_cons_self _ _)) hins
        obtain ⟨_, hT1, _, _⟩ := insert__fields id s s1 e.key p hins
        have hst := stored_insert_ id s s1 e.key p hI hins
        obtain ⟨hK', hlf'⟩ := ih s1 s' (hI.inv_insert_ id s s1 e.key p hins) hK1
          (fun x hx => by rw [hT1]; exact hlt x (List.mem_cons_of_mem _ hx)) hnd.2
          (by
            intro x hx hsx
            rcases (hst x).1 hsx with hxe | hsx
            · rw [hxe] at hx
              exact hnd.1 hx
            · exact hns x (List.mem_cons_of_mem _ hx) hsx) h'
        exact ⟨hK', hlf'.trans hlf1⟩
    · simp only [if_neg hm] at hlt hnd hns h'
      exact ih s s' hI hK hlt hnd hns h'

theorem slotKey_rehash (s s' : ADS_set Nat) (n : Nat) (hI : Inv id s) (hD : DistinctKeys s)
    (hlt : ∀ x, stored s x → x < max N (max n (minTableFor s.curr_size)))
    (h' : rehash id s n = some s') :
    SlotIsKey s' ∧ s'.last_free = s'.tableWithKeller_size - 1 := by
  obtain ⟨hmem, hnd, _⟩ := usedKeys_take id s hI
  have hN := N_pos
  have hk := le_kellerOf_add (max N (max n (minTableFor s.curr_size)))
  have hW := (reinsert_fields id _ _ s' (by unfold rehash at h'; exact h')).2.2
  unfold rehash at h'
  simp only at h' hW
  obtain ⟨hK', hlf'⟩ := slotKey_reinsert _ _ s'
    (Inv.inv_new_table id _ _ _ (by omega) hk (by omega))
    (by
      intro i e h1 h2
      exact absurd ⟨i, e, h1, h2, rfl⟩ (not_stored_new_table _ _ _ e.key))
    (fun x hx => hlt x ((hmem x).1 hx)) (hnd hD)
    (fun x _ => not_stored_new_table _ _ _ x) h'
  refine ⟨hK', ?_⟩
  rw [hlf', hW]

theorem overLoad_top (m : Nat) (hm : m ≤ 2516582) : overLoad m 4194303 = false := by
  have hR : round24 (round24 4194303 false * 10066330) false = 2516582 * 16777216 := by decide
  have hm' : round24 m false = m := by
    unfold round24
    rw [if_pos (by omega)]
  simp only [overLoad, hR, hm', decide_eq_false_iff_not, not_lt]
  omega

theorem overLoad_below : ∀ j, j < 18 → overLoad 2516582 (growth_seq 7 j) = true := by
  decide

theorem growth_seq_18 : growth_seq 7 18 = 4194303 := by decide

theorem growth_seq_add (T j : Nat) :
    ∀ i, growth_seq (growth_seq T j) i = growth_seq T (j + i + 1) := by
  intro i
  induction i with
  | zero => rfl
  | succ i ih =>
    have h1 : growth_seq (growth_seq T j) (i + 1) = 2 * growth_seq (growth_seq T j) i + 1 := rfl
    have h2 : growth_seq T (j + (i + 1) + 1) = 2 * growth_seq T (j + i + 1) + 1 := rfl
    rw [h1, h2, ih]

end counted

section counted2

theorem kellerOf_top (T : Nat) (hT : 15 ≤ T) : 2 ≤ kellerOf T := by
  unfold kellerOf
  omega

/-- What `reserve(n + 1)` leaves before key `n` is written. -/
theorem counted_reserve (n : Nat) (s s1 : ADS_set Nat) (hn : n + 1 ≤ 2516582)
    (hC : Counted n s) (hres : reserve id s (n + 1) = some s1) :
    SlotIsKey s1 ∧ s1.last_free = s1.tableWithKeller_size - 1 ∧
      s1.tableWithKeller_size = s1.table_size + kellerOf s1.table_size ∧
      ∃ j, j ≤ 18 ∧ s1.table_size = growth_seq 7 j ∧ overLoad (n + 1) s1.table_size = false := by
  have hI := hC.inv
  have hsize := hC.size
  have hshape := hC.shape
  have hcur := hC.cursor
  have hk7 : kellerOf 7 = 1 := by decide
  have htop := overLoad_top (n + 1) hn
  have hnT : n ≤ s.table_size := by
    rcases hC.cap with ⟨h0, _⟩ | ⟨_, j, _, _, hov⟩
    · omega
    · exact not_overLoad_le n _ hov
  have hT7 : 7 ≤ s.table_size := by
    rcases hC.cap with ⟨_, h7⟩ | ⟨_, j, _, hj, _⟩
    · omega
    · have := le_growth_seq 7 j
      omega
  unfold reserve at hres
  split at hres
  · next hcond =>
    split at hres
    · cases hres
    · next c hc =>
      obtain ⟨j', hj', hov, hfirst⟩ := grow_loop_first _ _ _ _ hc
      have hovc : overLoad (n + 1) c = false := by rw [hj']; exact hov
      have hcge := le_growth_seq s.table_size j'
      rw [← hj'] at hcge
      obtain ⟨_, hts⟩ := rehash_fields id s s1 c hI hres
      have hmin := minTableFor_le s.curr_size
      have hmax : max N (max c (minTableFor s.curr_size)) = c := by
        unfold N
        omega
      rw [hmax] at hts
      obtain ⟨_, hshape1⟩ := rehash_shape id s s1 c hres
      obtain ⟨hK1, hlf1⟩ := slotKey_rehash s s1 c hI hC.distinct
        (by
          intro x hx
          have := (hC.keys x).1 hx
          rw [hmax]
          omega) hres
      refine ⟨hK1, hlf1, hshape1, ?_⟩
      rw [hts]
      rcases hC.cap with ⟨_, h7⟩ | ⟨hn1, j, hj18, hj, hovn⟩
      · rw [h7] at hj' hfirst
        refine ⟨j', ?_, hj', ?_⟩
        · by_contra hcon
          have h1 := hfirst 18 (by omega)
          rw [growth_seq_18, htop] at h1
          cases h1
        · exact hovc
      · rw [hj] at hj' hfirst
        have hjne : j ≠ 18 := by
          intro h18
          rw [h18, growth_seq_18] at hj
          rcases hcond with h1 | h1
          · rw [hj, htop] at h1
            cases h1
          · have := kellerOf_top s.table_size (by omega)
            omega
        rw [growth_seq_add] at hj'
        refine ⟨j + j' + 1, ?_, hj', ?_⟩
        · by_contra hcon
          have h1 := hfirst (17 - j) (by omega)
          rw [growth_seq_add, show j + (17 - j) + 1 = 18 by omega, growth_seq_18, htop] at h1
          cases h1
        · exact hovc
  · next hcond =>
    cases hres
    refine ⟨hC.slotKey, hcur, hshape, ?_⟩
    have hov : overLoad (n + 1) s.table_size = false := by
      cases hb : overLoad (n + 1) s.table_size with
      | false => rfl
      | true => exact absurd (Or.inl hb) hcond
    rcases hC.cap with ⟨_, h7⟩ | ⟨_, j, hj18, hj, _⟩
    · exfalso
      apply hcond
      right
      rw [hcur, hshape, h7, hk7]
    · exact ⟨j, hj18, hj, hov⟩

/-- Inserting key `n` after the keys `0, …, n-1`. -/
theorem counted_step (n : Nat) (s : ADS_set Nat) (hn : n + 1 ≤ 2516582) (hC : Counted n s) :
    ∃ s' p, insert id s n = some (s', p, true) ∧ Counted (n + 1) s' := by
  have hI := hC.inv
  have hns : ¬ stored s n := fun hst => Nat.lt_irrefl n ((hC.keys n).1 hst)
  have hfind := (find__none_iff id s n hI hC.findable).2 hns
  obtain ⟨s1, hres, hI1, hF1, hD1, hst1⟩ :=
    reserve_good id s (n + 1) hI hC.findable hC.distinct
  obtain ⟨_, hc1, _⟩ := reserve_spec id s s1 _ hI hres
  obtain ⟨hK1, hlf1, hshape1, j, hj18, hj, hov⟩ := counted_reserve n s s1 hn hC hres
  have hnT := not_overLoad_le (n + 1) _ hov
  have hts1 := hI1.ts_le
  have hsz := hC.size
  have hns1 : ¬ stored s1 n := fun hst => hns ((hst1 n).1 hst)
  obtain ⟨s2, p, hins⟩ := insert__total id s1 n hI1 hF1 (by omega)
  obtain ⟨hK2, hlf2⟩ := slotKey_insert_ s1 s2 n p hI1 hK1 (by omega) hns1 hins
  obtain ⟨hc2, hT2, hW2, _⟩ := insert__fields id s1 s2 n p hins
  have hst2 := stored_insert_ id s1 s2 n p hI1 hins
  refine ⟨s2, p, ?_, ?_⟩
  · have hres' : reserve id s (s.curr_size + 1) = some s1 := by rw [hsz]; exact hres
    unfold insert
    simp only [hfind, hres', hins]
  · refine ⟨hI1.inv_insert_ id s1 s2 n p hins, hF1.findable_insert_ id s1 s2 n p hI1 hins,
      hD1.distinct_insert_ id s1 s2 n p hI1 hns1 hins, hK2, ?_, ?_, ?_, ?_, ?_⟩
    · rw [hlf2, hW2]
      exact hlf1
    · rw [hW2, hT2]
      exact hshape1
    · omega
    · intro x
      rw [hst2 x, hst1 x, hC.keys x]
      omega
    · exact Or.inr ⟨by omega, j, hj18, by rw [hT2]; exact hj, by rw [hT2]; exact hov⟩

theorem counted_zero : ∃ s, run_fresh id (count_ops 0) = some s ∧ Counted 0 s := by
  have hC := @cellarOnly_ctor Nat _ id
  refine ⟨_, ?_, ⟨hC.inv, hC.findable, hC.distinct, ?_, rfl, rfl, rfl, ?_, Or.inl ⟨rfl, rfl⟩⟩⟩
  · unfold run_fresh count_ops
    rw [ctor_eq]
    rfl
  · intro i e h1 h2
    exact absurd ⟨i, e, h1, h2, rfl⟩ (not_stored_new_table 7 8 7 e.key)
  · intro x
    constructor
    · intro hx
      exact absurd hx (not_stored_new_table 7 8 7 x)
    · intro hx
      omega

theorem counted_run : ∀ n, n ≤ 2516582 →
    ∃ s, run_fresh id (count_ops n) = some s ∧ Counted n s := by
  intro n
  induction n with
  | zero => intro _; exact counted_zero
  | succ n ih =>
    intro hn
    obtain ⟨s, hrun, hC⟩ := ih (by omega)
    obtain ⟨s', p, hins, hC'⟩ := counted_step n s hn hC
    refine ⟨s', ?_, hC'⟩
    have hops : count_ops (n + 1) = count_ops n ++ [Op.ins n] := by
      unfold count_ops
      rw [List.range_succ, List.map_append]
      rfl
    rw [hops]
    refine run_fresh_snoc id _ _ s s' hrun ?_
    simp only [step, hins, Option.map_some']

/-- C9 fails on the code: with the identity hash, after the keys
`0, 1, …, 2516580` were inserted in this order into a default-constructed set,
`insert(2516581)` adds its key and the set then holds `2516582` keys in a
primary zone of `4194303` slots, so that `5 * size() > 3 * table_size`: the load
factor exceeds `0.6`.  The binary32 product `4194303 * max_lf` rounds to
`2516582.0`, so the load test of `reserve` does not ask for growth. -/
theorem load_factor_exceeded :
    ∃ (s0 s : ADS_set Nat) (p : Nat), run_fresh id (count_ops 2516581) = some s0 ∧
      insert id s0 2516581 = some (s, p, true) ∧ size s = 2516582 ∧
      s.table_size = 4194303 ∧ 3 * s.table_size < 5 * size s := by
  obtain ⟨s0, hrun, hC⟩ := counted_run 2516581 (by omega)
  obtain ⟨s, p, hins, hC'⟩ := counted_step 2516581 s0 (by omega) hC
  have hsz : size s = 2516582 := hC'.size
  have hT : s.table_size = 4194303 := by
    rcases hC'.cap with ⟨h0, _⟩ | ⟨_, j, hj18, hj, hov⟩
    · omega
    · have hj' : j = 18 := by
        by_contra hne
        have h1 := overLoad_below j (by omega)
        rw [hj] at hov
        rw [hov] at h1
        cases h1
      rw [hj, hj', growth_seq_18]
  refine ⟨s0, s, p, hrun, hins, hsz, hT, ?_⟩
  rw [hsz, hT]
  omega

/-- C17 fails on the code: `reserve(2516582)` on a default-constructed set (the
call the copy constructor makes for a set of `2516582` keys) grows the primary
zone from `7` to `4194303` slots, the nineteenth capacity of the sequence
`15, 31, 63, …`, although `2516582 > 0.6 * 4194303`; the first capacity `c` of
the sequence with `2516582 <= 0.6 * c` is the twentieth, `8388607`. -/
theorem growth_stops_early :
    ∃ (s0 s' : ADS_set Nat), ctor id = some s0 ∧ s0.table_size = 7 ∧
      reserve id s0 2516582 = some s' ∧ s'.table_size = 4194303 ∧
      growth_seq 7 18 = 4194303 ∧ 3 * 4194303 < 5 * 2516582 ∧
      growth_seq 7 19 = 8388607 ∧ 5 * 2516582 ≤ 3 * 8388607 := by
  have hrun : run_fresh id ([] : List (Op Nat)) =
      some ({ table := new_table 8, last_free := 7, table_size := 7, curr_size := 0,
              tableWithKeller_size := 8 } : ADS_set Nat) := by
    unfold run_fresh
    rw [ctor_eq]
    rfl
  obtain ⟨s', j, hres, hts, hov, hfirst, _⟩ :=
    growth_schedule id [] _ 2516582 hrun (Or.inr rfl)
  simp only at hts hov hfirst
  have hj : j = 18 := by
    by_contra hne
    rcases Nat.lt_or_gt_of_ne hne with hlt | hgt
    · have h1 := overLoad_below j hlt
      rw [hov] at h1
      cases h1
    · have h1 := hfirst 18 hgt
      rw [growth_seq_18, overLoad_top 2516582 (Nat.le_refl _)] at h1
      cases h1
  rw [hj, growth_seq_18] at hts
  exact ⟨_, s', ctor_eq id, rfl, hres, hts, by decide, by decide, by decide, by decide⟩

end counted2

section first_insert

/-- C4 fails on the code: in the set built by `wrap_ops` key `90` is absent and the
first `insert(90)` does not return: its free-slot scan starts at slot `4`, finds
the slots `4, 3, 2, 1, 0` all `used` and decrements the unsigned cursor below
`0`, so that the next read is outside the array; no second call follows. -/
theorem first_insert_leaves_array :
    run_fresh id wrap_ops = some wrap_set ∧ count id wrap_set 90 = some 0 ∧
      insert id wrap_set 90 = none ∧
      (insert id wrap_set 90).bind (fun r => insert id r.1 90) = none := by
  decide

end first_insert

end ADS
